import Mathlib

/-!
Verification of the iCalendar (.ics) tokenizer, parser and encoder of the
bounoable/ical Go package, as a shallow embedding in Lean.

The embedding follows the Go sources:
  lex/lexer.go       : rune reading with streaming line unfolding (readRune)
  lex/state.go       : the lexer state machine (lexContentLine, lexNewLine,
                       lexName, lexValue, lexParamName, lexParamValue)
  parse/parser.go    : the descent parser (parseCalendar, parseEvent,
                       parseAlarm, parseProperty, parseParams, parseTime,
                       parseDTEND, parseLayout, normalizeDateTimeValue)
  parse/calendar.go  : the data model and the end-time rules (finalize,
                       applyDuration, applyImplicitOneDayDuration,
                       applyImplicitEndOfDayDuration)
  parse/duration.go  : the DURATION grammar (durationParser.parse)
  encode/encode.go   : the encoder (Encoder.Encode / event / alarm / property)

Strings are modelled as rune lists (List Char); byte positions use the UTF-8
byte length of each rune.  Machine integers (time.Duration is an int64 of
nanoseconds) are modelled as Int with explicit two-sided wrapping where the Go
arithmetic can overflow.
-/

set_option maxRecDepth 100000

namespace Ical

/-! ## Character classes

Go's unicode.IsControl returns true exactly on the Latin-1 control runes and
false above 0xFF.  unicode.IsSpace is a fixed Latin-1 set plus the finite
White_Space set above 0xFF; both are reproduced exactly.  unicode.IsLetter and
unicode.IsDigit consult full Unicode range tables above Latin-1; the RFC 5545
grammar implemented by the lexer (iana-token = 1*(ALPHA / DIGIT / "-")) only
uses ASCII names, so the model reproduces the Latin-1 range of the Go tables
exactly and classifies runes above 0xFF as neither letters nor digits.
-/

/-- unicode.IsControl: Latin-1 control runes only. -/
def goIsControl (c : Char) : Bool :=
  c.toNat ≤ 0x1f || c.toNat == 0x7f || (0x80 ≤ c.toNat && c.toNat ≤ 0x9f)

/-- unicode.IsSpace: Latin-1 spaces plus the White_Space runes above 0xFF. -/
def goIsSpace (c : Char) : Bool :=
  let n := c.toNat
  n == 0x09 || n == 0x0a || n == 0x0b || n == 0x0c || n == 0x0d ||
  n == 0x20 || n == 0x85 || n == 0xa0 ||
  n == 0x1680 || (0x2000 ≤ n && n ≤ 0x200a) || n == 0x2028 || n == 0x2029 ||
  n == 0x202f || n == 0x205f || n == 0x3000

/-- unicode.IsLetter restricted to the Latin-1 range (exact there). -/
def goIsLetter (c : Char) : Bool :=
  let n := c.toNat
  (0x41 ≤ n && n ≤ 0x5a) || (0x61 ≤ n && n ≤ 0x7a) ||
  n == 0xaa || n == 0xb5 || n == 0xba ||
  (0xc0 ≤ n && n ≤ 0xd6) || (0xd8 ≤ n && n ≤ 0xf6) || (0xf8 ≤ n && n ≤ 0xff)

/-- unicode.IsDigit restricted to the Latin-1 range (exact there). -/
def goIsDigit (c : Char) : Bool :=
  0x30 ≤ c.toNat && c.toNat ≤ 0x39

/-- lex/state.go isNameChar: a unicode letter, digit or dash. -/
def isNameChar (c : Char) : Bool :=
  goIsLetter c || goIsDigit c || c == '-'

/-- lex/state.go isQSafeChar: any character except CONTROL and DQUOTE. -/
def isQSafeChar (c : Char) : Bool :=
  !goIsControl c && c != '"'

/-- lex/state.go isSafeChar: qsafe and none of the param delimiters. -/
def isSafeChar (c : Char) : Bool :=
  isQSafeChar c && c != ';' && c != ':' && c != ','

/-- lex/state.go isValueChar: horizontal tab or any non-control rune.
utf8.ValidRune always holds for a Lean Char (a unicode scalar value). -/
def isValueChar (c : Char) : Bool :=
  c == '\t' || !goIsControl c

/-- UTF-8 byte length of a rune. -/
def utf8Len (c : Char) : Nat :=
  if c.toNat < 0x80 then 1
  else if c.toNat < 0x800 then 2
  else if c.toNat < 0x10000 then 3
  else 4

/-- UTF-8 byte length of a rune list. -/
def byteLen (cs : List Char) : Nat :=
  (cs.map utf8Len).sum

theorem utf8Len_pos (c : Char) : 0 < utf8Len c := by
  unfold utf8Len
  split <;> try simp
  split <;> try simp
  split <;> simp

theorem utf8Len_le_four (c : Char) : utf8Len c ≤ 4 := by
  unfold utf8Len
  split <;> try simp
  split <;> try simp
  split <;> simp

theorem byteLen_nil : byteLen [] = 0 := rfl

theorem byteLen_cons (c : Char) (cs : List Char) :
    byteLen (c :: cs) = utf8Len c + byteLen cs := rfl

theorem byteLen_append (xs ys : List Char) :
    byteLen (xs ++ ys) = byteLen xs + byteLen ys := by
  induction xs with
  | nil => simp [byteLen]
  | cons c cs ih => simp [byteLen_cons, ih]; ring

/-! ## Line unfolding (lex/lexer.go readRune)

readRune pulls runes from the raw input into the lexer buffer, deleting
fold sequences before the state machine ever sees them.  Processed from the
left, the groups are:
  - an ordinary rune is buffered;
  - LF followed by a space rune: both dropped (a fold);
  - CR followed by LF followed by a space rune: all three dropped (a fold);
  - CR followed by LF followed by a non-space rune: all three buffered;
  - CR or LF followed by anything else: both runes buffered;
  - a break rune whose group is cut short by end of input is dropped
    (readRune returns the read error without buffering).
-/

def unfold : List Char → List Char
  | [] => []
  | c :: rest =>
    if c = '\r' ∨ c = '\n' then
      match rest with
      | [] => []
      | c2 :: rest2 =>
        if c = '\n' then
          if goIsSpace c2 then unfold rest2
          else '\n' :: c2 :: unfold rest2
        else
          if c2 = '\n' then
            match rest2 with
            | [] => []
            | c3 :: rest3 =>
              if goIsSpace c3 then unfold rest3
              else '\r' :: '\n' :: c3 :: unfold rest3
          else '\r' :: c2 :: unfold rest2
    else c :: unfold rest

/-! ## Tokens (lex/item.go) -/

inductive ItemType where
  | error | eof
  | calendarBegin | calendarEnd
  | eventBegin | eventEnd
  | alarmBegin | alarmEnd
  | name | value | paramName | paramValue
  deriving DecidableEq, Repr

structure Item where
  type : ItemType
  itemValue : List Char
  deriving DecidableEq, Repr

/-- Characters of a string literal; convenience for building token texts. -/
def chars (s : String) : List Char := s.data

/-- Decimal digits of a position, as fmt %d prints a non-negative int. -/
def natChars (n : Nat) : List Char := (Nat.repr n).data

/-- lexer.emitAdvanced: emit the buffered text only when it is non-empty. -/
def emitAdvanced (t : ItemType) (v : List Char) : List Item :=
  if v = [] then [] else [⟨t, v⟩]

def unexpectedEOFItem (pos : Nat) : Item :=
  ⟨ItemType.error, chars "unexpected EOF at pos " ++ natChars pos⟩

/-- lexer.unexpected with the valid sets used by the state machine; the Go
message interpolates the valid runes with fmt %s of a string slice. -/
def unexpectedItem (pos : Nat) (valid : List Char) (got : Char) : Item :=
  ⟨ItemType.error,
    chars "expected character at pos " ++ natChars pos ++
    chars " to be one of [" ++ valid.intersperse ' ' ++ chars "]; got " ++ [got]⟩

def beginVCalendarChars : List Char := chars "BEGIN:VCALENDAR"
def endVCalendarChars : List Char := chars "END:VCALENDAR"
def beginVEventChars : List Char := chars "BEGIN:VEVENT"
def endVEventChars : List Char := chars "END:VEVENT"
def beginVAlarmChars : List Char := chars "BEGIN:VALARM"
def endVAlarmChars : List Char := chars "END:VALARM"

/-! ## The lexer state machine (lex/state.go)

Each state function takes the remaining unfolded input together with the
absolute byte position of its head (lexer.pos() = consumed + bufPos; the
buffer is empty on entry to every state).  The fuel argument bounds the
number of state transitions; lexDocument supplies more fuel than any input
can consume, so the fueled functions agree with the Go state machine.
-/

inductive LexState where
  | contentLine | newLine | name | value | paramName | paramValue

/-- The six state functions of lex/state.go as one fueled step function on a
state tag (Go dispatches through stateFunc values; the tag plays that role).
The recursion is structural in the fuel, which every state entry consumes. -/
def lexStep (strict : Bool) : Nat → LexState → List Char → Nat → List Item
  | 0, _, _, _ => []
  | fuel + 1, st, rem, pos =>
    match st with
    | .contentLine =>
      if beginVCalendarChars.isPrefixOf rem then
        ⟨ItemType.calendarBegin, beginVCalendarChars⟩ ::
          lexStep strict fuel .newLine (rem.drop 15) (pos + 15)
      else if endVCalendarChars.isPrefixOf rem then
        ⟨ItemType.calendarEnd, endVCalendarChars⟩ ::
          lexStep strict fuel .newLine (rem.drop 13) (pos + 13)
      else if beginVEventChars.isPrefixOf rem then
        ⟨ItemType.eventBegin, beginVEventChars⟩ ::
          lexStep strict fuel .newLine (rem.drop 12) (pos + 12)
      else if endVEventChars.isPrefixOf rem then
        ⟨ItemType.eventEnd, endVEventChars⟩ ::
          lexStep strict fuel .newLine (rem.drop 10) (pos + 10)
      else if beginVAlarmChars.isPrefixOf rem then
        ⟨ItemType.alarmBegin, beginVAlarmChars⟩ ::
          lexStep strict fuel .newLine (rem.drop 12) (pos + 12)
      else if endVAlarmChars.isPrefixOf rem then
        ⟨ItemType.alarmEnd, endVAlarmChars⟩ ::
          lexStep strict fuel .newLine (rem.drop 10) (pos + 10)
      else lexStep strict fuel .name rem pos
    | .newLine =>
      match rem with
      | [] => [⟨ItemType.eof, []⟩]
      | c :: rest =>
        if c = '\r' then
          match rest with
          | [] =>
            [⟨ItemType.error,
              chars "expected end of line at pos " ++ natChars (pos + 1) ++
              chars "; got " ++ [Char.ofNat 0xfffd]⟩]
          | c2 :: rest2 =>
            if c2 = '\n' then
              match rest2 with
              | [] => [⟨ItemType.eof, []⟩]
              | _ => lexStep strict fuel .contentLine rest2 (pos + 2)
            else
              [⟨ItemType.error,
                chars "expected end of line at pos " ++
                natChars (pos + 1 + utf8Len c2) ++ chars "; got " ++ [c2]⟩]
        else if c = '\n' && strict then
          [⟨ItemType.error,
            chars "missing carriage return (CR) at pos " ++ natChars (pos + 1)⟩]
        else if c = '\n' then
          match rest with
          | [] => [⟨ItemType.eof, []⟩]
          | _ => lexStep strict fuel .contentLine rest (pos + 1)
        else
          [⟨ItemType.error,
            chars "expected end of line at pos " ++ natChars (pos + utf8Len c) ++
            chars "; got " ++ [c]⟩]
    | .name =>
      let nm := rem.takeWhile isNameChar
      match rem.dropWhile isNameChar with
      | [] => [unexpectedEOFItem (pos + byteLen nm)]
      | c :: rest =>
        emitAdvanced ItemType.name nm ++
        (if c = ':' then lexStep strict fuel .value rest (pos + byteLen nm + 1)
         else if c = ';' then
           lexStep strict fuel .paramName rest (pos + byteLen nm + 1)
         else [unexpectedItem (pos + byteLen nm + utf8Len c) [':', ';'] c])
    | .value =>
      if (['\r', '\n']).isPrefixOf rem ∨ (['\n']).isPrefixOf rem then
        ⟨ItemType.value, []⟩ :: lexStep strict fuel .newLine rem pos
      else
        let v := rem.takeWhile isValueChar
        match rem.dropWhile isValueChar with
        | [] => [⟨ItemType.value, v⟩]
        | c :: rest =>
          emitAdvanced ItemType.value v ++
            lexStep strict fuel .newLine (c :: rest) (pos + byteLen v)
    | .paramName =>
      let nm := rem.takeWhile isNameChar
      match rem.dropWhile isNameChar with
      | [] => [unexpectedEOFItem (pos + byteLen nm)]
      | c :: rest =>
        emitAdvanced ItemType.paramName nm ++
        (if c = '=' then
           lexStep strict fuel .paramValue rest (pos + byteLen nm + 1)
         else if c = ':' then lexStep strict fuel .value rest (pos + byteLen nm + 1)
         else [unexpectedItem (pos + byteLen nm + utf8Len c) ['=', ':'] c])
    | .paramValue =>
      let v := rem.takeWhile isSafeChar
      match rem.dropWhile isSafeChar with
      | [] =>
        emitAdvanced ItemType.paramValue v ++
          [unexpectedEOFItem (pos + byteLen v)]
      | c :: rest =>
        emitAdvanced ItemType.paramValue v ++
        (if c = ':' then lexStep strict fuel .value rest (pos + byteLen v + 1)
         else if c = ';' then
           lexStep strict fuel .paramName rest (pos + byteLen v + 1)
         else if c = ',' then
           lexStep strict fuel .paramValue rest (pos + byteLen v + 1)
         else [unexpectedItem (pos + byteLen v + utf8Len c) [':'] c])

/-- lex/state.go lexContentLine. -/
def lexContentLine (strict : Bool) (fuel : Nat) (rem : List Char) (pos : Nat) :
    List Item :=
  lexStep strict fuel .contentLine rem pos

/-- lex/state.go lexNewLine. -/
def lexNewLine (strict : Bool) (fuel : Nat) (rem : List Char) (pos : Nat) :
    List Item :=
  lexStep strict fuel .newLine rem pos

/-- lex/state.go lexValue. -/
def lexValue (strict : Bool) (fuel : Nat) (rem : List Char) (pos : Nat) :
    List Item :=
  lexStep strict fuel .value rem pos


/-- lex.Reader / lex.Text: unfold the raw input and run the state machine
from lexContentLine; the fuel exceeds the number of state transitions any
input of this length can cause. -/
def lexDocument (strict : Bool) (input : List Char) : List Item :=
  let u := unfold input
  lexContentLine strict (8 * u.length + 16) u 0

/-! ## Signed 64-bit arithmetic

Go's time.Duration is an int64 of nanoseconds; additions and multiplications
wrap around in two's complement. -/

def wrap64 (x : Int) : Int := (x + 2 ^ 63) % 2 ^ 64 - 2 ^ 63

def add64 (a b : Int) : Int := wrap64 (a + b)

def mul64 (a b : Int) : Int := wrap64 (a * b)

def int64Max : Int := 2 ^ 63 - 1

/-- time.Second in nanoseconds. -/
def nsSecond : Int := 1000000000
/-- time.Minute in nanoseconds. -/
def nsMinute : Int := 60 * nsSecond
/-- time.Hour in nanoseconds. -/
def nsHour : Int := 60 * nsMinute
/-- parse/duration.go: day = time.Hour * 24. -/
def nsDay : Int := 24 * nsHour
/-- parse/duration.go: week = day * 7. -/
def nsWeek : Int := 7 * nsDay

/-! ## The DURATION grammar (parse/duration.go durationParser)

The parser follows the RFC 5545 dur-value grammar: an optional sign, a
mandatory P, then either a T-prefixed time part, a week part (which returns
immediately), or a day part optionally followed by a T-prefixed time part.
Positions in error messages count bytes, as durationParser.pos does. -/

instance {ε α : Type} [DecidableEq ε] [DecidableEq α] : DecidableEq (Except ε α) :=
  fun x y =>
    match x, y with
    | .ok a, .ok b =>
      if h : a = b then .isTrue (by rw [h]) else .isFalse (by simp [h])
    | .error a, .error b =>
      if h : a = b then .isTrue (by rw [h]) else .isFalse (by simp [h])
    | .ok _, .error _ => .isFalse (by simp)
    | .error _, .ok _ => .isFalse (by simp)

def digitsToNat (ds : List Char) : Nat :=
  ds.foldl (fun acc c => acc * 10 + (c.toNat - 0x30)) 0

def durUnexpectedEnd (pos : Nat) : List Char :=
  chars "unexpected end of duration at pos " ++ natChars pos

/-- durationParser.parseDigits: scan a digit run and convert it with
strconv.Atoi.  Running out of input during or before the scan is an error;
an empty digit run is an Atoi syntax error; a value beyond int64 range is an
Atoi range error. -/
def durParseDigits (rem : List Char) (pos : Nat) :
    Except (List Char) (Nat × List Char × Nat) :=
  match rem with
  | [] => .error (durUnexpectedEnd pos)
  | _ :: _ =>
    let ds := rem.takeWhile goIsDigit
    let rest := rem.dropWhile goIsDigit
    if rest = [] then .error (durUnexpectedEnd (pos + ds.length))
    else if ds = [] then
      .error (chars "string to int conversion failed: invalid syntax")
    else if (digitsToNat ds : Int) > int64Max then
      .error (chars "string to int conversion failed: value out of range")
    else
      .ok (digitsToNat ds, rest, ds.length)

/-- durationParser.parseTime: repeated digit runs with an H, M or S unit,
accumulated into a wrapped int64 total, until the input ends. -/
def durParseTimePart (fuel : Nat) (rem : List Char) (pos : Nat) (total : Int) :
    Except (List Char) Int :=
  match fuel with
  | 0 => .error (chars "out of fuel")
  | fuel + 1 =>
    match durParseDigits rem pos with
    | .error e => .error (chars "failed to parse digits: " ++ e)
    | .ok (num, rest, k) =>
      let pos := pos + k
      match rest with
      | [] => .error (durUnexpectedEnd pos)
      | c :: rest =>
        let unit : Except (List Char) Int :=
          if c = 'H' then .ok nsHour
          else if c = 'M' then .ok nsMinute
          else if c = 'S' then .ok nsSecond
          else .error (chars "expected one of [H M S] at pos " ++
            natChars (pos + utf8Len c) ++ chars "; got " ++ [c])
        match unit with
        | .error e => .error e
        | .ok one =>
          let total := add64 total (mul64 one num)
          match rest with
          | [] => .ok total
          | _ :: _ => durParseTimePart fuel rest (pos + 1) total

/-- durationParser.parse after the optional sign has been consumed: expect
the P, then the T, week or day forms, multiplying every produced value by
the sign multiplier. -/
def durParseCore (mult : Int) (rem : List Char) (pos : Nat) :
    Except (List Char) Int :=
  match rem with
  | [] =>
    .error (chars "expected 'P' at pos " ++ natChars pos ++
      chars "; got " ++ [Char.ofNat 0])
  | p :: rem =>
    if p ≠ 'P' then
      .error (chars "expected 'P' at pos " ++ natChars (pos + utf8Len p) ++
        chars "; got " ++ [p])
    else
      let pos := pos + 1
      match rem with
      | [] => .error (durUnexpectedEnd pos)
      | t :: rem2 =>
        if t = 'T' then
          match durParseTimePart (rem2.length + 1) rem2 (pos + 1) 0 with
          | .error e => .error (chars "failed to parse time duration: " ++ e)
          | .ok dur => .ok (mul64 dur mult)
        else
          match durParseDigits (t :: rem2) pos with
          | .error e => .error (chars "failed to parse digits: " ++ e)
          | .ok (num, rest, k) =>
            let pos := pos + k
            match rest with
            | [] => .error (durUnexpectedEnd pos)
            | u :: rest =>
              if u = 'W' then .ok (mul64 (mul64 nsWeek num) mult)
              else if u = 'D' then
                let dayDur := mul64 nsDay num
                match rest with
                | [] => .ok (mul64 dayDur mult)
                | t2 :: rest2 =>
                  if t2 = 'T' then
                    match durParseTimePart (rest2.length + 1) rest2 (pos + 2) 0 with
                    | .error e => .error e
                    | .ok timeDur => .ok (mul64 (add64 dayDur timeDur) mult)
                  else
                    .error (chars "unexpected " ++ [t2] ++ chars " at pos " ++
                      natChars (pos + 1 + utf8Len t2))
              else
                .error (chars "expected one of [W D] at pos " ++
                  natChars (pos + utf8Len u) ++ chars "; got " ++ [u])

/-- durationParser.parse: an optional sign, then the P-prefixed body. -/
def durationParse (raw : List Char) : Except (List Char) Int :=
  match raw with
  | [] => .error (durUnexpectedEnd 0)
  | c :: rest =>
    if c = '-' then durParseCore (-1) rest 1
    else if c = '+' then durParseCore 1 rest 1
    else durParseCore 1 (c :: rest) 0

/-- parse/duration.go parseDuration: the empty string resolves to the zero
duration without invoking the grammar. -/
def parseDuration (raw : List Char) : Except (List Char) Int :=
  if raw = [] then .ok 0 else durationParse raw

example : parseDuration (chars "PT10S") = .ok (10 * 1000000000) := by decide
example : parseDuration (chars "PT8H2M") = .ok (8 * 3600000000000 + 2 * 60000000000) := by decide
example : parseDuration (chars "P4W") = .ok (4 * 7 * 24 * 3600000000000) := by decide
example : parseDuration (chars "P7DT4H10S") =
    .ok ((7 * 24 + 4) * 3600000000000 + 10 * 1000000000) := by decide
example : parseDuration (chars "-PT10S") = .ok (-(10 * 1000000000)) := by decide
example : parseDuration (chars "P2W4D5H2M10S") = .ok (14 * 24 * 3600000000000) := by decide

theorem wrap64_mod (x : Int) : wrap64 x % 2 ^ 64 = x % 2 ^ 64 := by
  unfold wrap64; omega

theorem wrap64_congr {x y : Int} (h : x % 2 ^ 64 = y % 2 ^ 64) :
    wrap64 x = wrap64 y := by
  unfold wrap64; omega

theorem wrap64_wrap64 (x : Int) : wrap64 (wrap64 x) = wrap64 x :=
  wrap64_congr (wrap64_mod x)

theorem mul64_wrap_left (x m : Int) : mul64 (wrap64 x) m = mul64 x m :=
  wrap64_congr (Int.ModEq.mul_right m (wrap64_mod x))

theorem mul64_one (x : Int) : mul64 x 1 = wrap64 x := by
  unfold mul64; rw [mul_one]

theorem mul64_mul64_one (x m : Int) : mul64 (mul64 x 1) m = mul64 x m := by
  rw [mul64_one, mul64_wrap_left]

theorem durParseDigits_pos_shift {rem : List Char} {p q : Nat}
    {x : Nat × List Char × Nat} (h : durParseDigits rem p = .ok x) :
    durParseDigits rem q = .ok x := by
  cases rem with
  | nil => simp [durParseDigits] at h
  | cons c cs =>
    simp only [durParseDigits] at h ⊢
    split_ifs at h ⊢ with h1 h2 h3 <;>
      first
      | rw [h]
      | simp at h

theorem durParseTimePart_pos_shift :
    ∀ (fuel : Nat) (rem : List Char) (p q : Nat) (tot v : Int),
      durParseTimePart fuel rem p tot = .ok v →
      durParseTimePart fuel rem q tot = .ok v := by
  intro fuel
  induction fuel with
  | zero => intro rem p q tot v h; simp [durParseTimePart] at h
  | succ fuel ih =>
    intro rem p q tot v h
    rw [durParseTimePart] at h ⊢
    cases hdig : durParseDigits rem p with
    | error e => rw [hdig] at h; simp at h
    | ok x =>
      rw [hdig] at h
      rw [durParseDigits_pos_shift (q := q) hdig]
      obtain ⟨num, rest, k⟩ := x
      cases rest with
      | nil => simp at h
      | cons c rest =>
        simp only [] at h ⊢
        split_ifs at h ⊢ with h1 h2 h3
        all_goals simp only [] at h ⊢
        all_goals try simp at h
        all_goals
          cases rest with
          | nil => simpa using h
          | cons d ds => exact ih _ _ _ _ _ h

theorem durParseCore_ok_wrapped :
    ∀ (mult : Int) (rem : List Char) (pos : Nat) (v : Int),
      durParseCore mult rem pos = .ok v → wrap64 v = v := by
  intro mult rem pos v h
  cases rem with
  | nil => simp [durParseCore] at h
  | cons p rem =>
    rw [durParseCore] at h
    by_cases h1 : p ≠ 'P'
    · rw [if_pos h1] at h; simp at h
    · rw [if_neg h1] at h
      cases rem with
      | nil => simp at h
      | cons t rem2 =>
        simp only [] at h
        by_cases h2 : t = 'T'
        · rw [if_pos h2] at h
          cases htp : durParseTimePart (rem2.length + 1) rem2 (pos + 1 + 1) 0 with
          | error e => rw [htp] at h; simp at h
          | ok dur =>
            rw [htp] at h
            simp only [Except.ok.injEq] at h
            rw [← h]; exact wrap64_wrap64 _
        · rw [if_neg h2] at h
          cases hdig : durParseDigits (t :: rem2) (pos + 1) with
          | error e => rw [hdig] at h; simp at h
          | ok x =>
            rw [hdig] at h
            obtain ⟨num, rest, k⟩ := x
            simp only [] at h
            cases rest with
            | nil => simp at h
            | cons u rest2 =>
              simp only [] at h
              by_cases h3 : u = 'W'
              · rw [if_pos h3] at h
                simp only [Except.ok.injEq] at h
                rw [← h]; exact wrap64_wrap64 _
              · rw [if_neg h3] at h
                by_cases h4 : u = 'D'
                · rw [if_pos h4] at h
                  cases rest2 with
                  | nil =>
                    simp only [Except.ok.injEq] at h
                    rw [← h]; exact wrap64_wrap64 _
                  | cons t2 rest3 =>
                    simp only [] at h
                    by_cases h5 : t2 = 'T'
                    · rw [if_pos h5] at h
                      cases htp : durParseTimePart (rest3.length + 1) rest3
                          (pos + 1 + k + 2) 0 with
                      | error e => rw [htp] at h; simp at h
                      | ok timeDur =>
                        rw [htp] at h
                        simp only [Except.ok.injEq] at h
                        rw [← h]; exact wrap64_wrap64 _
                    · rw [if_neg h5] at h; simp at h
                · rw [if_neg h4] at h; simp at h

theorem durParseCore_shift_mult (m : Int) :
    ∀ (rem : List Char) (p q : Nat) (v : Int),
      durParseCore 1 rem p = .ok v →
      durParseCore m rem q = .ok (mul64 v m) := by
  intro rem p q v h
  cases rem with
  | nil => simp [durParseCore] at h
  | cons c rem =>
    rw [durParseCore] at h ⊢
    by_cases h1 : c ≠ 'P'
    · rw [if_pos h1] at h; simp at h
    · rw [if_neg h1] at h
      rw [if_neg h1]
      cases rem with
      | nil => simp at h
      | cons t rem2 =>
        simp only [] at h ⊢
        by_cases h2 : t = 'T'
        · rw [if_pos h2] at h
          rw [if_pos h2]
          cases htp : durParseTimePart (rem2.length + 1) rem2 (p + 1 + 1) 0 with
          | error e => rw [htp] at h; simp at h
          | ok dur =>
            rw [htp] at h
            rw [durParseTimePart_pos_shift _ _ _ (q + 1 + 1) _ _ htp]
            simp only [Except.ok.injEq] at h ⊢
            rw [← h, mul64_mul64_one]
        · rw [if_neg h2] at h
          rw [if_neg h2]
          cases hdig : durParseDigits (t :: rem2) (p + 1) with
          | error e => rw [hdig] at h; simp at h
          | ok x =>
            rw [hdig] at h
            rw [durParseDigits_pos_shift (q := q + 1) hdig]
            obtain ⟨num, rest, k⟩ := x
            simp only [] at h ⊢
            cases rest with
            | nil => simp at h
            | cons u rest2 =>
              simp only [] at h ⊢
              by_cases h3 : u = 'W'
              · rw [if_pos h3] at h
                rw [if_pos h3]
                simp only [Except.ok.injEq] at h ⊢
                rw [← h, mul64_mul64_one]
              · rw [if_neg h3] at h
                rw [if_neg h3]
                by_cases h4 : u = 'D'
                · rw [if_pos h4] at h
                  rw [if_pos h4]
                  cases rest2 with
                  | nil =>
                    simp only [Except.ok.injEq] at h ⊢
                    rw [← h, mul64_mul64_one]
                  | cons t2 rest3 =>
                    simp only [] at h ⊢
                    by_cases h5 : t2 = 'T'
                    · rw [if_pos h5] at h
                      rw [if_pos h5]
                      cases htp : durParseTimePart (rest3.length + 1) rest3
                          (p + 1 + k + 2) 0 with
                      | error e => rw [htp] at h; simp at h
                      | ok timeDur =>
                        rw [htp] at h
                        rw [durParseTimePart_pos_shift _ _ _ (q + 1 + k + 2) _ _ htp]
                        simp only [Except.ok.injEq] at h ⊢
                        rw [← h, mul64_mul64_one]
                    · rw [if_neg h5] at h; simp at h
                · rw [if_neg h4] at h; simp at h

/-- C4, counterexample: the duration resolver maps "P2W4D5H2M10S" to exactly
2 weeks = 14 days, not to 18 days + 5 hours + 2 minutes + 10 seconds, because
the week branch of durationParser.parse returns immediately and the trailing
"4D5H2M10S" is silently ignored. -/
theorem C4_counterexample :
    parseDuration (chars "P2W4D5H2M10S") = .ok (14 * 86400000000000) ∧
    parseDuration (chars "P2W4D5H2M10S") ≠
      .ok (18 * 86400000000000 + 5 * 3600000000000 +
           2 * 60000000000 + 10 * 1000000000) := by
  constructor
  · decide
  · decide

/-- C4, amended: the duration resolver maps "P2W4D5H2M10S" to 14 days (the
2-week part only; everything after the W is ignored), and for any non-empty
duration string that does not itself start with a sign, a leading minus
yields the two's-complement negation of the unsigned parse while a leading
plus or no sign leaves the result unchanged. -/
theorem C4_theorem :
    parseDuration (chars "P2W4D5H2M10S") = .ok (14 * 86400000000000) ∧
    (∀ (s : List Char) (v : Int), s ≠ [] →
      s.head? ≠ some '-' → s.head? ≠ some '+' →
      parseDuration s = .ok v →
      parseDuration ('-' :: s) = .ok (mul64 v (-1)) ∧
      parseDuration ('+' :: s) = .ok v) := by
  refine ⟨by decide, ?_⟩
  intro s v hne hm hp hok
  cases s with
  | nil => exact absurd rfl hne
  | cons c rest =>
    have hcm : ¬c = '-' := fun hc => hm (by rw [hc]; rfl)
    have hcp : ¬c = '+' := fun hc => hp (by rw [hc]; rfl)
    have hcore : durParseCore 1 (c :: rest) 0 = .ok v := by
      rw [parseDuration, if_neg (by simp)] at hok
      rw [durationParse, if_neg hcm, if_neg hcp] at hok
      exact hok
    have hwrap : wrap64 v = v := durParseCore_ok_wrapped 1 _ 0 v hcore
    constructor
    · rw [parseDuration, if_neg (by simp), durationParse, if_pos rfl]
      exact durParseCore_shift_mult (-1) _ 0 1 v hcore
    · rw [parseDuration, if_neg (by simp), durationParse,
        if_neg (by decide), if_pos rfl]
      have := durParseCore_shift_mult 1 _ 0 1 v hcore
      rwa [mul64_one, hwrap] at this

/-- C4, witness: the sign clauses of the amended claim at the concrete
duration string "PT10S". -/
theorem C4_witness :
    parseDuration ('-' :: chars "PT10S") = .ok (mul64 (10 * 1000000000) (-1)) ∧
    parseDuration ('+' :: chars "PT10S") = .ok (10 * 1000000000) :=
  C4_theorem.2 (chars "PT10S") (10 * 1000000000)
    (by decide) (by decide) (by decide) (by decide)

/-! ## The data model (parse/calendar.go)

Parameters is a Go map from parameter name to an ordered value slice; the
model is an association list with unique keys, compared and consumed only
through content-level lookups, matching Go map semantics.  The Alarms field
on Calendar holds top-level alarms; the struct field is exercised by
parse/alarm_test.go. -/

abbrev Params := List (List Char × List (List Char))

def Params.lookup (ps : Params) (k : List Char) : Option (List (List Char)) :=
  (List.find? (fun p => p.1 == k) ps).map (fun p => p.2)

/-- Go map indexing: a missing key yields the nil slice. -/
def Params.getD (ps : Params) (k : List Char) : List (List Char) :=
  (ps.lookup k).getD []

/-- parse/calendar.go Parameters.Contains. -/
def Params.containsVal (ps : Params) (k v : List Char) : Bool :=
  List.any ps (fun p => p.1 == k && List.any p.2 (fun w => w == v))

/-- Go map assignment: replace the slice of an existing key, otherwise add
the key. -/
def Params.set (ps : Params) (k : List Char) (vs : List (List Char)) : Params :=
  match ps with
  | [] => [(k, vs)]
  | p :: rest =>
    if p.1 == k then (k, vs) :: rest else p :: Params.set rest k vs

structure Property where
  name : List Char
  params : Params
  value : List Char
  deriving DecidableEq, Inhabited

structure Alarm where
  properties : List Property
  action : List Char
  trigger : List Char
  deriving DecidableEq, Inhabited

/-! ## Time (the parts of Go package time used by the parser)

A Location is Go's zone list: an initial UTC offset in seconds and a sorted
list of transition instants with the offsets they switch to.  lookup returns
the offset of the zone containing a unix second together with the start and
end of that zone's validity interval, with Go's internal alpha and omega
sentinels.  An instant is stored as unix nanoseconds plus its location. -/

def alphaSec : Int := -(2 ^ 63)
def omegaSec : Int := 2 ^ 63 - 1

structure Location where
  base : Int
  trans : List (Int × Int)
  deriving DecidableEq, Inhabited

def lookupAux (off start : Int) (ts : List (Int × Int)) (sec : Int) :
    Int × Int × Int :=
  match ts with
  | [] => (off, start, omegaSec)
  | (w, o) :: rest =>
    if sec < w then (off, start, w) else lookupAux o w rest sec

def Location.lookup (loc : Location) (sec : Int) : Int × Int × Int :=
  lookupAux loc.base alphaSec loc.trans sec

def utcLoc : Location := ⟨0, []⟩

structure GoTime where
  nano : Int
  loc : Location
  deriving DecidableEq, Inhabited

/-- Days from civil (proleptic Gregorian), days relative to 1970-01-01. -/
def daysFromCivil (y m d : Int) : Int :=
  let y := y - (if m ≤ 2 then 1 else 0)
  let era := (if 0 ≤ y then y else y - 399) / 400
  let yoe := y - era * 400
  let doy := (153 * (m + (if 2 < m then -3 else 9)) + 2) / 5 + d - 1
  let doe := yoe * 365 + yoe / 4 - yoe / 100 + doy
  era * 146097 + doe - 719468

/-- Civil date from days relative to 1970-01-01. -/
def civilFromDays (z : Int) : Int × Int × Int :=
  let z := z + 719468
  let era := (if 0 ≤ z then z else z - 146096) / 146097
  let doe := z - era * 146097
  let yoe := (doe - doe / 1460 + doe / 36524 - doe / 146096) / 365
  let y := yoe + era * 400
  let doy := doe - (365 * yoe + yoe / 4 - yoe / 100)
  let mp := (5 * doy + 2) / 153
  let d := doy - (153 * mp + 2) / 5 + 1
  let m := mp + (if mp < 10 then 3 else -9)
  (y + (if m ≤ 2 then 1 else 0), m, d)

/-- time.go norm: push lo into the range 0..base-1 adjusting hi. -/
def goNorm (hi lo base : Int) : Int × Int :=
  let (hi, lo) :=
    if lo < 0 then
      let n := (-lo - 1) / base + 1
      (hi - n, lo + n * base)
    else (hi, lo)
  if base ≤ lo then
    let n := lo / base
    (hi + n, lo - n * base)
  else (hi, lo)

/-- time.Date: normalize the fields, compute the pseudo-UTC unix second,
then resolve the zone offset with the boundary refinement Go applies around
zone transitions. -/
def goDate (year month day hour minute sec nsec : Int) (loc : Location) :
    GoTime :=
  let (year, m0) := goNorm year (month - 1) 12
  let month := m0 + 1
  let (sec, nsec) := goNorm sec nsec 1000000000
  let (minute, sec) := goNorm minute sec 60
  let (hour, minute) := goNorm hour minute 60
  let (day, hour) := goNorm day hour 24
  let unix := daysFromCivil year month day * 86400 +
    hour * 3600 + minute * 60 + sec
  let (offset, start, stop) := loc.lookup unix
  let unix :=
    if offset = 0 then unix
    else
      let utc := unix - offset
      let offset :=
        if utc < start then (loc.lookup (start - 1)).1
        else if stop ≤ utc then (loc.lookup stop).1
        else offset
      unix - offset
  ⟨unix * 1000000000 + nsec, loc⟩

/-- The zero Time: January 1, year 1, 00:00:00 UTC. -/
def goZeroTime : GoTime := ⟨-62135596800 * 1000000000, utcLoc⟩

def GoTime.unixSec (t : GoTime) : Int := t.nano.ediv 1000000000

def GoTime.nsec (t : GoTime) : Int := t.nano.emod 1000000000

/-- The local second used by Date/Clock accessors: unix second plus the
offset of the zone containing the instant. -/
def GoTime.localSec (t : GoTime) : Int :=
  t.unixSec + (t.loc.lookup t.unixSec).1

/-- Time.Date: year, month, day in the location of t. -/
def GoTime.dateOf (t : GoTime) : Int × Int × Int :=
  civilFromDays (t.localSec.ediv 86400)

/-- Time.Clock: hour, minute, second in the location of t. -/
def GoTime.clockOf (t : GoTime) : Int × Int × Int :=
  let s := t.localSec.emod 86400
  (s / 3600, (s % 3600) / 60, s % 60)

/-- Time.Add: shift the instant, keep the location. -/
def GoTime.add (t : GoTime) (d : Int) : GoTime := ⟨t.nano + d, t.loc⟩

/-- Time.AddDate: via civil fields, re-resolved through time.Date. -/
def GoTime.addDate (t : GoTime) (years months days : Int) : GoTime :=
  let (y, m, d) := t.dateOf
  let (hh, mm, ss) := t.clockOf
  goDate (y + years) (m + months) (d + days) hh mm ss t.nsec t.loc

example :
    let berlin : Location := ⟨3600, [(1585443600, 7200)]⟩
    (goDate 2020 3 29 0 0 0 0 berlin).nano = 1585436400 * 1000000000 := by
  decide

example :
    let berlin : Location := ⟨3600, [(1585443600, 7200)]⟩
    ((goDate 2020 3 29 0 0 0 0 berlin).addDate 0 0 1).nano =
      1585519200 * 1000000000 := by
  decide

example :
    (goDate 2020 1 1 10 30 20 0 utcLoc).nano = 1577874620 * 1000000000 := by
  decide

/-! ## Short-time normalization (parse/parser.go normalizeDateTimeValue)

The Go code rewrites values matching ([0-9]+T)([0-9]3-5)(Z?)$ : since the
pattern is anchored at the end and the second group must directly follow the
T of the first, a match exists exactly when, after stripping an optional
trailing Z, the trailing maximal ASCII digit run has length 3 to 5 and is
preceded by a T that is itself preceded by a digit.  normalizeTimeValue
realigns the digits greedily (two digits per unit when they form a valid
value, else one) and re-formats as HHMMSS; formatting through
time.Date(now...).Format("150405") depends only on the hour, minute and
second, so the ambient current time drops out. -/

def digitVal (c : Char) : Int := (c.toNat : Int) - 0x30

def digitAt (val : List Char) (i : Nat) : Int := digitVal (val.getD i '0')

def twoAt (val : List Char) (i : Nat) : Int :=
  10 * digitAt val i + digitAt val (i + 1)

def digitChar (n : Int) : Char := Char.ofNat (0x30 + n.toNat)

def pad2 (n : Int) : List Char :=
  [digitChar (n / 10), digitChar (n % 10)]

def normalizeTimeValue (val : List Char) (digits : Nat) : List Char :=
  let target : Nat := digits - 3
  let hourStep : Int × Nat × Nat :=
    if twoAt val 0 < 24 then (twoAt val 0, 2, 1) else (digitAt val 0, 1, 0)
  let (hour, off1, found1) := hourStep
  let minuteStep : Int × Nat × Nat :=
    if found1 < target then
      if twoAt val off1 < 60 then (twoAt val off1, off1 + 2, found1 + 1)
      else (digitAt val off1, off1 + 1, found1)
    else (digitAt val off1, off1 + 1, found1)
  let (minute, off2, _found2) := minuteStep
  let secondStep : Int :=
    if _found2 < target then
      if twoAt val off2 < 60 then twoAt val off2 else digitAt val off2
    else digitAt val off2
  pad2 hour ++ pad2 minute ++ pad2 secondStep

def normalizeDateTimeValue (val : List Char) : List Char :=
  let rev := val.reverse
  let hasZ := rev.head? = some 'Z'
  let rev2 := if hasZ then rev.tail else rev
  let digitsRev := rev2.takeWhile goIsDigit
  let restRev := rev2.dropWhile goIsDigit
  let n := digitsRev.length
  if 3 ≤ n ∧ n ≤ 5 ∧ restRev.head? = some 'T' ∧
      (restRev.tail.head?.map goIsDigit) = some true then
    let timeVal := digitsRev.reverse
    let fixed :=
      if n = 3 then
        ['0', timeVal.getD 0 '0', '0', timeVal.getD 1 '0', '0', timeVal.getD 2 '0']
      else normalizeTimeValue timeVal n
    restRev.reverse ++ fixed ++ (if hasZ then ['Z'] else [])
  else val

example : normalizeDateTimeValue (chars "20200101T1358") = chars "20200101T130508" := by
  decide
example : normalizeDateTimeValue (chars "20200101T3158Z") = chars "20200101T031508Z" := by
  decide
example : normalizeDateTimeValue (chars "20200101T12305") = chars "20200101T123005" := by
  decide
example : normalizeDateTimeValue (chars "20200101T103020") = chars "20200101T103020" := by
  decide
example : normalizeDateTimeValue (chars "20200101") = chars "20200101" := by
  decide

/-! ## Time-value parsing (parse/parser.go parseTime and helpers) -/

def layoutDate : List Char := chars "20060102"
def layoutDateTimeUTC : List Char := chars "20060102T150405Z"
def layoutDateTimeLocal : List Char := chars "20060102T150405"

/-- parse/parser.go parseLayout: the last value of the VALUE parameter picks
the layout (DATE-TIME is local date-time, anything else is date-only); when
the chosen layout's byte length disagrees with the value, the layout is
re-inferred from the value's byte length. -/
def parseLayout (prop : Property) : List Char :=
  let fromParams : List Char :=
    match prop.params.lookup (chars "VALUE") with
    | none => []
    | some vals =>
      vals.foldl
        (fun _ v => if v == chars "DATE-TIME" then layoutDateTimeLocal
                    else layoutDate) []
  if byteLen fromParams ≠ byteLen prop.value then
    if byteLen prop.value = 8 then layoutDate
    else if byteLen prop.value = 15 then layoutDateTimeLocal
    else if byteLen prop.value = 16 then layoutDateTimeUTC
    else fromParams
  else fromParams

/-- Modelled zone database for time.LoadLocation: the parser only needs a
deterministic lookup; names other than UTC are treated as unknown. -/
def goLoadLocation (name : List Char) : Option Location :=
  if name = chars "UTC" then some utcLoc else none

def goIsLeapYear (y : Int) : Bool :=
  y % 4 = 0 && (y % 100 ≠ 0 || y % 400 = 0)

def goDaysIn (m y : Int) : Int :=
  if m = 2 then (if goIsLeapYear y then 29 else 28)
  else if m = 4 ∨ m = 6 ∨ m = 9 ∨ m = 11 then 30
  else 31

def intOfDigits (ds : List Char) : Int := (digitsToNat ds : Int)

/-- time.ParseInLocation for the layouts the parser uses: fixed-width digit
fields with literal T and Z, with Go's range validation of month, day, hour,
minute and second.  The empty layout accepts only the empty value and yields
Go's parse default, January 1 of year 0. -/
def goParseInLocation (layout value : List Char) (loc : Location) :
    Option GoTime :=
  if layout = layoutDate then
    if byteLen value = 8 ∧ value.all goIsDigit then
      let y := intOfDigits (value.take 4)
      let mo := intOfDigits ((value.drop 4).take 2)
      let d := intOfDigits (value.drop 6)
      if 1 ≤ mo ∧ mo ≤ 12 ∧ 1 ≤ d ∧ d ≤ goDaysIn mo y then
        some (goDate y mo d 0 0 0 0 loc)
      else none
    else none
  else if layout = layoutDateTimeLocal then
    if byteLen value = 15 ∧ (value.take 8).all goIsDigit ∧
        value.getD 8 ' ' = 'T' ∧ (value.drop 9).all goIsDigit then
      let y := intOfDigits (value.take 4)
      let mo := intOfDigits ((value.drop 4).take 2)
      let d := intOfDigits ((value.drop 6).take 2)
      let hh := intOfDigits ((value.drop 9).take 2)
      let mi := intOfDigits ((value.drop 11).take 2)
      let ss := intOfDigits (value.drop 13)
      if 1 ≤ mo ∧ mo ≤ 12 ∧ 1 ≤ d ∧ d ≤ goDaysIn mo y ∧
          hh ≤ 23 ∧ mi ≤ 59 ∧ ss ≤ 59 then
        some (goDate y mo d hh mi ss 0 loc)
      else none
    else none
  else if layout = layoutDateTimeUTC then
    if byteLen value = 16 ∧ (value.take 8).all goIsDigit ∧
        value.getD 8 ' ' = 'T' ∧ ((value.drop 9).take 6).all goIsDigit ∧
        value.getD 15 ' ' = 'Z' then
      let y := intOfDigits (value.take 4)
      let mo := intOfDigits ((value.drop 4).take 2)
      let d := intOfDigits ((value.drop 6).take 2)
      let hh := intOfDigits ((value.drop 9).take 2)
      let mi := intOfDigits ((value.drop 11).take 2)
      let ss := intOfDigits ((value.drop 13).take 2)
      if 1 ≤ mo ∧ mo ≤ 12 ∧ 1 ≤ d ∧ d ≤ goDaysIn mo y ∧
          hh ≤ 23 ∧ mi ≤ 59 ∧ ss ≤ 59 then
        some (goDate y mo d hh mi ss 0 loc)
      else none
    else none
  else if layout = [] then
    if value = [] then some (goDate 0 1 1 0 0 0 0 loc) else none
  else none

/-- parse/parser.go parseTime: normalize the value, pick layout and zone (a
trailing Z forces the UTC layout and zone; otherwise the configured location
wins over a TZID lookup over the ambient local zone), re-infer a date-time
layout for long values, then parse. -/
def parseTime (ploc : Option Location) (localLoc : Location) (prop : Property) :
    Option GoTime :=
  let v := normalizeDateTimeValue prop.value
  if v.getLast? = some 'Z' then
    goParseInLocation layoutDateTimeUTC v utcLoc
  else
    let layout := parseLayout { prop with value := v }
    let loc :=
      match ploc with
      | some l => l
      | none =>
        match prop.params.lookup (chars "TZID") with
        | none => localLoc
        | some vals =>
          (vals.foldl
            (fun acc raw => acc <|> goLoadLocation raw) none).getD localLoc
    let layout :=
      if layout = layoutDate ∧ byteLen v ≠ 8 then layoutDateTimeLocal
      else layout
    goParseInLocation layout v loc

/-- parse/parser.go parseDTEND: date-length values get one day added when
the InclusiveEnds option is set. -/
def parseDTEND (ploc : Option Location) (localLoc : Location)
    (inclusiveEnds : Bool) (prop : Property) : Option GoTime :=
  if byteLen prop.value ≠ byteLen layoutDate then
    parseTime ploc localLoc prop
  else
    match parseTime ploc localLoc prop with
    | none => none
    | some t => if inclusiveEnds then some (t.addDate 0 0 1) else some t

example :
    parseTime none utcLoc ⟨chars "DTSTAMP", [], chars "20200101T103020Z"⟩ =
      some (goDate 2020 1 1 10 30 20 0 utcLoc) := by decide

example :
    parseTime none utcLoc
      ⟨chars "DTSTAMP", [(chars "VALUE", [chars "DATE-TIME"])],
        chars "20200101T1358"⟩ =
      some (goDate 2020 1 1 13 5 8 0 utcLoc) := by decide

example :
    parseTime none utcLoc
      ⟨chars "DTSTAMP", [(chars "VALUE", [chars "DATE"])], chars "20200101"⟩ =
      some (goDate 2020 1 1 0 0 0 0 utcLoc) := by decide

/-! ## Events and calendars (parse/calendar.go) -/

structure Event where
  properties : List Property
  uid : List Char
  alarms : List Alarm
  timestamp : GoTime
  startTime : GoTime
  endTime : GoTime
  summary : List Char
  description : List Char
  deriving DecidableEq

def emptyEvent : Event :=
  ⟨[], [], [], goZeroTime, goZeroTime, goZeroTime, [], []⟩

structure Calendar where
  properties : List Property
  productID : List Char
  version : List Char
  calscale : List Char
  method : List Char
  events : List Event
  alarms : List Alarm
  deriving DecidableEq

/-- parse/calendar.go Event.Property: the first property with the name. -/
def Event.propertyOf (evt : Event) (name : List Char) : Option Property :=
  List.find? (fun p => p.name == name) evt.properties

/-- parse/calendar.go Event.applyDuration. -/
def Event.applyDuration (evt : Event) : Except (List Char) Event :=
  if (evt.propertyOf (chars "DTEND")).isSome then .ok evt
  else
    match evt.propertyOf (chars "DURATION") with
    | none => .ok evt
    | some prop =>
      match parseDuration prop.value with
      | .error e => .error e
      | .ok dur => .ok { evt with endTime := evt.startTime.add dur }

/-- parse/calendar.go Event.applyImplicitOneDayDuration: a DATE-typed (or
untyped) DTSTART with neither DTEND nor DURATION makes the event end a fixed
24 hours after its start. -/
def Event.applyImplicitOneDayDuration (evt : Event) : Event :=
  match evt.propertyOf (chars "DTSTART") with
  | none => evt
  | some dtstart =>
    if ¬(dtstart.params.getD (chars "VALUE") = [] ∨
         dtstart.params.containsVal (chars "VALUE") (chars "DATE") = true) then
      evt
    else if (evt.propertyOf (chars "DTEND")).isSome then evt
    else if (evt.propertyOf (chars "DURATION")).isSome then evt
    else { evt with endTime := evt.startTime.add (24 * nsHour) }

/-- parse/calendar.go Event.applyImplicitEndOfDayDuration: a DATE-TIME typed
DTSTART without DTEND makes the event end at the next local midnight. -/
def Event.applyImplicitEndOfDayDuration (evt : Event) : Event :=
  match evt.propertyOf (chars "DTSTART") with
  | none => evt
  | some dtstart =>
    if ¬dtstart.params.containsVal (chars "VALUE") (chars "DATE-TIME") then evt
    else if (evt.propertyOf (chars "DTEND")).isSome then evt
    else
      let (y, m, d) := evt.startTime.dateOf
      { evt with
        endTime := (goDate y m d 0 0 0 0 evt.startTime.loc).addDate 0 0 1 }

/-- parse/calendar.go Event.finalize: the three end-time rules are applied
in sequence, each to the result of the previous one. -/
def Event.finalize (evt : Event) : Except (List Char) Event :=
  match evt.applyDuration with
  | .error e => .error e
  | .ok evt => .ok evt.applyImplicitOneDayDuration.applyImplicitEndOfDayDuration

/-! ## The descent parser (parse/parser.go)

The Go parser pulls items from the lexer channel with one-item pushback;
over an item list this is plain head consumption, with pushback returning
the item to the front.  A closed channel is the end of the list.  Error
texts other than the lexer's are not inspected by any property proved here
and are abbreviated.  Loops take fuel; every iteration consumes at least one
item, so the entry points supply more fuel than any list can use. -/

def endOfItemsErr : List Char := chars "end of items"

def unexpectedTypeErr : List Char := chars "unexpected item type"

structure ParserConfig where
  loc : Option Location
  localLoc : Location
  inclusiveEnds : Bool

/-- The value-collecting inner loop of parser.parseParams; running out of
items inside the loop is the closed-channel error. -/
def takeParamValues : List Item → Except (List Char) (List (List Char) × List Item)
  | [] => .error endOfItemsErr
  | i :: rest =>
    if i.type = ItemType.paramValue then
      match takeParamValues rest with
      | .error e => .error e
      | .ok (vs, rest2) => .ok (i.itemValue :: vs, rest2)
    else .ok ([], i :: rest)

/-- parser.parseParams. -/
def parseParams (fuel : Nat) (items : List Item) (acc : Params) :
    Except (List Char) (Params × List Item) :=
  match fuel with
  | 0 => .error (chars "out of fuel")
  | fuel + 1 =>
    match items with
    | [] => .error endOfItemsErr
    | i :: rest =>
      if i.type ≠ ItemType.paramName then .ok (acc, i :: rest)
      else
        match takeParamValues rest with
        | .error e => .error e
        | .ok (vs, rest2) => parseParams fuel rest2 (acc.set i.itemValue vs)

/-- parser.parseProperty: a Name item, an optional parameter block, and a
mandatory Value item. -/
def parseProperty (items : List Item) :
    Except (List Char) (Property × List Item) :=
  match items with
  | [] => .error endOfItemsErr
  | i :: rest =>
    if i.type ≠ ItemType.name then .error unexpectedTypeErr
    else
      match rest with
      | [] => .error endOfItemsErr
      | j :: rest2 =>
        if j.type = ItemType.paramName then
          match parseParams (rest.length + 1) (j :: rest2) [] with
          | .error e => .error e
          | .ok (ps, rest3) =>
            match rest3 with
            | [] => .error endOfItemsErr
            | k :: rest4 =>
              if k.type = ItemType.value then
                .ok (⟨i.itemValue, ps, k.itemValue⟩, rest4)
              else .error unexpectedTypeErr
        else if j.type = ItemType.value then
          .ok (⟨i.itemValue, [], j.itemValue⟩, rest2)
        else .error unexpectedTypeErr

/-- The property loop of parser.parseAlarm: properties until AlarmEnd, which
is consumed. -/
def parseAlarmProps (fuel : Nat) (items : List Item) (acc : List Property) :
    Except (List Char) (List Property × List Item) :=
  match fuel with
  | 0 => .error (chars "out of fuel")
  | fuel + 1 =>
    match items with
    | [] => .error endOfItemsErr
    | i :: rest =>
      if i.type = ItemType.alarmEnd then .ok (acc, rest)
      else if i.type ≠ ItemType.name then .error unexpectedTypeErr
      else
        match parseProperty (i :: rest) with
        | .error e => .error e
        | .ok (p, rest2) => parseAlarmProps fuel rest2 (acc ++ [p])

/-- parser.parseAlarm: the AlarmBegin marker, the property loop, then the
TRIGGER and ACTION fields derived from the raw properties, last match
winning. -/
def parseAlarm (items : List Item) : Except (List Char) (Alarm × List Item) :=
  match items with
  | [] => .error endOfItemsErr
  | i :: rest =>
    if i.type ≠ ItemType.alarmBegin then .error unexpectedTypeErr
    else
      match parseAlarmProps (rest.length + 1) rest [] with
      | .error e => .error e
      | .ok (props, rest2) =>
        let alarm := props.foldl
          (fun (a : Alarm) p =>
            if p.name = chars "TRIGGER" then { a with trigger := p.value }
            else if p.name = chars "ACTION" then { a with action := p.value }
            else a)
          ⟨props, [], []⟩
        .ok (alarm, rest2)

/-- The body loop of parser.parseEvent: properties and alarms until
EventEnd, which is consumed. -/
def parseEventBody (fuel : Nat) (items : List Item)
    (props : List Property) (alarms : List Alarm) :
    Except (List Char) (List Property × List Alarm × List Item) :=
  match fuel with
  | 0 => .error (chars "out of fuel")
  | fuel + 1 =>
    match items with
    | [] => .error endOfItemsErr
    | i :: rest =>
      if i.type = ItemType.eventEnd then .ok (props, alarms, rest)
      else if i.type = ItemType.alarmBegin then
        match parseAlarm (i :: rest) with
        | .error e => .error e
        | .ok (alarm, rest2) => parseEventBody fuel rest2 props (alarms ++ [alarm])
      else if i.type ≠ ItemType.name then .error unexpectedTypeErr
      else
        match parseProperty (i :: rest) with
        | .error e => .error e
        | .ok (p, rest2) => parseEventBody fuel rest2 (props ++ [p]) alarms

/-- The field-derivation pass of parser.parseEvent over the raw properties;
time-valued properties abort the parse when they cannot be resolved. -/
def deriveEventFields (cfg : ParserConfig) (props : List Property)
    (evt : Event) : Except (List Char) Event :=
  match props with
  | [] => .ok evt
  | p :: rest =>
    let step : Except (List Char) Event :=
      if p.name = chars "UID" then .ok { evt with uid := p.value }
      else if p.name = chars "DTSTART" then
        match parseTime cfg.loc cfg.localLoc p with
        | none => .error (chars "cannot parse time")
        | some t => .ok { evt with startTime := t }
      else if p.name = chars "DTEND" then
        match parseDTEND cfg.loc cfg.localLoc cfg.inclusiveEnds p with
        | none => .error (chars "cannot parse time")
        | some t => .ok { evt with endTime := t }
      else if p.name = chars "DTSTAMP" then
        match parseTime cfg.loc cfg.localLoc p with
        | none => .error (chars "cannot parse time")
        | some t => .ok { evt with timestamp := t }
      else if p.name = chars "SUMMARY" then .ok { evt with summary := p.value }
      else if p.name = chars "DESCRIPTION" then
        .ok { evt with description := p.value }
      else .ok evt
    match step with
    | .error e => .error e
    | .ok evt => deriveEventFields cfg rest evt

/-- parser.parseEvent: the EventBegin marker, the body loop, the derivation
pass and Event.finalize. -/
def parseEvent (cfg : ParserConfig) (items : List Item) :
    Except (List Char) (Event × List Item) :=
  match items with
  | [] => .error endOfItemsErr
  | i :: rest =>
    if i.type ≠ ItemType.eventBegin then .error unexpectedTypeErr
    else
      match parseEventBody (rest.length + 1) rest [] [] with
      | .error e => .error e
      | .ok (props, alarms, rest2) =>
        match deriveEventFields cfg props
            { emptyEvent with properties := props, alarms := alarms } with
        | .error e => .error e
        | .ok evt =>
          match evt.finalize with
          | .error e => .error e
          | .ok evt => .ok (evt, rest2)

/-- The body loop of parser.parseCalendar as in src (properties and events
until CalendarEnd; any other item type, including AlarmBegin, is an error). -/
def parseCalendarBody (cfg : ParserConfig) (fuel : Nat) (items : List Item)
    (props : List Property) (events : List Event) :
    Except (List Char) (List Property × List Event × List Item) :=
  match fuel with
  | 0 => .error (chars "out of fuel")
  | fuel + 1 =>
    match items with
    | [] => .error endOfItemsErr
    | i :: rest =>
      if i.type = ItemType.calendarEnd then .ok (props, events, rest)
      else if i.type = ItemType.eventBegin then
        match parseEvent cfg (i :: rest) with
        | .error e => .error e
        | .ok (evt, rest2) =>
          parseCalendarBody cfg fuel rest2 props (events ++ [evt])
      else if i.type = ItemType.name then
        match parseProperty (i :: rest) with
        | .error e => .error e
        | .ok (p, rest2) => parseCalendarBody cfg fuel rest2 (props ++ [p]) events
      else .error unexpectedTypeErr

/-- The scalar-field derivation of parser.parseCalendar: VERSION, METHOD and
PRODID from the raw properties, last match winning; Calscale keeps its
GREGORIAN initial value (the switch has no CALSCALE case). -/
def deriveCalendarFields (props : List Property) (cal : Calendar) : Calendar :=
  props.foldl
    (fun (c : Calendar) p =>
      if p.name = chars "VERSION" then { c with version := p.value }
      else if p.name = chars "METHOD" then { c with method := p.value }
      else if p.name = chars "PRODID" then { c with productID := p.value }
      else c)
    cal

/-- parser.parseCalendar. -/
def parseCalendar (cfg : ParserConfig) (items : List Item) :
    Except (List Char) Calendar :=
  match items with
  | [] => .error endOfItemsErr
  | i :: rest =>
    if i.type ≠ ItemType.calendarBegin then .error unexpectedTypeErr
    else
      match parseCalendarBody cfg (rest.length + 1) rest [] [] with
      | .error e => .error e
      | .ok (props, events, _) =>
        .ok (deriveCalendarFields props
          ⟨props, [], [], chars "GREGORIAN", [], events, []⟩)

/-- parse.Items with the default background context. -/
def parseItems (cfg : ParserConfig) (items : List Item) :
    Except (List Char) Calendar :=
  parseCalendar cfg items

/-- ical.Parse with default options: non-strict lexing, no configured
location, exclusive DTEND handling; the ambient time.Local zone is the
localLoc argument. -/
def parseDocument (localLoc : Location) (input : List Char) :
    Except (List Char) Calendar :=
  parseItems ⟨none, localLoc, false⟩ (lexDocument false input)

/-! ## The encoder (encode/encode.go)

Encoder.property builds one logical line NAME(;param=v1,v2)*:VALUE with the
parameters sorted by name (Go sorts the UTF-8 byte strings; byte order on
UTF-8 equals code-point order, which is the order used here), folds it into
chunks of at most 75 octets whose boundaries are pushed back to rune starts,
and joins the chunks with CRLF plus one space, the whole prefixed by CRLF.
Events and alarms wrap their property lines in the BEGIN/END markers. -/

def lexLtChars : List Char → List Char → Bool
  | [], [] => false
  | [], _ :: _ => true
  | _ :: _, [] => false
  | a :: as, b :: bs =>
    if a.toNat < b.toNat then true
    else if b.toNat < a.toNat then false
    else lexLtChars as bs

def insertParam (p : List Char × List (List Char)) :
    Params → Params
  | [] => [p]
  | q :: rest =>
    if lexLtChars p.1 q.1 then p :: q :: rest else q :: insertParam p rest

/-- sort.Slice by parameter name; the parser produces unique keys, for which
any comparison sort yields this insertion sort's result. -/
def sortParams (ps : Params) : Params :=
  ps.foldr insertParam []

def joinComma : List (List Char) → List Char
  | [] => []
  | [v] => v
  | v :: rest => v ++ ',' :: joinComma rest

/-- The unfolded logical content line of a property. -/
def serializeProperty (p : Property) : List Char :=
  p.name ++
  (sortParams p.params).flatMap (fun q => ';' :: (q.1 ++ '=' :: joinComma q.2)) ++
  ':' :: p.value

/-- The greedy chunk of runes whose UTF-8 encoding fits the byte budget. -/
def takeChunk (budget : Nat) : List Char → List Char × List Char
  | [] => ([], [])
  | c :: rest =>
    if utf8Len c ≤ budget then
      let (ch, rm) := takeChunk (budget - utf8Len c) rest
      (c :: ch, rm)
    else ([], c :: rest)

/-- The folding loop of Encoder.property in rune terms: while more than 75
octets remain, split off the longest rune prefix of at most 75 octets (the
byte-index loop with its rune-start back-off computes exactly this split;
foldBytes below is the byte-level loop and the agreement is proved in
C5_theorem). -/
def foldChunks (fuel : Nat) (cs : List Char) : List (List Char) :=
  match fuel with
  | 0 => [cs]
  | fuel + 1 =>
    if byteLen cs ≤ 75 then [cs]
    else
      let (ch, rm) := takeChunk 75 cs
      ch :: foldChunks fuel rm

def joinCRLFSpace : List (List Char) → List Char
  | [] => []
  | [c] => c
  | c :: rest => c ++ '\r' :: '\n' :: ' ' :: joinCRLFSpace rest

/-- Encoder.property: CRLF, then the folded line. -/
def encodeProperty (p : Property) : List Char :=
  let line := serializeProperty p
  chars "\r\n" ++ joinCRLFSpace (foldChunks line.length line)

/-- Encoder.alarm. -/
def encodeAlarm (a : Alarm) : List Char :=
  chars "\r\nBEGIN:VALARM" ++ a.properties.flatMap encodeProperty ++
  chars "\r\nEND:VALARM"

/-- Encoder.event, in the alarm-encoding version of encode/encode.go. -/
def encodeEvent (e : Event) : List Char :=
  chars "\r\nBEGIN:VEVENT" ++ e.properties.flatMap encodeProperty ++
  e.alarms.flatMap encodeAlarm ++ chars "\r\nEND:VEVENT"

/-- Encoder.Encode: the calendar properties and events between the calendar
markers.  Top-level alarms are not serialized. -/
def encodeCalendar (c : Calendar) : List Char :=
  chars "BEGIN:VCALENDAR" ++ c.properties.flatMap encodeProperty ++
  c.events.flatMap encodeEvent ++ chars "\r\nEND:VCALENDAR"

example :
    encodeProperty ⟨chars "X-FOO", [(chars "foo", [chars "bar", chars "baz"])],
      chars "bar"⟩ = chars "\r\nX-FOO;foo=bar,baz:bar" := by decide

example :
    encodeProperty ⟨chars "DESCRIPTION", [],
      chars "this is a long description that should be folded onto the next line"⟩ =
    chars "\r\nDESCRIPTION:this is a long description that should be folded onto the next \r\n line" := by
  decide

/-! ## Claim C2: DURATION-derived end times -/

/-- C2, counterexample: an event with a DATE-TIME typed DTSTART, no DTEND
and DURATION:PT1H.  Event.finalize first sets end = start + 1h, but
applyImplicitEndOfDayDuration runs afterwards (it does not stop at the first
applicable rule and does not check DURATION) and overwrites the end with the
next local midnight, so the derived end is not start plus the duration. -/
theorem C2_counterexample :
    (parseDocument utcLoc (chars
      "BEGIN:VCALENDAR\r\nBEGIN:VEVENT\r\nDTSTART;VALUE=DATE-TIME:20200101T103020Z\r\nDURATION:PT1H\r\nEND:VEVENT\r\nEND:VCALENDAR")).map
      (fun cal => ((cal.events.headD emptyEvent).startTime,
                   (cal.events.headD emptyEvent).endTime)) =
      .ok (goDate 2020 1 1 10 30 20 0 utcLoc, goDate 2020 1 2 0 0 0 0 utcLoc) ∧
    goDate 2020 1 2 0 0 0 0 utcLoc ≠
      (goDate 2020 1 1 10 30 20 0 utcLoc).add (3600 * 1000000000) := by
  constructor
  · decide
  · decide

/-- C2, amended: with a resolvable DTSTART, no DTEND and a DURATION that the
resolver accepts, the derived end is start plus the resolved duration
provided DTSTART's value type is not DATE-TIME; with an explicit
VALUE=DATE-TIME parameter the later end-of-day rule overwrites it, because
the rules run in sequence rather than stopping at the first that applies. -/
theorem C2_theorem (evt : Event) (d : Property) (dur : Int)
    (hend : evt.propertyOf (chars "DTEND") = none)
    (hdur : evt.propertyOf (chars "DURATION") = some d)
    (hparse : parseDuration d.value = .ok dur)
    (hstart : ∀ p, evt.propertyOf (chars "DTSTART") = some p →
      p.params.containsVal (chars "VALUE") (chars "DATE-TIME") = false) :
    evt.finalize.map Event.endTime = .ok (evt.startTime.add dur) := by
  have h1 : evt.applyDuration = .ok { evt with endTime := evt.startTime.add dur } := by
    simp only [Event.applyDuration, hend, hdur, hparse, Option.isSome_none,
      Bool.false_eq_true, if_false]
  have hend1 : ({ evt with endTime := evt.startTime.add dur } : Event).propertyOf
      (chars "DTEND") = none := hend
  have hdur1 : ({ evt with endTime := evt.startTime.add dur } : Event).propertyOf
      (chars "DURATION") = some d := hdur
  have h2 : ({ evt with endTime := evt.startTime.add dur } : Event).applyImplicitOneDayDuration
      = { evt with endTime := evt.startTime.add dur } := by
    cases hd : evt.propertyOf (chars "DTSTART") with
    | none =>
      have hd2 : ({ evt with endTime := evt.startTime.add dur } : Event).propertyOf
        (chars "DTSTART") = none := hd
      simp only [Event.applyImplicitOneDayDuration, hd2]
    | some p =>
      have hd2 : ({ evt with endTime := evt.startTime.add dur } : Event).propertyOf
        (chars "DTSTART") = some p := hd
      simp only [Event.applyImplicitOneDayDuration, hd2, hend1, hdur1,
        Option.isSome_none, Option.isSome_some, Bool.false_eq_true, if_false]
      split_ifs <;> first | rfl | simp_all
  have h3 : ({ evt with endTime := evt.startTime.add dur } : Event).applyImplicitEndOfDayDuration
      = { evt with endTime := evt.startTime.add dur } := by
    cases hd : evt.propertyOf (chars "DTSTART") with
    | none =>
      have hd2 : ({ evt with endTime := evt.startTime.add dur } : Event).propertyOf
        (chars "DTSTART") = none := hd
      simp only [Event.applyImplicitEndOfDayDuration, hd2]
    | some p =>
      have hd2 : ({ evt with endTime := evt.startTime.add dur } : Event).propertyOf
        (chars "DTSTART") = some p := hd
      simp only [Event.applyImplicitEndOfDayDuration, hd2, hstart p hd]
      split_ifs <;> first | rfl | simp_all
  simp only [Event.finalize, h1, h2, h3, Except.map]

/-- C2, witness: the amended claim at a concrete event with a DATE-typed
DTSTART and DURATION:PT1H. -/
theorem C2_witness :
    (Event.finalize { emptyEvent with
        properties := [⟨chars "DTSTART", [(chars "VALUE", [chars "DATE"])],
                        chars "20200101"⟩,
                       ⟨chars "DURATION", [], chars "PT1H"⟩],
        startTime := goDate 2020 1 1 0 0 0 0 utcLoc }).map Event.endTime =
      .ok ((goDate 2020 1 1 0 0 0 0 utcLoc).add (3600 * 1000000000)) :=
 by
  refine C2_theorem _ ⟨chars "DURATION", [], chars "PT1H"⟩ (3600 * 1000000000)
    ?_ ?_ ?_ ?_
  · decide
  · decide
  · decide
  · intro p hp
    simp only [Event.propertyOf] at hp
    rw [show List.find? (fun q => q.name == chars "DTSTART")
        [(⟨chars "DTSTART", [(chars "VALUE", [chars "DATE"])],
            chars "20200101"⟩ : Property),
         ⟨chars "DURATION", [], chars "PT1H"⟩] =
        some ⟨chars "DTSTART", [(chars "VALUE", [chars "DATE"])],
          chars "20200101"⟩ from by decide] at hp
    injection hp with hpe
    rw [← hpe]
    decide

/-! ## Claim C3: the implicit one-day rule -/

/-- A Location with one spring-forward transition, as Europe/Berlin has on
2020-03-29 01:00 UTC: offset 3600 before, 7200 after. -/
def berlinLoc : Location := ⟨3600, [(1585443600, 7200)]⟩

/-- C3, counterexample: for DTSTART;VALUE=DATE:20200329 parsed with the
Berlin-like location, the code derives end = start + a fixed 24 hours
(1585522800), which is local March 30 01:00, not start advanced by one
calendar day (AddDate(0,0,1) = 1585519200, local March 30 00:00), because
March 29 has only 23 hours there. -/
theorem C3_counterexample :
    (parseItems ⟨some berlinLoc, utcLoc, false⟩ (lexDocument false (chars
      "BEGIN:VCALENDAR\r\nBEGIN:VEVENT\r\nDTSTART;VALUE=DATE:20200329\r\nEND:VEVENT\r\nEND:VCALENDAR"))).map
      (fun cal => ((cal.events.headD emptyEvent).startTime,
                   (cal.events.headD emptyEvent).endTime)) =
      .ok (goDate 2020 3 29 0 0 0 0 berlinLoc,
           (goDate 2020 3 29 0 0 0 0 berlinLoc).add (86400 * 1000000000)) ∧
    (goDate 2020 3 29 0 0 0 0 berlinLoc).add (86400 * 1000000000) ≠
      (goDate 2020 3 29 0 0 0 0 berlinLoc).addDate 0 0 1 := by
  constructor
  · decide
  · decide

/-- C3, amended: for an event whose DTSTART has value type DATE (or no VALUE
parameter, and not also DATE-TIME) and that has neither DTEND nor DURATION,
the derived end is the start advanced by a fixed span of 24 hours; this
coincides with one calendar day only when no UTC-offset transition
intervenes. -/
theorem C3_theorem (evt : Event) (p : Property)
    (hstart : evt.propertyOf (chars "DTSTART") = some p)
    (htype : p.params.getD (chars "VALUE") = [] ∨
      p.params.containsVal (chars "VALUE") (chars "DATE") = true)
    (hnotdt : p.params.containsVal (chars "VALUE") (chars "DATE-TIME") = false)
    (hend : evt.propertyOf (chars "DTEND") = none)
    (hdur : evt.propertyOf (chars "DURATION") = none) :
    evt.finalize.map Event.endTime =
      .ok (evt.startTime.add (24 * nsHour)) := by
  have h1 : evt.applyDuration = .ok evt := by
    simp only [Event.applyDuration, hend, hdur, Option.isSome_none,
      Bool.false_eq_true, if_false]
  have h2 : evt.applyImplicitOneDayDuration =
      { evt with endTime := evt.startTime.add (24 * nsHour) } := by
    simp only [Event.applyImplicitOneDayDuration, hstart]
    rw [if_neg (not_not_intro htype), hend, hdur]
    simp
  have h3 : ({ evt with endTime := evt.startTime.add (24 * nsHour) } : Event).applyImplicitEndOfDayDuration
      = { evt with endTime := evt.startTime.add (24 * nsHour) } := by
    have hst2 : ({ evt with endTime := evt.startTime.add (24 * nsHour) } : Event).propertyOf
      (chars "DTSTART") = some p := hstart
    simp only [Event.applyImplicitEndOfDayDuration, hst2, hnotdt]
    split_ifs <;> first | rfl | simp_all
  simp only [Event.finalize, h1, h2, h3, Except.map]

/-- C3, witness: the amended claim at a concrete event with
DTSTART;VALUE=DATE:20200329 in the Berlin-like location. -/
theorem C3_witness :
    (Event.finalize { emptyEvent with
        properties := [⟨chars "DTSTART", [(chars "VALUE", [chars "DATE"])],
                        chars "20200329"⟩],
        startTime := goDate 2020 3 29 0 0 0 0 berlinLoc }).map Event.endTime =
      .ok ((goDate 2020 3 29 0 0 0 0 berlinLoc).add (24 * nsHour)) := by
  refine C3_theorem _ ⟨chars "DTSTART", [(chars "VALUE", [chars "DATE"])],
      chars "20200329"⟩ ?_ ?_ ?_ ?_ ?_
  · decide
  · right; decide
  · decide
  · decide
  · decide

/-! ## Claim C8: the Calscale field -/

/-- C8, counterexample: a calendar with CALSCALE:JULIAN still derives
Calscale = "GREGORIAN"; the derivation switch in parser.parseCalendar has no
CALSCALE case, even though the raw property is captured. -/
theorem C8_counterexample :
    (parseDocument utcLoc (chars
      "BEGIN:VCALENDAR\r\nCALSCALE:JULIAN\r\nEND:VCALENDAR")).map
      (fun cal => (cal.calscale, cal.properties)) =
      .ok (chars "GREGORIAN", [⟨chars "CALSCALE", [], chars "JULIAN"⟩]) ∧
    chars "GREGORIAN" ≠ chars "JULIAN" := by
  constructor
  · decide
  · decide

theorem deriveCalendarFields_calscale (props : List Property) (cal : Calendar) :
    (deriveCalendarFields props cal).calscale = cal.calscale := by
  induction props generalizing cal with
  | nil => rfl
  | cons p rest ih =>
    unfold deriveCalendarFields at ih ⊢
    simp only [List.foldl_cons]
    rw [ih]
    split_ifs <;> rfl

/-- C8, amended: the derived Calscale of every successfully parsed calendar
is the constant "GREGORIAN", whether or not CALSCALE properties are present;
a CALSCALE property is kept in the raw property list but never consulted by
the field derivation. -/
theorem C8_theorem (cfg : ParserConfig) (items : List Item) (cal : Calendar)
    (h : parseCalendar cfg items = .ok cal) :
    cal.calscale = chars "GREGORIAN" := by
  cases items with
  | nil => simp [parseCalendar] at h
  | cons i rest =>
    simp only [parseCalendar] at h
    by_cases h1 : i.type ≠ ItemType.calendarBegin
    · rw [if_pos h1] at h; simp at h
    · rw [if_neg h1] at h
      cases hb : parseCalendarBody cfg (rest.length + 1) rest [] [] with
      | error e => rw [hb] at h; simp at h
      | ok x =>
        rw [hb] at h
        obtain ⟨props, events, rest2⟩ := x
        simp only [Except.ok.injEq] at h
        rw [← h]
        exact deriveCalendarFields_calscale props _

/-- C8, witness: the amended claim at the concrete CALSCALE:JULIAN
document. -/
theorem C8_witness :
    ∃ cal, parseDocument utcLoc (chars
      "BEGIN:VCALENDAR\r\nCALSCALE:JULIAN\r\nEND:VCALENDAR") = .ok cal ∧
      cal.calscale = chars "GREGORIAN" := by
  refine ⟨(⟨[⟨chars "CALSCALE", [], chars "JULIAN"⟩], [], [],
    chars "GREGORIAN", [], [], []⟩ : Calendar), ?_, ?_⟩
  · decide
  · exact C8_theorem ⟨none, utcLoc, false⟩
      (lexDocument false (chars
        "BEGIN:VCALENDAR\r\nCALSCALE:JULIAN\r\nEND:VCALENDAR")) _ (by decide)

/-! ## Unfolding groups

readRune consumes its input in groups of at most three runes; closedB holds
of the inputs that the grouping consumes exactly, so that unfolding
distributes over appending at such a boundary. -/

def closedB : List Char → Bool
  | [] => true
  | c :: rest =>
    if c = '\r' ∨ c = '\n' then
      match rest with
      | [] => false
      | c2 :: rest2 =>
        if c = '\n' then closedB rest2
        else if c2 = '\n' then
          match rest2 with
          | [] => false
          | _ :: rest3 => closedB rest3
        else closedB rest2
    else closedB rest

theorem unfold_cons_plain (c : Char) (rest : List Char)
    (hc : ¬(c = '\r' ∨ c = '\n')) : unfold (c :: rest) = c :: unfold rest := by
  rw [unfold.eq_def]
  simp [hc]

theorem unfold_lf_of_space (c2 : Char) (rest : List Char)
    (hsp : goIsSpace c2 = true) : unfold ('\n' :: c2 :: rest) = unfold rest := by
  rw [unfold.eq_def]
  simp [hsp]

theorem unfold_lf_of_nonspace (c2 : Char) (rest : List Char)
    (hsp : goIsSpace c2 = false) :
    unfold ('\n' :: c2 :: rest) = '\n' :: c2 :: unfold rest := by
  rw [unfold.eq_def]
  simp [hsp]

theorem unfold_cr_other (c2 : Char) (rest : List Char) (h2 : c2 ≠ '\n') :
    unfold ('\r' :: c2 :: rest) = '\r' :: c2 :: unfold rest := by
  rw [unfold.eq_def]
  simp [h2]

theorem unfold_crlf_space (c3 : Char) (rest : List Char)
    (hsp : goIsSpace c3 = true) :
    unfold ('\r' :: '\n' :: c3 :: rest) = unfold rest := by
  rw [unfold.eq_def]
  simp [hsp]

theorem unfold_crlf_nonspace (c3 : Char) (rest : List Char)
    (hsp : goIsSpace c3 = false) :
    unfold ('\r' :: '\n' :: c3 :: rest) = '\r' :: '\n' :: c3 :: unfold rest := by
  rw [unfold.eq_def]
  simp [hsp]

theorem unfold_append :
    ∀ (pre xs : List Char), closedB pre = true →
      unfold (pre ++ xs) = unfold pre ++ unfold xs
  | [], xs, _ => by simp [unfold]
  | c :: rest, xs, h => by
    by_cases hc : c = '\r' ∨ c = '\n'
    · cases rest with
      | nil =>
        exfalso
        rw [closedB.eq_def] at h
        simp only [] at h
        rw [if_pos hc] at h
        simp at h
      | cons c2 rest2 =>
        rw [closedB.eq_def] at h
        simp only [] at h
        rw [if_pos hc] at h
        by_cases hlf : c = '\n'
        · rw [if_pos hlf] at h
          subst hlf
          cases hsp : goIsSpace c2 with
          | true =>
            simp only [List.cons_append]
            rw [unfold_lf_of_space c2 _ hsp, unfold_lf_of_space c2 _ hsp]
            exact unfold_append rest2 xs h
          | false =>
            simp only [List.cons_append]
            rw [unfold_lf_of_nonspace c2 _ hsp, unfold_lf_of_nonspace c2 _ hsp]
            rw [unfold_append rest2 xs h]
            simp
        · rw [if_neg hlf] at h
          have hcr : c = '\r' := by
            rcases hc with h1 | h1
            · exact h1
            · exact absurd h1 hlf
          subst hcr
          by_cases h2 : c2 = '\n'
          · rw [if_pos h2] at h
            subst h2
            cases rest2 with
            | nil => simp at h
            | cons c3 rest3 =>
              cases hsp : goIsSpace c3 with
              | true =>
                simp only [List.cons_append]
                rw [unfold_crlf_space c3 _ hsp, unfold_crlf_space c3 _ hsp]
                exact unfold_append rest3 xs h
              | false =>
                simp only [List.cons_append]
                rw [unfold_crlf_nonspace c3 _ hsp, unfold_crlf_nonspace c3 _ hsp]
                rw [unfold_append rest3 xs h]
                simp
          · rw [if_neg h2] at h
            simp only [List.cons_append]
            rw [unfold_cr_other c2 _ h2, unfold_cr_other c2 _ h2]
            rw [unfold_append rest2 xs h]
            simp
    · rw [closedB.eq_def] at h
      simp only [] at h
      rw [if_neg hc] at h
      simp only [List.cons_append]
      rw [unfold_cons_plain c _ hc, unfold_cons_plain c _ hc]
      rw [unfold_append rest xs h]
      simp

/-- C10: even in strict line-break mode a bare LF directly followed by a
whitespace rune is consumed as a fold by readRune before the strict check
runs: at any group boundary of the input, deleting the LF and the whitespace
yields the same token sequence, with no error emitted for the pair. -/
theorem C10_theorem (pre post : List Char) (ws : Char)
    (hclosed : closedB pre = true) (hws : goIsSpace ws = true) :
    lexDocument true (pre ++ '\n' :: ws :: post) = lexDocument true (pre ++ post) := by
  have h1 : unfold (pre ++ '\n' :: ws :: post) = unfold pre ++ unfold post := by
    rw [unfold_append _ _ hclosed, unfold_lf_of_space ws post hws]
  have h2 : unfold (pre ++ post) = unfold pre ++ unfold post :=
    unfold_append _ _ hclosed
  simp only [lexDocument, h1, h2]

/-- C10, witness: a folded SUMMARY value with a bare-LF fold inside the
line, lexed in strict mode. -/
theorem C10_witness :
    lexDocument true
      (chars "BEGIN:VCALENDAR\r\nSUMMARY:foo" ++ '\n' :: ' ' ::
       chars "bar\r\nEND:VCALENDAR") =
    lexDocument true
      (chars "BEGIN:VCALENDAR\r\nSUMMARY:foo" ++ chars "bar\r\nEND:VCALENDAR") :=
  C10_theorem (chars "BEGIN:VCALENDAR\r\nSUMMARY:foo")
    (chars "bar\r\nEND:VCALENDAR") ' ' (by decide) (by decide)

/-! ## Fuel irrelevance for the lexer

Every state transition of lexStep strictly decreases 3·|rem| + weight(state),
so any two fuels above that measure give the same token stream.  lexDocument
supplies far more fuel, so the canonical runner lexRun below agrees with it,
and line-shaped inputs can be lexed compositionally. -/

def lexWeight : LexState → Nat
  | .contentLine => 2
  | .newLine => 0
  | .name => 1
  | .value => 1
  | .paramName => 1
  | .paramValue => 1

theorem dropWhile_length_le (p : Char → Bool) :
    ∀ l : List Char, (l.dropWhile p).length ≤ l.length
  | [] => by simp
  | a :: l => by
    rw [List.dropWhile_cons]
    split
    · exact Nat.le_trans (dropWhile_length_le p l) (by simp)
    · exact le_refl _

theorem lexStep_fuel_eq (strict : Bool) :
    ∀ n f g st rem pos, 3 * rem.length + lexWeight st ≤ n →
      3 * rem.length + lexWeight st < f → 3 * rem.length + lexWeight st < g →
      lexStep strict f st rem pos = lexStep strict g st rem pos := by
  intro n
  induction n with
  | zero =>
    intro f g st rem pos hn hf hg
    obtain ⟨f, rfl⟩ : ∃ f0, f = f0 + 1 := ⟨f - 1, by omega⟩
    obtain ⟨g, rfl⟩ : ∃ g0, g = g0 + 1 := ⟨g - 1, by omega⟩
    cases st with
    | newLine =>
      cases rem with
      | nil => rfl
      | cons c rest => simp only [lexWeight, List.length_cons] at hn; omega
    | contentLine => simp only [lexWeight] at hn; omega
    | name => simp only [lexWeight] at hn; omega
    | value => simp only [lexWeight] at hn; omega
    | paramName => simp only [lexWeight] at hn; omega
    | paramValue => simp only [lexWeight] at hn; omega
  | succ n ih =>
    intro f g st rem pos hn hf hg
    obtain ⟨f, rfl⟩ : ∃ f0, f = f0 + 1 := ⟨f - 1, by omega⟩
    obtain ⟨g, rfl⟩ : ∃ g0, g = g0 + 1 := ⟨g - 1, by omega⟩
    cases st with
    | contentLine =>
      simp only [lexWeight] at hn hf hg
      simp only [lexStep]
      split_ifs with h1 h2 h3 h4 h5 h6
      · refine congrArg _ (ih f g .newLine (rem.drop 15) (pos + 15) ?_ ?_ ?_) <;>
          simp only [lexWeight, List.length_drop] <;> omega
      · refine congrArg _ (ih f g .newLine (rem.drop 13) (pos + 13) ?_ ?_ ?_) <;>
          simp only [lexWeight, List.length_drop] <;> omega
      · refine congrArg _ (ih f g .newLine (rem.drop 12) (pos + 12) ?_ ?_ ?_) <;>
          simp only [lexWeight, List.length_drop] <;> omega
      · refine congrArg _ (ih f g .newLine (rem.drop 10) (pos + 10) ?_ ?_ ?_) <;>
          simp only [lexWeight, List.length_drop] <;> omega
      · refine congrArg _ (ih f g .newLine (rem.drop 12) (pos + 12) ?_ ?_ ?_) <;>
          simp only [lexWeight, List.length_drop] <;> omega
      · refine congrArg _ (ih f g .newLine (rem.drop 10) (pos + 10) ?_ ?_ ?_) <;>
          simp only [lexWeight, List.length_drop] <;> omega
      · refine ih f g .name rem pos ?_ ?_ ?_ <;> simp only [lexWeight] <;> omega
    | newLine =>
      simp only [lexWeight] at hn hf hg
      simp only [lexStep]
      cases rem with
      | nil => rfl
      | cons c rest =>
        simp only [List.length_cons] at hn hf hg
        simp only []
        by_cases hc : c = '\r'
        · rw [if_pos hc, if_pos hc]
          cases rest with
          | nil => rfl
          | cons c2 rest2 =>
            simp only [List.length_cons] at hn hf hg
            simp only []
            by_cases h2 : c2 = '\n'
            · rw [if_pos h2, if_pos h2]
              cases rest2 with
              | nil => rfl
              | cons c3 rest3 =>
                simp only []
                refine ih f g .contentLine (c3 :: rest3) (pos + 2) ?_ ?_ ?_ <;>
                  simp only [lexWeight, List.length_cons] at * <;> omega
            · rw [if_neg h2, if_neg h2]
        · rw [if_neg hc, if_neg hc]
          by_cases hlf : c = '\n'
          · cases hs : strict with
            | true =>
              have hd : (decide (c = '\n') && true) = true := by simp [hlf]
              rw [if_pos hd, if_pos hd]
            | false =>
              have hd : ¬(decide (c = '\n') && false) = true := by simp
              rw [if_neg hd, if_neg hd, if_pos hlf, if_pos hlf]
              cases rest with
              | nil => rfl
              | cons c2 rest2 =>
                simp only []
                rw [← hs]
                refine ih f g .contentLine (c2 :: rest2) (pos + 1) ?_ ?_ ?_ <;>
                  simp only [lexWeight, List.length_cons] at * <;> omega
          · have hd : ¬(decide (c = '\n') && strict) = true := by simp [hlf]
            rw [if_neg hd, if_neg hd, if_neg hlf, if_neg hlf]
    | name =>
      simp only [lexWeight] at hn hf hg
      simp only [lexStep]
      cases hdw : rem.dropWhile isNameChar with
      | nil => rfl
      | cons c rest =>
        simp only []
        have hlen : rest.length + 1 ≤ rem.length := by
          have h := dropWhile_length_le isNameChar rem
          rw [hdw] at h
          simpa using h
        by_cases hcol : c = ':'
        · rw [if_pos hcol, if_pos hcol]
          refine congrArg _ (ih f g .value rest _ ?_ ?_ ?_) <;>
            simp only [lexWeight] <;> omega
        · rw [if_neg hcol, if_neg hcol]
          by_cases hsem : c = ';'
          · rw [if_pos hsem, if_pos hsem]
            refine congrArg _ (ih f g .paramName rest _ ?_ ?_ ?_) <;>
              simp only [lexWeight] <;> omega
          · rw [if_neg hsem, if_neg hsem]
    | value =>
      simp only [lexWeight] at hn hf hg
      simp only [lexStep]
      by_cases hpre : (['\r', '\n']).isPrefixOf rem ∨ (['\n']).isPrefixOf rem
      · rw [if_pos hpre, if_pos hpre]
        refine congrArg _ (ih f g .newLine rem pos ?_ ?_ ?_) <;>
          simp only [lexWeight] <;> omega
      · rw [if_neg hpre, if_neg hpre]
        cases hdw : rem.dropWhile isValueChar with
        | nil => rfl
        | cons c rest =>
          simp only []
          have hlen : rest.length + 1 ≤ rem.length := by
            have h := dropWhile_length_le isValueChar rem
            rw [hdw] at h
            simpa using h
          refine congrArg _ (ih f g .newLine (c :: rest) _ ?_ ?_ ?_) <;>
            simp only [lexWeight, List.length_cons] <;> omega
    | paramName =>
      simp only [lexWeight] at hn hf hg
      simp only [lexStep]
      cases hdw : rem.dropWhile isNameChar with
      | nil => rfl
      | cons c rest =>
        simp only []
        have hlen : rest.length + 1 ≤ rem.length := by
          have h := dropWhile_length_le isNameChar rem
          rw [hdw] at h
          simpa using h
        by_cases heq : c = '='
        · rw [if_pos heq, if_pos heq]
          refine congrArg _ (ih f g .paramValue rest _ ?_ ?_ ?_) <;>
            simp only [lexWeight] <;> omega
        · rw [if_neg heq, if_neg heq]
          by_cases hcol : c = ':'
          · rw [if_pos hcol, if_pos hcol]
            refine congrArg _ (ih f g .value rest _ ?_ ?_ ?_) <;>
              simp only [lexWeight] <;> omega
          · rw [if_neg hcol, if_neg hcol]
    | paramValue =>
      simp only [lexWeight] at hn hf hg
      simp only [lexStep]
      cases hdw : rem.dropWhile isSafeChar with
      | nil => rfl
      | cons c rest =>
        simp only []
        have hlen : rest.length + 1 ≤ rem.length := by
          have h := dropWhile_length_le isSafeChar rem
          rw [hdw] at h
          simpa using h
        by_cases hcol : c = ':'
        · rw [if_pos hcol, if_pos hcol]
          refine congrArg _ (ih f g .value rest _ ?_ ?_ ?_) <;>
            simp only [lexWeight] <;> omega
        · rw [if_neg hcol, if_neg hcol]
          by_cases hsem : c = ';'
          · rw [if_pos hsem, if_pos hsem]
            refine congrArg _ (ih f g .paramName rest _ ?_ ?_ ?_) <;>
              simp only [lexWeight] <;> omega
          · rw [if_neg hsem, if_neg hsem]
            by_cases hcom : c = ','
            · rw [if_pos hcom, if_pos hcom]
              refine congrArg _ (ih f g .paramValue rest _ ?_ ?_ ?_) <;>
                simp only [lexWeight] <;> omega
            · rw [if_neg hcom, if_neg hcom]

/-- The canonical fuel: strictly above the transition measure of any state. -/
def lexRun (strict : Bool) (st : LexState) (rem : List Char) (pos : Nat) :
    List Item :=
  lexStep strict (3 * rem.length + 3) st rem pos

theorem lexStep_eq_lexRun (strict : Bool) (fuel : Nat) (st : LexState)
    (rem : List Char) (pos : Nat) (h : 3 * rem.length + lexWeight st < fuel) :
    lexStep strict fuel st rem pos = lexRun strict st rem pos := by
  have hw : lexWeight st ≤ 2 := by cases st <;> simp [lexWeight]
  exact lexStep_fuel_eq strict (3 * rem.length + lexWeight st) fuel
    (3 * rem.length + 3) st rem pos (le_refl _) h (by omega)

theorem lexDocument_eq_lexRun (strict : Bool) (input : List Char) :
    lexDocument strict input = lexRun strict .contentLine (unfold input) 0 := by
  simp only [lexDocument, lexContentLine]
  refine lexStep_eq_lexRun _ _ _ _ _ ?_
  simp only [lexWeight]
  omega

/-! ## Character-class consequences used by the line lemmas -/

theorem nameChar_not_break (c : Char) (h : isNameChar c = true) :
    ¬(c = '\r' ∨ c = '\n') := by
  rintro (rfl | rfl) <;> exact absurd h (by decide)

theorem valueChar_not_break (c : Char) (h : isValueChar c = true) :
    ¬(c = '\r' ∨ c = '\n') := by
  rintro (rfl | rfl) <;> exact absurd h (by decide)

theorem safeChar_not_break (c : Char) (h : isSafeChar c = true) :
    ¬(c = '\r' ∨ c = '\n') := by
  rintro (rfl | rfl) <;> exact absurd h (by decide)

theorem goIsSpace_false_of_nameChar (c : Char) (h : isNameChar c = true) :
    goIsSpace c = false := by
  by_cases hd : c = '-'
  · subst hd; decide
  · cases hsp : goIsSpace c with
    | false => rfl
    | true =>
      exfalso
      simp only [isNameChar, goIsLetter, goIsDigit, Bool.or_eq_true,
        Bool.and_eq_true, beq_iff_eq, decide_eq_true_eq] at h
      simp only [goIsSpace, Bool.or_eq_true, Bool.and_eq_true, beq_iff_eq,
        decide_eq_true_eq] at hsp
      rcases h with ((h | h) | h) | h
      · omega
      · omega
      · omega
      · exact hd h

/-- Plain runes pass through readRune unchanged. -/
theorem unfold_all_plain :
    ∀ (l rest : List Char), (∀ c ∈ l, ¬(c = '\r' ∨ c = '\n')) →
      unfold (l ++ rest) = l ++ unfold rest
  | [], _, _ => rfl
  | a :: l, rest, h => by
    rw [List.cons_append, unfold_cons_plain a _ (h a (by simp)),
      unfold_all_plain l rest (fun c hc => h c (by simp [hc]))]
    rfl

/-! ## Prefix discrimination -/

/-- m disagrees with l at some position inside both lists. -/
def mismatches : List Char → List Char → Bool
  | _, [] => false
  | [], _ => false
  | a :: as, b :: bs => a != b || mismatches as bs

theorem isPrefixOf_false_of_mismatches :
    ∀ (m l rest : List Char), mismatches m l = true →
      m.isPrefixOf (l ++ rest) = false
  | [], l, _, h => by cases l <;> simp [mismatches] at h
  | _ :: _, [], _, h => by simp [mismatches] at h
  | a :: as, b :: bs, rest, h => by
    simp only [mismatches, Bool.or_eq_true, bne_iff_ne, ne_eq] at h
    by_cases hab : a = b
    · subst hab
      have h2 : mismatches as bs = true := by
        rcases h with h | h
        · exact absurd rfl h
        · exact h
      simp only [List.cons_append, List.isPrefixOf, List.append_eq,
        isPrefixOf_false_of_mismatches as bs rest h2, Bool.and_false]
    · simp only [List.cons_append, List.isPrefixOf, List.append_eq]
      rw [show (a == b) = false from by simpa using hab, Bool.false_and]

theorem isPrefixOf_append_self :
    ∀ (l rest : List Char), l.isPrefixOf (l ++ rest) = true
  | [], _ => by simp [List.isPrefixOf]
  | a :: l, rest => by
    simp only [List.cons_append, List.isPrefixOf, List.append_eq,
      beq_self_eq_true, Bool.true_and]
    exact isPrefixOf_append_self l rest

/-- A BEGIN/END marker — a name run, a colon, then a nonempty tail — is
never a prefix of a content line whose name run is followed by a non-name
rune, unless the tails agree at their heads. -/
theorem marker_not_prefix :
    ∀ (w nm v : List Char) (c : Char) (rest : List Char),
      w.all isNameChar = true → nm.all isNameChar = true → v ≠ [] →
      isNameChar c = false → (c = ':' → rest.head? ≠ v.head?) →
      (w ++ ':' :: v).isPrefixOf (nm ++ c :: rest) = false
  | [], [], v, c, rest, _, _, hv, hc, hne => by
    match v, hv with
    | v0 :: v', _ =>
      simp only [List.nil_append, List.isPrefixOf, List.append_eq]
      by_cases hcc : c = ':'
      · subst hcc
        have hr := hne rfl
        cases rest with
        | nil => simp [List.isPrefixOf]
        | cons r0 r' =>
          have hvr : v0 ≠ r0 := by
            intro h
            exact hr (by simp [h])
          simp only [List.isPrefixOf]
          rw [show (v0 == r0) = false from by simpa using hvr]
          simp
      · rw [show (':' == c) = false from by
          simpa using fun h => hcc h.symm]
        simp
  | [], n0 :: nm', v, c, rest, _, hnm, _, _, _ => by
    have hn0 : isNameChar n0 = true := by
      simp only [List.all_cons, Bool.and_eq_true] at hnm
      exact hnm.1
    have hne0 : ':' ≠ n0 := by
      intro h
      rw [← h] at hn0
      exact absurd hn0 (by decide)
    simp only [List.nil_append, List.cons_append, List.isPrefixOf]
    rw [show (':' == n0) = false from by simpa using hne0, Bool.false_and]
  | w0 :: w', [], v, c, rest, hw, _, _, hc, _ => by
    have hw0 : isNameChar w0 = true := by
      simp only [List.all_cons, Bool.and_eq_true] at hw
      exact hw.1
    have hne0 : w0 ≠ c := by
      intro h
      rw [h] at hw0
      rw [hw0] at hc
      exact absurd hc (by simp)
    simp only [List.nil_append, List.cons_append, List.isPrefixOf]
    rw [show (w0 == c) = false from by simpa using hne0, Bool.false_and]
  | w0 :: w', n0 :: nm', v, c, rest, hw, hnm, hv, hc, hne => by
    simp only [List.all_cons, Bool.and_eq_true] at hw hnm
    by_cases h : w0 = n0
    · subst h
      simp only [List.cons_append, List.isPrefixOf, List.append_eq,
        marker_not_prefix w' nm' v c rest hw.2 hnm.2 hv hc hne, Bool.and_false]
    · simp only [List.cons_append, List.isPrefixOf]
      rw [show (w0 == n0) = false from by simpa using h, Bool.false_and]

theorem ne_true_of_eq_false {b : Bool} (h : b = false) : ¬b = true := by
  simp [h]

theorem takeWhile_all_append (p : Char → Bool) :
    ∀ (l1 l2 : List Char), l1.all p = true →
      (l1 ++ l2).takeWhile p = l1 ++ l2.takeWhile p
  | [], _, _ => by simp
  | a :: l1, l2, h => by
    simp only [List.all_cons, Bool.and_eq_true] at h
    simp only [List.cons_append, List.takeWhile_cons, h.1, if_true]
    rw [takeWhile_all_append p l1 l2 h.2]

theorem dropWhile_all_append (p : Char → Bool) :
    ∀ (l1 l2 : List Char), l1.all p = true →
      (l1 ++ l2).dropWhile p = l2.dropWhile p
  | [], _, _ => by simp
  | a :: l1, l2, h => by
    simp only [List.all_cons, Bool.and_eq_true] at h
    simp only [List.cons_append, List.dropWhile_cons, h.1, if_true]
    exact dropWhile_all_append p l1 l2 h.2

/-! ## Line-shaped lexer steps -/

theorem lexRun_contentLine_name (strict : Bool) (nm : List Char) (c : Char)
    (rest : List Char) (pos : Nat) (hnm : nm.all isNameChar = true)
    (hc : isNameChar c = false) (hv : c = ':' → rest.head? ≠ some 'V') :
    lexRun strict .contentLine (nm ++ c :: rest) pos =
      lexRun strict .name (nm ++ c :: rest) pos := by
  have hvs : ∀ v : List Char, v.head? = some 'V' →
      c = ':' → rest.head? ≠ v.head? := by
    intro v hv0 h
    rw [hv0]
    exact hv h
  have hb1 : beginVCalendarChars.isPrefixOf (nm ++ c :: rest) = false := by
    rw [show beginVCalendarChars
        = chars "BEGIN" ++ ':' :: chars "VCALENDAR" from rfl]
    exact marker_not_prefix _ _ _ _ _ (by decide) hnm (by decide) hc
      (hvs _ rfl)
  have hb2 : endVCalendarChars.isPrefixOf (nm ++ c :: rest) = false := by
    rw [show endVCalendarChars
        = chars "END" ++ ':' :: chars "VCALENDAR" from rfl]
    exact marker_not_prefix _ _ _ _ _ (by decide) hnm (by decide) hc
      (hvs _ rfl)
  have hb3 : beginVEventChars.isPrefixOf (nm ++ c :: rest) = false := by
    rw [show beginVEventChars = chars "BEGIN" ++ ':' :: chars "VEVENT" from rfl]
    exact marker_not_prefix _ _ _ _ _ (by decide) hnm (by decide) hc
      (hvs _ rfl)
  have hb4 : endVEventChars.isPrefixOf (nm ++ c :: rest) = false := by
    rw [show endVEventChars = chars "END" ++ ':' :: chars "VEVENT" from rfl]
    exact marker_not_prefix _ _ _ _ _ (by decide) hnm (by decide) hc
      (hvs _ rfl)
  have hb5 : beginVAlarmChars.isPrefixOf (nm ++ c :: rest) = false := by
    rw [show beginVAlarmChars = chars "BEGIN" ++ ':' :: chars "VALARM" from rfl]
    exact marker_not_prefix _ _ _ _ _ (by decide) hnm (by decide) hc
      (hvs _ rfl)
  have hb6 : endVAlarmChars.isPrefixOf (nm ++ c :: rest) = false := by
    rw [show endVAlarmChars = chars "END" ++ ':' :: chars "VALARM" from rfl]
    exact marker_not_prefix _ _ _ _ _ (by decide) hnm (by decide) hc
      (hvs _ rfl)
  have key : ∀ G, lexStep strict (G + 1) .contentLine (nm ++ c :: rest) pos =
      lexStep strict G .name (nm ++ c :: rest) pos := by
    intro G
    simp only [lexStep]
    rw [if_neg (ne_true_of_eq_false hb1), if_neg (ne_true_of_eq_false hb2),
      if_neg (ne_true_of_eq_false hb3), if_neg (ne_true_of_eq_false hb4),
      if_neg (ne_true_of_eq_false hb5), if_neg (ne_true_of_eq_false hb6)]
  calc lexRun strict .contentLine (nm ++ c :: rest) pos
      = lexStep strict (3 * (nm ++ c :: rest).length + 2 + 1)
          .contentLine (nm ++ c :: rest) pos := rfl
    _ = lexStep strict (3 * (nm ++ c :: rest).length + 2)
          .name (nm ++ c :: rest) pos := key _
    _ = lexRun strict .name (nm ++ c :: rest) pos := by
        refine lexStep_eq_lexRun _ _ _ _ _ ?_
        simp only [lexWeight]
        omega

theorem lexRun_marker_beginCal (strict : Bool) (rest : List Char) (pos : Nat) :
    lexRun strict .contentLine (beginVCalendarChars ++ rest) pos =
      ⟨ItemType.calendarBegin, beginVCalendarChars⟩ ::
        lexRun strict .newLine rest (pos + 15) := by
  have hdrop : (beginVCalendarChars ++ rest).drop 15 = rest := by
    rw [show (15 : ℕ) = (beginVCalendarChars).length from rfl]
    exact List.drop_left _ _
  have key : ∀ G, lexStep strict (G + 1) .contentLine (beginVCalendarChars ++ rest) pos =
      ⟨ItemType.calendarBegin, beginVCalendarChars⟩ :: lexStep strict G .newLine rest (pos + 15) := by
    intro G
    simp only [lexStep]
    rw [if_pos (isPrefixOf_append_self _ rest)]
    rw [hdrop]
  calc lexRun strict .contentLine (beginVCalendarChars ++ rest) pos
      = lexStep strict (3 * (beginVCalendarChars ++ rest).length + 2 + 1)
          .contentLine (beginVCalendarChars ++ rest) pos := rfl
    _ = ⟨ItemType.calendarBegin, beginVCalendarChars⟩ ::
          lexStep strict (3 * (beginVCalendarChars ++ rest).length + 2) .newLine rest
            (pos + 15) := key _
    _ = ⟨ItemType.calendarBegin, beginVCalendarChars⟩ :: lexRun strict .newLine rest (pos + 15) := by
        refine congrArg _ (lexStep_eq_lexRun _ _ _ _ _ ?_)
        simp only [lexWeight, List.length_append]
        omega

theorem lexRun_marker_endCal (strict : Bool) (rest : List Char) (pos : Nat) :
    lexRun strict .contentLine (endVCalendarChars ++ rest) pos =
      ⟨ItemType.calendarEnd, endVCalendarChars⟩ ::
        lexRun strict .newLine rest (pos + 13) := by
  have hdrop : (endVCalendarChars ++ rest).drop 13 = rest := by
    rw [show (13 : ℕ) = (endVCalendarChars).length from rfl]
    exact List.drop_left _ _
  have key : ∀ G, lexStep strict (G + 1) .contentLine (endVCalendarChars ++ rest) pos =
      ⟨ItemType.calendarEnd, endVCalendarChars⟩ :: lexStep strict G .newLine rest (pos + 13) := by
    intro G
    simp only [lexStep]
    rw [if_neg (ne_true_of_eq_false
      (isPrefixOf_false_of_mismatches beginVCalendarChars endVCalendarChars rest (by decide)))]
    rw [if_pos (isPrefixOf_append_self _ rest)]
    rw [hdrop]
  calc lexRun strict .contentLine (endVCalendarChars ++ rest) pos
      = lexStep strict (3 * (endVCalendarChars ++ rest).length + 2 + 1)
          .contentLine (endVCalendarChars ++ rest) pos := rfl
    _ = ⟨ItemType.calendarEnd, endVCalendarChars⟩ ::
          lexStep strict (3 * (endVCalendarChars ++ rest).length + 2) .newLine rest
            (pos + 13) := key _
    _ = ⟨ItemType.calendarEnd, endVCalendarChars⟩ :: lexRun strict .newLine rest (pos + 13) := by
        refine congrArg _ (lexStep_eq_lexRun _ _ _ _ _ ?_)
        simp only [lexWeight, List.length_append]
        omega

theorem lexRun_marker_beginEvent (strict : Bool) (rest : List Char) (pos : Nat) :
    lexRun strict .contentLine (beginVEventChars ++ rest) pos =
      ⟨ItemType.eventBegin, beginVEventChars⟩ ::
        lexRun strict .newLine rest (pos + 12) := by
  have hdrop : (beginVEventChars ++ rest).drop 12 = rest := by
    rw [show (12 : ℕ) = (beginVEventChars).length from rfl]
    exact List.drop_left _ _
  have key : ∀ G, lexStep strict (G + 1) .contentLine (beginVEventChars ++ rest) pos =
      ⟨ItemType.eventBegin, beginVEventChars⟩ :: lexStep strict G .newLine rest (pos + 12) := by
    intro G
    simp only [lexStep]
    rw [if_neg (ne_true_of_eq_false
      (isPrefixOf_false_of_mismatches beginVCalendarChars beginVEventChars rest (by decide)))]
    rw [if_neg (ne_true_of_eq_false
      (isPrefixOf_false_of_mismatches endVCalendarChars beginVEventChars rest (by decide)))]
    rw [if_pos (isPrefixOf_append_self _ rest)]
    rw [hdrop]
  calc lexRun strict .contentLine (beginVEventChars ++ rest) pos
      = lexStep strict (3 * (beginVEventChars ++ rest).length + 2 + 1)
          .contentLine (beginVEventChars ++ rest) pos := rfl
    _ = ⟨ItemType.eventBegin, beginVEventChars⟩ ::
          lexStep strict (3 * (beginVEventChars ++ rest).length + 2) .newLine rest
            (pos + 12) := key _
    _ = ⟨ItemType.eventBegin, beginVEventChars⟩ :: lexRun strict .newLine rest (pos + 12) := by
        refine congrArg _ (lexStep_eq_lexRun _ _ _ _ _ ?_)
        simp only [lexWeight, List.length_append]
        omega

theorem lexRun_marker_endEvent (strict : Bool) (rest : List Char) (pos : Nat) :
    lexRun strict .contentLine (endVEventChars ++ rest) pos =
      ⟨ItemType.eventEnd, endVEventChars⟩ ::
        lexRun strict .newLine rest (pos + 10) := by
  have hdrop : (endVEventChars ++ rest).drop 10 = rest := by
    rw [show (10 : ℕ) = (endVEventChars).length from rfl]
    exact List.drop_left _ _
  have key : ∀ G, lexStep strict (G + 1) .contentLine (endVEventChars ++ rest) pos =
      ⟨ItemType.eventEnd, endVEventChars⟩ :: lexStep strict G .newLine rest (pos + 10) := by
    intro G
    simp only [lexStep]
    rw [if_neg (ne_true_of_eq_false
      (isPrefixOf_false_of_mismatches beginVCalendarChars endVEventChars rest (by decide)))]
    rw [if_neg (ne_true_of_eq_false
      (isPrefixOf_false_of_mismatches endVCalendarChars endVEventChars rest (by decide)))]
    rw [if_neg (ne_true_of_eq_false
      (isPrefixOf_false_of_mismatches beginVEventChars endVEventChars rest (by decide)))]
    rw [if_pos (isPrefixOf_append_self _ rest)]
    rw [hdrop]
  calc lexRun strict .contentLine (endVEventChars ++ rest) pos
      = lexStep strict (3 * (endVEventChars ++ rest).length + 2 + 1)
          .contentLine (endVEventChars ++ rest) pos := rfl
    _ = ⟨ItemType.eventEnd, endVEventChars⟩ ::
          lexStep strict (3 * (endVEventChars ++ rest).length + 2) .newLine rest
            (pos + 10) := key _
    _ = ⟨ItemType.eventEnd, endVEventChars⟩ :: lexRun strict .newLine rest (pos + 10) := by
        refine congrArg _ (lexStep_eq_lexRun _ _ _ _ _ ?_)
        simp only [lexWeight, List.length_append]
        omega

theorem lexRun_marker_beginAlarm (strict : Bool) (rest : List Char) (pos : Nat) :
    lexRun strict .contentLine (beginVAlarmChars ++ rest) pos =
      ⟨ItemType.alarmBegin, beginVAlarmChars⟩ ::
        lexRun strict .newLine rest (pos + 12) := by
  have hdrop : (beginVAlarmChars ++ rest).drop 12 = rest := by
    rw [show (12 : ℕ) = (beginVAlarmChars).length from rfl]
    exact List.drop_left _ _
  have key : ∀ G, lexStep strict (G + 1) .contentLine (beginVAlarmChars ++ rest) pos =
      ⟨ItemType.alarmBegin, beginVAlarmChars⟩ :: lexStep strict G .newLine rest (pos + 12) := by
    intro G
    simp only [lexStep]
    rw [if_neg (ne_true_of_eq_false
      (isPrefixOf_false_of_mismatches beginVCalendarChars beginVAlarmChars rest (by decide)))]
    rw [if_neg (ne_true_of_eq_false
      (isPrefixOf_false_of_mismatches endVCalendarChars beginVAlarmChars rest (by decide)))]
    rw [if_neg (ne_true_of_eq_false
      (isPrefixOf_false_of_mismatches beginVEventChars beginVAlarmChars rest (by decide)))]
    rw [if_neg (ne_true_of_eq_false
      (isPrefixOf_false_of_mismatches endVEventChars beginVAlarmChars rest (by decide)))]
    rw [if_pos (isPrefixOf_append_self _ rest)]
    rw [hdrop]
  calc lexRun strict .contentLine (beginVAlarmChars ++ rest) pos
      = lexStep strict (3 * (beginVAlarmChars ++ rest).length + 2 + 1)
          .contentLine (beginVAlarmChars ++ rest) pos := rfl
    _ = ⟨ItemType.alarmBegin, beginVAlarmChars⟩ ::
          lexStep strict (3 * (beginVAlarmChars ++ rest).length + 2) .newLine rest
            (pos + 12) := key _
    _ = ⟨ItemType.alarmBegin, beginVAlarmChars⟩ :: lexRun strict .newLine rest (pos + 12) := by
        refine congrArg _ (lexStep_eq_lexRun _ _ _ _ _ ?_)
        simp only [lexWeight, List.length_append]
        omega

theorem lexRun_marker_endAlarm (strict : Bool) (rest : List Char) (pos : Nat) :
    lexRun strict .contentLine (endVAlarmChars ++ rest) pos =
      ⟨ItemType.alarmEnd, endVAlarmChars⟩ ::
        lexRun strict .newLine rest (pos + 10) := by
  have hdrop : (endVAlarmChars ++ rest).drop 10 = rest := by
    rw [show (10 : ℕ) = (endVAlarmChars).length from rfl]
    exact List.drop_left _ _
  have key : ∀ G, lexStep strict (G + 1) .contentLine (endVAlarmChars ++ rest) pos =
      ⟨ItemType.alarmEnd, endVAlarmChars⟩ :: lexStep strict G .newLine rest (pos + 10) := by
    intro G
    simp only [lexStep]
    rw [if_neg (ne_true_of_eq_false
      (isPrefixOf_false_of_mismatches beginVCalendarChars endVAlarmChars rest (by decide)))]
    rw [if_neg (ne_true_of_eq_false
      (isPrefixOf_false_of_mismatches endVCalendarChars endVAlarmChars rest (by decide)))]
    rw [if_neg (ne_true_of_eq_false
      (isPrefixOf_false_of_mismatches beginVEventChars endVAlarmChars rest (by decide)))]
    rw [if_neg (ne_true_of_eq_false
      (isPrefixOf_false_of_mismatches endVEventChars endVAlarmChars rest (by decide)))]
    rw [if_neg (ne_true_of_eq_false
      (isPrefixOf_false_of_mismatches beginVAlarmChars endVAlarmChars rest (by decide)))]
    rw [if_pos (isPrefixOf_append_self _ rest)]
    rw [hdrop]
  calc lexRun strict .contentLine (endVAlarmChars ++ rest) pos
      = lexStep strict (3 * (endVAlarmChars ++ rest).length + 2 + 1)
          .contentLine (endVAlarmChars ++ rest) pos := rfl
    _ = ⟨ItemType.alarmEnd, endVAlarmChars⟩ ::
          lexStep strict (3 * (endVAlarmChars ++ rest).length + 2) .newLine rest
            (pos + 10) := key _
    _ = ⟨ItemType.alarmEnd, endVAlarmChars⟩ :: lexRun strict .newLine rest (pos + 10) := by
        refine congrArg _ (lexStep_eq_lexRun _ _ _ _ _ ?_)
        simp only [lexWeight, List.length_append]
        omega

theorem lexRun_name_colon (strict : Bool) (v rest : List Char)
    (pos : Nat) (hv : v.all isNameChar = true) :
    lexRun strict .name (v ++ ':' :: rest) pos =
      emitAdvanced ItemType.name v ++
        lexRun strict .value rest (pos + byteLen v + 1) := by
  have ht : (v ++ ':' :: rest).takeWhile isNameChar = v := by
    rw [takeWhile_all_append _ _ _ hv, List.takeWhile_cons,
      show isNameChar ':' = false from by decide]
    simp
  have hd : (v ++ ':' :: rest).dropWhile isNameChar = ':' :: rest := by
    rw [dropWhile_all_append _ _ _ hv, List.dropWhile_cons,
      show isNameChar ':' = false from by decide]
    simp
  have key : ∀ G, lexStep strict (G + 1) .name (v ++ ':' :: rest) pos =
      emitAdvanced ItemType.name v ++
        lexStep strict G .value rest (pos + byteLen v + 1) := by
    intro G
    simp only [lexStep]
    rw [ht, hd]
    simp only []
    rw [if_pos trivial]
  calc lexRun strict .name (v ++ ':' :: rest) pos
      = lexStep strict (3 * (v ++ ':' :: rest).length + 2 + 1)
          .name (v ++ ':' :: rest) pos := rfl
    _ = emitAdvanced ItemType.name v ++
          lexStep strict (3 * (v ++ ':' :: rest).length + 2) .value
            rest (pos + byteLen v + 1) := key _
    _ = emitAdvanced ItemType.name v ++
          lexRun strict .value rest (pos + byteLen v + 1) := by
        refine congrArg _ (lexStep_eq_lexRun _ _ _ _ _ ?_)
        simp only [lexWeight, List.length_append, List.length_cons]
        omega

theorem lexRun_name_semi (strict : Bool) (v rest : List Char)
    (pos : Nat) (hv : v.all isNameChar = true) :
    lexRun strict .name (v ++ ';' :: rest) pos =
      emitAdvanced ItemType.name v ++
        lexRun strict .paramName rest (pos + byteLen v + 1) := by
  have ht : (v ++ ';' :: rest).takeWhile isNameChar = v := by
    rw [takeWhile_all_append _ _ _ hv, List.takeWhile_cons,
      show isNameChar ';' = false from by decide]
    simp
  have hd : (v ++ ';' :: rest).dropWhile isNameChar = ';' :: rest := by
    rw [dropWhile_all_append _ _ _ hv, List.dropWhile_cons,
      show isNameChar ';' = false from by decide]
    simp
  have key : ∀ G, lexStep strict (G + 1) .name (v ++ ';' :: rest) pos =
      emitAdvanced ItemType.name v ++
        lexStep strict G .paramName rest (pos + byteLen v + 1) := by
    intro G
    simp only [lexStep]
    rw [ht, hd]
    simp only []
    rw [if_neg (by decide)]
    rw [if_pos trivial]
  calc lexRun strict .name (v ++ ';' :: rest) pos
      = lexStep strict (3 * (v ++ ';' :: rest).length + 2 + 1)
          .name (v ++ ';' :: rest) pos := rfl
    _ = emitAdvanced ItemType.name v ++
          lexStep strict (3 * (v ++ ';' :: rest).length + 2) .paramName
            rest (pos + byteLen v + 1) := key _
    _ = emitAdvanced ItemType.name v ++
          lexRun strict .paramName rest (pos + byteLen v + 1) := by
        refine congrArg _ (lexStep_eq_lexRun _ _ _ _ _ ?_)
        simp only [lexWeight, List.length_append, List.length_cons]
        omega

theorem lexRun_paramName_eq (strict : Bool) (v rest : List Char)
    (pos : Nat) (hv : v.all isNameChar = true) :
    lexRun strict .paramName (v ++ '=' :: rest) pos =
      emitAdvanced ItemType.paramName v ++
        lexRun strict .paramValue rest (pos + byteLen v + 1) := by
  have ht : (v ++ '=' :: rest).takeWhile isNameChar = v := by
    rw [takeWhile_all_append _ _ _ hv, List.takeWhile_cons,
      show isNameChar '=' = false from by decide]
    simp
  have hd : (v ++ '=' :: rest).dropWhile isNameChar = '=' :: rest := by
    rw [dropWhile_all_append _ _ _ hv, List.dropWhile_cons,
      show isNameChar '=' = false from by decide]
    simp
  have key : ∀ G, lexStep strict (G + 1) .paramName (v ++ '=' :: rest) pos =
      emitAdvanced ItemType.paramName v ++
        lexStep strict G .paramValue rest (pos + byteLen v + 1) := by
    intro G
    simp only [lexStep]
    rw [ht, hd]
    simp only []
    rw [if_pos trivial]
  calc lexRun strict .paramName (v ++ '=' :: rest) pos
      = lexStep strict (3 * (v ++ '=' :: rest).length + 2 + 1)
          .paramName (v ++ '=' :: rest) pos := rfl
    _ = emitAdvanced ItemType.paramName v ++
          lexStep strict (3 * (v ++ '=' :: rest).length + 2) .paramValue
            rest (pos + byteLen v + 1) := key _
    _ = emitAdvanced ItemType.paramName v ++
          lexRun strict .paramValue rest (pos + byteLen v + 1) := by
        refine congrArg _ (lexStep_eq_lexRun _ _ _ _ _ ?_)
        simp only [lexWeight, List.length_append, List.length_cons]
        omega

theorem lexRun_paramName_colon (strict : Bool) (v rest : List Char)
    (pos : Nat) (hv : v.all isNameChar = true) :
    lexRun strict .paramName (v ++ ':' :: rest) pos =
      emitAdvanced ItemType.paramName v ++
        lexRun strict .value rest (pos + byteLen v + 1) := by
  have ht : (v ++ ':' :: rest).takeWhile isNameChar = v := by
    rw [takeWhile_all_append _ _ _ hv, List.takeWhile_cons,
      show isNameChar ':' = false from by decide]
    simp
  have hd : (v ++ ':' :: rest).dropWhile isNameChar = ':' :: rest := by
    rw [dropWhile_all_append _ _ _ hv, List.dropWhile_cons,
      show isNameChar ':' = false from by decide]
    simp
  have key : ∀ G, lexStep strict (G + 1) .paramName (v ++ ':' :: rest) pos =
      emitAdvanced ItemType.paramName v ++
        lexStep strict G .value rest (pos + byteLen v + 1) := by
    intro G
    simp only [lexStep]
    rw [ht, hd]
    simp only []
    rw [if_neg (by decide)]
    rw [if_pos trivial]
  calc lexRun strict .paramName (v ++ ':' :: rest) pos
      = lexStep strict (3 * (v ++ ':' :: rest).length + 2 + 1)
          .paramName (v ++ ':' :: rest) pos := rfl
    _ = emitAdvanced ItemType.paramName v ++
          lexStep strict (3 * (v ++ ':' :: rest).length + 2) .value
            rest (pos + byteLen v + 1) := key _
    _ = emitAdvanced ItemType.paramName v ++
          lexRun strict .value rest (pos + byteLen v + 1) := by
        refine congrArg _ (lexStep_eq_lexRun _ _ _ _ _ ?_)
        simp only [lexWeight, List.length_append, List.length_cons]
        omega

theorem lexRun_paramValue_colon (strict : Bool) (v rest : List Char)
    (pos : Nat) (hv : v.all isSafeChar = true) :
    lexRun strict .paramValue (v ++ ':' :: rest) pos =
      emitAdvanced ItemType.paramValue v ++
        lexRun strict .value rest (pos + byteLen v + 1) := by
  have ht : (v ++ ':' :: rest).takeWhile isSafeChar = v := by
    rw [takeWhile_all_append _ _ _ hv, List.takeWhile_cons,
      show isSafeChar ':' = false from by decide]
    simp
  have hd : (v ++ ':' :: rest).dropWhile isSafeChar = ':' :: rest := by
    rw [dropWhile_all_append _ _ _ hv, List.dropWhile_cons,
      show isSafeChar ':' = false from by decide]
    simp
  have key : ∀ G, lexStep strict (G + 1) .paramValue (v ++ ':' :: rest) pos =
      emitAdvanced ItemType.paramValue v ++
        lexStep strict G .value rest (pos + byteLen v + 1) := by
    intro G
    simp only [lexStep]
    rw [ht, hd]
    simp only []
    rw [if_pos trivial]
  calc lexRun strict .paramValue (v ++ ':' :: rest) pos
      = lexStep strict (3 * (v ++ ':' :: rest).length + 2 + 1)
          .paramValue (v ++ ':' :: rest) pos := rfl
    _ = emitAdvanced ItemType.paramValue v ++
          lexStep strict (3 * (v ++ ':' :: rest).length + 2) .value
            rest (pos + byteLen v + 1) := key _
    _ = emitAdvanced ItemType.paramValue v ++
          lexRun strict .value rest (pos + byteLen v + 1) := by
        refine congrArg _ (lexStep_eq_lexRun _ _ _ _ _ ?_)
        simp only [lexWeight, List.length_append, List.length_cons]
        omega

theorem lexRun_paramValue_semi (strict : Bool) (v rest : List Char)
    (pos : Nat) (hv : v.all isSafeChar = true) :
    lexRun strict .paramValue (v ++ ';' :: rest) pos =
      emitAdvanced ItemType.paramValue v ++
        lexRun strict .paramName rest (pos + byteLen v + 1) := by
  have ht : (v ++ ';' :: rest).takeWhile isSafeChar = v := by
    rw [takeWhile_all_append _ _ _ hv, List.takeWhile_cons,
      show isSafeChar ';' = false from by decide]
    simp
  have hd : (v ++ ';' :: rest).dropWhile isSafeChar = ';' :: rest := by
    rw [dropWhile_all_append _ _ _ hv, List.dropWhile_cons,
      show isSafeChar ';' = false from by decide]
    simp
  have key : ∀ G, lexStep strict (G + 1) .paramValue (v ++ ';' :: rest) pos =
      emitAdvanced ItemType.paramValue v ++
        lexStep strict G .paramName rest (pos + byteLen v + 1) := by
    intro G
    simp only [lexStep]
    rw [ht, hd]
    simp only []
    rw [if_neg (by decide)]
    rw [if_pos trivial]
  calc lexRun strict .paramValue (v ++ ';' :: rest) pos
      = lexStep strict (3 * (v ++ ';' :: rest).length + 2 + 1)
          .paramValue (v ++ ';' :: rest) pos := rfl
    _ = emitAdvanced ItemType.paramValue v ++
          lexStep strict (3 * (v ++ ';' :: rest).length + 2) .paramName
            rest (pos + byteLen v + 1) := key _
    _ = emitAdvanced ItemType.paramValue v ++
          lexRun strict .paramName rest (pos + byteLen v + 1) := by
        refine congrArg _ (lexStep_eq_lexRun _ _ _ _ _ ?_)
        simp only [lexWeight, List.length_append, List.length_cons]
        omega

theorem lexRun_paramValue_comma (strict : Bool) (v rest : List Char)
    (pos : Nat) (hv : v.all isSafeChar = true) :
    lexRun strict .paramValue (v ++ ',' :: rest) pos =
      emitAdvanced ItemType.paramValue v ++
        lexRun strict .paramValue rest (pos + byteLen v + 1) := by
  have ht : (v ++ ',' :: rest).takeWhile isSafeChar = v := by
    rw [takeWhile_all_append _ _ _ hv, List.takeWhile_cons,
      show isSafeChar ',' = false from by decide]
    simp
  have hd : (v ++ ',' :: rest).dropWhile isSafeChar = ',' :: rest := by
    rw [dropWhile_all_append _ _ _ hv, List.dropWhile_cons,
      show isSafeChar ',' = false from by decide]
    simp
  have key : ∀ G, lexStep strict (G + 1) .paramValue (v ++ ',' :: rest) pos =
      emitAdvanced ItemType.paramValue v ++
        lexStep strict G .paramValue rest (pos + byteLen v + 1) := by
    intro G
    simp only [lexStep]
    rw [ht, hd]
    simp only []
    rw [if_neg (by decide)]
    rw [if_neg (by decide)]
    rw [if_pos trivial]
  calc lexRun strict .paramValue (v ++ ',' :: rest) pos
      = lexStep strict (3 * (v ++ ',' :: rest).length + 2 + 1)
          .paramValue (v ++ ',' :: rest) pos := rfl
    _ = emitAdvanced ItemType.paramValue v ++
          lexStep strict (3 * (v ++ ',' :: rest).length + 2) .paramValue
            rest (pos + byteLen v + 1) := key _
    _ = emitAdvanced ItemType.paramValue v ++
          lexRun strict .paramValue rest (pos + byteLen v + 1) := by
        refine congrArg _ (lexStep_eq_lexRun _ _ _ _ _ ?_)
        simp only [lexWeight, List.length_append, List.length_cons]
        omega

theorem lexRun_value_crlf (strict : Bool) (rem : List Char) (pos : Nat)
    (h : (['\r', '\n']).isPrefixOf rem = true ∨
      (['\n']).isPrefixOf rem = true) :
    lexRun strict .value rem pos =
      ⟨ItemType.value, []⟩ :: lexRun strict .newLine rem pos := by
  have key : ∀ G, lexStep strict (G + 1) .value rem pos =
      ⟨ItemType.value, []⟩ :: lexStep strict G .newLine rem pos := by
    intro G
    simp only [lexStep]
    rw [if_pos h]
  calc lexRun strict .value rem pos
      = lexStep strict (3 * rem.length + 2 + 1) .value rem pos := rfl
    _ = ⟨ItemType.value, []⟩ ::
          lexStep strict (3 * rem.length + 2) .newLine rem pos := key _
    _ = ⟨ItemType.value, []⟩ :: lexRun strict .newLine rem pos := by
        refine congrArg _ (lexStep_eq_lexRun _ _ _ _ _ ?_)
        simp only [lexWeight]
        omega

theorem lexRun_value_run (strict : Bool) (v : List Char) (c : Char)
    (rest : List Char) (pos : Nat) (hv : v.all isValueChar = true)
    (hc : isValueChar c = false) (hne : v ≠ []) :
    lexRun strict .value (v ++ c :: rest) pos =
      ⟨ItemType.value, v⟩ ::
        lexRun strict .newLine (c :: rest) (pos + byteLen v) := by
  obtain ⟨v0, v', rfl⟩ : ∃ v0 v', v = v0 :: v' := by
    cases v with
    | nil => exact absurd rfl hne
    | cons a b => exact ⟨a, b, rfl⟩
  have hv0 : isValueChar v0 = true := by
    simp only [List.all_cons, Bool.and_eq_true] at hv
    exact hv.1
  have hr : v0 ≠ '\r' := by rintro rfl; exact absurd hv0 (by decide)
  have hn : v0 ≠ '\n' := by rintro rfl; exact absurd hv0 (by decide)
  have hp : ¬((['\r', '\n']).isPrefixOf ((v0 :: v') ++ c :: rest) = true ∨
      (['\n']).isPrefixOf ((v0 :: v') ++ c :: rest) = true) := by
    rintro (h | h) <;> simp only [List.cons_append, List.isPrefixOf] at h
    · rw [show ('\r' == v0) = false from by
        simpa using fun hh => hr hh.symm, Bool.false_and] at h
      exact Bool.noConfusion h
    · rw [show ('\n' == v0) = false from by
        simpa using fun hh => hn hh.symm, Bool.false_and] at h
      exact Bool.noConfusion h
  have ht : ((v0 :: v') ++ c :: rest).takeWhile isValueChar = v0 :: v' := by
    rw [takeWhile_all_append _ _ _ hv, List.takeWhile_cons, hc]
    simp
  have hd : ((v0 :: v') ++ c :: rest).dropWhile isValueChar = c :: rest := by
    rw [dropWhile_all_append _ _ _ hv, List.dropWhile_cons, hc]
    simp
  have key : ∀ G, lexStep strict (G + 1) .value ((v0 :: v') ++ c :: rest) pos =
      ⟨ItemType.value, v0 :: v'⟩ ::
        lexStep strict G .newLine (c :: rest) (pos + byteLen (v0 :: v')) := by
    intro G
    simp only [lexStep]
    rw [if_neg hp, ht, hd]
    simp only [emitAdvanced]
    rw [if_neg (by simp)]
    simp only [List.singleton_append]
  calc lexRun strict .value ((v0 :: v') ++ c :: rest) pos
      = lexStep strict (3 * ((v0 :: v') ++ c :: rest).length + 2 + 1)
          .value ((v0 :: v') ++ c :: rest) pos := rfl
    _ = ⟨ItemType.value, v0 :: v'⟩ ::
          lexStep strict (3 * ((v0 :: v') ++ c :: rest).length + 2) .newLine
            (c :: rest) (pos + byteLen (v0 :: v')) := key _
    _ = ⟨ItemType.value, v0 :: v'⟩ ::
          lexRun strict .newLine (c :: rest) (pos + byteLen (v0 :: v')) := by
        refine congrArg _ (lexStep_eq_lexRun _ _ _ _ _ ?_)
        simp only [lexWeight, List.length_append, List.length_cons]
        omega

theorem lexRun_value_eof (strict : Bool) (v : List Char) (pos : Nat)
    (hv : v.all isValueChar = true) :
    lexRun strict .value v pos = [⟨ItemType.value, v⟩] := by
  have hp : ¬((['\r', '\n']).isPrefixOf v = true ∨
      (['\n']).isPrefixOf v = true) := by
    cases v with
    | nil => rintro (h | h) <;> exact Bool.noConfusion h
    | cons v0 v' =>
      have hv0 : isValueChar v0 = true := by
        simp only [List.all_cons, Bool.and_eq_true] at hv
        exact hv.1
      have hr : v0 ≠ '\r' := by rintro rfl; exact absurd hv0 (by decide)
      have hn : v0 ≠ '\n' := by rintro rfl; exact absurd hv0 (by decide)
      rintro (h | h) <;> simp only [List.isPrefixOf] at h
      · rw [show ('\r' == v0) = false from by
          simpa using fun hh => hr hh.symm, Bool.false_and] at h
        exact Bool.noConfusion h
      · rw [show ('\n' == v0) = false from by
          simpa using fun hh => hn hh.symm, Bool.false_and] at h
        exact Bool.noConfusion h
  have ht : v.takeWhile isValueChar = v := by
    have h2 := takeWhile_all_append isValueChar v [] hv
    simpa using h2
  have hd : v.dropWhile isValueChar = [] := by
    have h2 := dropWhile_all_append isValueChar v [] hv
    simpa using h2
  have key : lexStep strict (3 * v.length + 2 + 1) .value v pos =
      [⟨ItemType.value, v⟩] := by
    simp only [lexStep]
    rw [if_neg hp, ht, hd]
  exact key

theorem lexRun_newLine_crlf (strict : Bool) (c : Char) (rest : List Char)
    (pos : Nat) :
    lexRun strict .newLine ('\r' :: '\n' :: c :: rest) pos =
      lexRun strict .contentLine (c :: rest) (pos + 2) := by
  have key : ∀ G, lexStep strict (G + 1) .newLine ('\r' :: '\n' :: c :: rest)
      pos = lexStep strict G .contentLine (c :: rest) (pos + 2) := by
    intro G
    simp only [lexStep]
    rw [if_pos trivial, if_pos trivial]
  calc lexRun strict .newLine ('\r' :: '\n' :: c :: rest) pos
      = lexStep strict (3 * ('\r' :: '\n' :: c :: rest).length + 2 + 1)
          .newLine ('\r' :: '\n' :: c :: rest) pos := rfl
    _ = lexStep strict (3 * ('\r' :: '\n' :: c :: rest).length + 2)
          .contentLine (c :: rest) (pos + 2) := key _
    _ = lexRun strict .contentLine (c :: rest) (pos + 2) := by
        refine lexStep_eq_lexRun _ _ _ _ _ ?_
        simp only [lexWeight, List.length_cons]
        omega

theorem lexRun_newLine_lf (c : Char) (rest : List Char) (pos : Nat) :
    lexRun false .newLine ('\n' :: c :: rest) pos =
      lexRun false .contentLine (c :: rest) (pos + 1) := by
  have key : ∀ G, lexStep false (G + 1) .newLine ('\n' :: c :: rest) pos =
      lexStep false G .contentLine (c :: rest) (pos + 1) := by
    intro G
    simp only [lexStep]
    rw [if_neg (by decide), if_neg (by simp), if_pos trivial]
  calc lexRun false .newLine ('\n' :: c :: rest) pos
      = lexStep false (3 * ('\n' :: c :: rest).length + 2 + 1)
          .newLine ('\n' :: c :: rest) pos := rfl
    _ = lexStep false (3 * ('\n' :: c :: rest).length + 2)
          .contentLine (c :: rest) (pos + 1) := key _
    _ = lexRun false .contentLine (c :: rest) (pos + 1) := by
        refine lexStep_eq_lexRun _ _ _ _ _ ?_
        simp only [lexWeight, List.length_cons]
        omega

theorem lexRun_newLine_lf_strict (rest : List Char) (pos : Nat) :
    lexRun true .newLine ('\n' :: rest) pos =
      [⟨ItemType.error,
        chars "missing carriage return (CR) at pos " ++
          natChars (pos + 1)⟩] := by
  have key : lexStep true (3 * ('\n' :: rest).length + 2 + 1) .newLine
      ('\n' :: rest) pos =
      [⟨ItemType.error,
        chars "missing carriage return (CR) at pos " ++ natChars (pos + 1)⟩] := by
    simp only [lexStep]
    rw [if_neg (by decide), if_pos (by decide)]
  exact key

theorem lexRun_newLine_nil (strict : Bool) (pos : Nat) :
    lexRun strict .newLine [] pos = [⟨ItemType.eof, []⟩] := rfl

theorem lexRun_newLine_crlf_eof (strict : Bool) (pos : Nat) :
    lexRun strict .newLine ['\r', '\n'] pos = [⟨ItemType.eof, []⟩] := rfl


/-! ## C7: empty property values -/

theorem unfold_plain_nil (l : List Char)
    (h : ∀ c ∈ l, ¬(c = '\r' ∨ c = '\n')) : unfold l = l := by
  have h2 := unfold_all_plain l [] h
  rw [show unfold ([] : List Char) = [] from rfl] at h2
  simpa using h2

/-- C7, counterexample: lexing a calendar whose property "X" has an empty
value does emit a Value token (with empty text), and the parser rejects a
property whose Name item is not followed by a Value item instead of
recording an empty string. -/
theorem C7_counterexample :
    (⟨ItemType.value, []⟩ ∈
      lexDocument false (chars "BEGIN:VCALENDAR\r\nX:\r\nEND:VCALENDAR")) ∧
    parseProperty [⟨ItemType.name, chars "X"⟩, ⟨ItemType.eof, []⟩] =
      .error unexpectedTypeErr := by
  constructor
  · decide
  · decide

/-- C7 (corrected): a property whose ':' is immediately followed by the line
end lexes without error, with a Value token whose text is empty; the parser
accepts the property and records the empty string as its value (from that
empty Value token, a mandatory item). -/
theorem C7_theorem (strict : Bool) (nm : List Char) (hne : nm ≠ [])
    (hnm : nm.all isNameChar = true) :
    lexDocument strict
        (chars "BEGIN:VCALENDAR\r\n" ++ nm ++ chars ":\r\nEND:VCALENDAR") =
      [⟨ItemType.calendarBegin, beginVCalendarChars⟩,
       ⟨ItemType.name, nm⟩,
       ⟨ItemType.value, []⟩,
       ⟨ItemType.calendarEnd, endVCalendarChars⟩,
       ⟨ItemType.eof, []⟩] ∧
    parseItems ⟨none, utcLoc, false⟩
        (lexDocument strict
          (chars "BEGIN:VCALENDAR\r\n" ++ nm ++ chars ":\r\nEND:VCALENDAR")) =
      .ok (deriveCalendarFields [⟨nm, [], []⟩]
        ⟨[⟨nm, [], []⟩], [], [], chars "GREGORIAN", [], [], []⟩) ∧
    (deriveCalendarFields [⟨nm, [], []⟩]
        ⟨[⟨nm, [], []⟩], [], [], chars "GREGORIAN", [], [], []⟩).properties =
      [⟨nm, [], []⟩] := by
  obtain ⟨n0, nm', rfl⟩ : ∃ n0 nm', nm = n0 :: nm' := by
    cases nm with
    | nil => exact absurd rfl hne
    | cons a b => exact ⟨a, b, rfl⟩
  have hn0 : isNameChar n0 = true := by
    simp only [List.all_cons, Bool.and_eq_true] at hnm
    exact hnm.1
  have hnm' : nm'.all isNameChar = true := by
    simp only [List.all_cons, Bool.and_eq_true] at hnm
    exact hnm.2
  have hdoc : chars "BEGIN:VCALENDAR\r\n" ++ (n0 :: nm') ++
      chars ":\r\nEND:VCALENDAR"
      = chars "BEGIN:VCALENDAR" ++ '\r' :: '\n' ::
        (n0 :: (nm' ++ ':' :: '\r' :: '\n' :: chars "END:VCALENDAR")) := by
    simp [chars]
  rw [hdoc]
  have hu : unfold (chars "BEGIN:VCALENDAR" ++ '\r' :: '\n' ::
      (n0 :: (nm' ++ ':' :: '\r' :: '\n' :: chars "END:VCALENDAR")))
      = chars "BEGIN:VCALENDAR" ++ '\r' :: '\n' ::
        (n0 :: (nm' ++ ':' :: '\r' :: '\n' :: chars "END:VCALENDAR")) := by
    rw [unfold_all_plain (chars "BEGIN:VCALENDAR") _ (by decide),
      unfold_crlf_nonspace n0 _ (goIsSpace_false_of_nameChar n0 hn0),
      unfold_all_plain nm' _
        (fun c hc => nameChar_not_break c (List.all_eq_true.mp hnm' c hc)),
      unfold_cons_plain ':' _ (by decide),
      show chars "END:VCALENDAR" = 'E' :: chars "ND:VCALENDAR" from rfl,
      unfold_crlf_nonspace 'E' _ (by decide),
      unfold_plain_nil (chars "ND:VCALENDAR") (by decide)]
  have hlex : lexRun strict .contentLine (chars "BEGIN:VCALENDAR" ++
      '\r' :: '\n' ::
      (n0 :: (nm' ++ ':' :: '\r' :: '\n' :: chars "END:VCALENDAR"))) 0 =
      [⟨ItemType.calendarBegin, beginVCalendarChars⟩,
       ⟨ItemType.name, n0 :: nm'⟩,
       ⟨ItemType.value, []⟩,
       ⟨ItemType.calendarEnd, endVCalendarChars⟩,
       ⟨ItemType.eof, []⟩] := by
    rw [show chars "BEGIN:VCALENDAR" = beginVCalendarChars from rfl,
      lexRun_marker_beginCal, lexRun_newLine_crlf,
      show n0 :: (nm' ++ ':' :: '\r' :: '\n' :: chars "END:VCALENDAR")
        = (n0 :: nm') ++ ':' :: '\r' :: '\n' :: chars "END:VCALENDAR" from
        rfl,
      lexRun_contentLine_name strict (n0 :: nm') ':' _ _ hnm (by decide)
        (fun _ => by simp),
      lexRun_name_colon strict (n0 :: nm') _ _ hnm,
      show emitAdvanced ItemType.name (n0 :: nm')
        = [⟨ItemType.name, n0 :: nm'⟩] from by simp [emitAdvanced],
      lexRun_value_crlf _ _ _ (Or.inl (by simp [List.isPrefixOf])),
      show chars "END:VCALENDAR" = 'E' :: chars "ND:VCALENDAR" from rfl,
      lexRun_newLine_crlf,
      show 'E' :: chars "ND:VCALENDAR" = endVCalendarChars ++ [] from by
        simp
        rfl,
      lexRun_marker_endCal, lexRun_newLine_nil]
    rfl
  refine ⟨?_, ?_, ?_⟩
  · rw [lexDocument_eq_lexRun, hu, hlex]
  · rw [lexDocument_eq_lexRun, hu, hlex]
    simp only [parseItems, parseCalendar, parseCalendarBody, parseProperty,
      List.length_cons, List.length_nil]
    rfl
  · simp only [deriveCalendarFields, List.foldl]
    split_ifs <;> rfl

/-- C7, witness: the property X with an empty value in a minimal calendar,
lexed non-strictly. -/
theorem C7_witness :
    ((chars "X" : List Char) ≠ [] ∧ (chars "X").all isNameChar = true) ∧
    (lexDocument false
        (chars "BEGIN:VCALENDAR\r\n" ++ chars "X" ++
          chars ":\r\nEND:VCALENDAR") =
      [⟨ItemType.calendarBegin, beginVCalendarChars⟩,
       ⟨ItemType.name, chars "X"⟩,
       ⟨ItemType.value, []⟩,
       ⟨ItemType.calendarEnd, endVCalendarChars⟩,
       ⟨ItemType.eof, []⟩] ∧
    parseItems ⟨none, utcLoc, false⟩
        (lexDocument false
          (chars "BEGIN:VCALENDAR\r\n" ++ chars "X" ++
            chars ":\r\nEND:VCALENDAR")) =
      .ok (deriveCalendarFields [⟨chars "X", [], []⟩]
        ⟨[⟨chars "X", [], []⟩], [], [], chars "GREGORIAN", [], [], []⟩) ∧
    (deriveCalendarFields [⟨chars "X", [], []⟩]
        ⟨[⟨chars "X", [], []⟩], [], [], chars "GREGORIAN", [], [], []⟩).properties =
      [⟨chars "X", [], []⟩]) :=
  ⟨⟨by decide, by decide⟩,
    C7_theorem false (chars "X") (by decide) (by decide)⟩

/-! ## More line helpers -/

theorem expose_head (m : List Char) (c : Char) (s : String) (X : List Char)
    (hm : m = c :: chars s) : m ++ X = c :: (chars s ++ X) := by
  subst hm
  rfl

/-- One folded-free content line followed by a CRLF break before a non-space
rune passes through readRune unchanged. -/
theorem unfold_line (l : List Char) (c : Char) (rest : List Char)
    (hl : ∀ x ∈ l, ¬(x = '\r' ∨ x = '\n')) (hc : goIsSpace c = false) :
    unfold (l ++ '\r' :: '\n' :: c :: rest) =
      l ++ '\r' :: '\n' :: unfold (c :: rest) := by
  have hcr : c ≠ '\r' := by rintro rfl; exact absurd hc (by decide)
  have hlf : c ≠ '\n' := by rintro rfl; exact absurd hc (by decide)
  rw [unfold_all_plain l _ hl, unfold_crlf_nonspace c rest hc,
    unfold_cons_plain c rest (by tauto)]

theorem marker_not_prefix_of_ne :
    ∀ (w nm v : List Char) (c : Char) (rest : List Char),
      w.all isNameChar = true → nm.all isNameChar = true → v ≠ [] →
      isNameChar c = false → w ≠ nm →
      (w ++ ':' :: v).isPrefixOf (nm ++ c :: rest) = false
  | [], [], _, _, _, _, _, _, _, hne => absurd rfl hne
  | [], n0 :: nm', v, c, rest, _, hnm, _, _, _ => by
    have hn0 : isNameChar n0 = true := by
      simp only [List.all_cons, Bool.and_eq_true] at hnm
      exact hnm.1
    have hne0 : ':' ≠ n0 := by
      intro h
      rw [← h] at hn0
      exact absurd hn0 (by decide)
    simp only [List.nil_append, List.cons_append, List.isPrefixOf]
    rw [show (':' == n0) = false from by simpa using hne0, Bool.false_and]
  | w0 :: w', [], v, c, rest, hw, _, _, hc, _ => by
    have hw0 : isNameChar w0 = true := by
      simp only [List.all_cons, Bool.and_eq_true] at hw
      exact hw.1
    have hne0 : w0 ≠ c := by
      intro h
      rw [h] at hw0
      rw [hw0] at hc
      exact absurd hc (by simp)
    simp only [List.nil_append, List.cons_append, List.isPrefixOf]
    rw [show (w0 == c) = false from by simpa using hne0, Bool.false_and]
  | w0 :: w', n0 :: nm', v, c, rest, hw, hnm, hv, hc, hne => by
    simp only [List.all_cons, Bool.and_eq_true] at hw hnm
    by_cases h : w0 = n0
    · subst h
      have hne' : w' ≠ nm' := by
        intro hh
        exact hne (by rw [hh])
      simp only [List.cons_append, List.isPrefixOf, List.append_eq,
        marker_not_prefix_of_ne w' nm' v c rest hw.2 hnm.2 hv hc hne',
        Bool.and_false]
    · simp only [List.cons_append, List.isPrefixOf]
      rw [show (w0 == n0) = false from by simpa using h, Bool.false_and]

/-- contentLine falls through to the name state for any line whose name run
is neither BEGIN nor END. -/
theorem lexRun_contentLine_name2 (strict : Bool) (nm : List Char) (c : Char)
    (rest : List Char) (pos : Nat) (hnm : nm.all isNameChar = true)
    (hc : isNameChar c = false) (hb : nm ≠ chars "BEGIN")
    (he : nm ≠ chars "END") :
    lexRun strict .contentLine (nm ++ c :: rest) pos =
      lexRun strict .name (nm ++ c :: rest) pos := by
  have hb' : chars "BEGIN" ≠ nm := fun h => hb h.symm
  have he' : chars "END" ≠ nm := fun h => he h.symm
  have hb1 : beginVCalendarChars.isPrefixOf (nm ++ c :: rest) = false := by
    rw [show beginVCalendarChars
        = chars "BEGIN" ++ ':' :: chars "VCALENDAR" from rfl]
    exact marker_not_prefix_of_ne _ _ _ _ _ (by decide) hnm (by decide) hc hb'
  have hb2 : endVCalendarChars.isPrefixOf (nm ++ c :: rest) = false := by
    rw [show endVCalendarChars
        = chars "END" ++ ':' :: chars "VCALENDAR" from rfl]
    exact marker_not_prefix_of_ne _ _ _ _ _ (by decide) hnm (by decide) hc he'
  have hb3 : beginVEventChars.isPrefixOf (nm ++ c :: rest) = false := by
    rw [show beginVEventChars = chars "BEGIN" ++ ':' :: chars "VEVENT" from rfl]
    exact marker_not_prefix_of_ne _ _ _ _ _ (by decide) hnm (by decide) hc hb'
  have hb4 : endVEventChars.isPrefixOf (nm ++ c :: rest) = false := by
    rw [show endVEventChars = chars "END" ++ ':' :: chars "VEVENT" from rfl]
    exact marker_not_prefix_of_ne _ _ _ _ _ (by decide) hnm (by decide) hc he'
  have hb5 : beginVAlarmChars.isPrefixOf (nm ++ c :: rest) = false := by
    rw [show beginVAlarmChars = chars "BEGIN" ++ ':' :: chars "VALARM" from rfl]
    exact marker_not_prefix_of_ne _ _ _ _ _ (by decide) hnm (by decide) hc hb'
  have hb6 : endVAlarmChars.isPrefixOf (nm ++ c :: rest) = false := by
    rw [show endVAlarmChars = chars "END" ++ ':' :: chars "VALARM" from rfl]
    exact marker_not_prefix_of_ne _ _ _ _ _ (by decide) hnm (by decide) hc he'
  have key : ∀ G, lexStep strict (G + 1) .contentLine (nm ++ c :: rest) pos =
      lexStep strict G .name (nm ++ c :: rest) pos := by
    intro G
    simp only [lexStep]
    rw [if_neg (ne_true_of_eq_false hb1), if_neg (ne_true_of_eq_false hb2),
      if_neg (ne_true_of_eq_false hb3), if_neg (ne_true_of_eq_false hb4),
      if_neg (ne_true_of_eq_false hb5), if_neg (ne_true_of_eq_false hb6)]
  calc lexRun strict .contentLine (nm ++ c :: rest) pos
      = lexStep strict (3 * (nm ++ c :: rest).length + 2 + 1)
          .contentLine (nm ++ c :: rest) pos := rfl
    _ = lexStep strict (3 * (nm ++ c :: rest).length + 2)
          .name (nm ++ c :: rest) pos := key _
    _ = lexRun strict .name (nm ++ c :: rest) pos := by
        refine lexStep_eq_lexRun _ _ _ _ _ ?_
        simp only [lexWeight]
        omega

/-! ## C9: top-level alarms -/

/-- Modelled from the spec: the body loop of parser.parseCalendar with the
top-level alarm branch (a BEGIN:VALARM directly inside VCALENDAR parses with
parseAlarm and attaches to the calendar's alarm list).  The parser source in
the repository snapshot lacks this branch, but TestParse_alarm
(parse/alarm_test.go) exercises it; the branch mirrors the alarm branch of
parseEvent. -/
def parseCalendarBodyA (cfg : ParserConfig) (fuel : Nat) (items : List Item)
    (props : List Property) (events : List Event) (alarms : List Alarm) :
    Except (List Char) (List Property × List Event × List Alarm × List Item) :=
  match fuel with
  | 0 => .error (chars "out of fuel")
  | fuel + 1 =>
    match items with
    | [] => .error endOfItemsErr
    | i :: rest =>
      if i.type = ItemType.calendarEnd then .ok (props, events, alarms, rest)
      else if i.type = ItemType.eventBegin then
        match parseEvent cfg (i :: rest) with
        | .error e => .error e
        | .ok (evt, rest2) =>
          parseCalendarBodyA cfg fuel rest2 props (events ++ [evt]) alarms
      else if i.type = ItemType.alarmBegin then
        match parseAlarm (i :: rest) with
        | .error e => .error e
        | .ok (alarm, rest2) =>
          parseCalendarBodyA cfg fuel rest2 props events (alarms ++ [alarm])
      else if i.type = ItemType.name then
        match parseProperty (i :: rest) with
        | .error e => .error e
        | .ok (p, rest2) =>
          parseCalendarBodyA cfg fuel rest2 (props ++ [p]) events alarms
      else .error unexpectedTypeErr

/-- Modelled from the spec: parser.parseCalendar over parseCalendarBodyA;
parsed top-level alarms land in Calendar.Alarms. -/
def parseCalendarA (cfg : ParserConfig) (items : List Item) :
    Except (List Char) Calendar :=
  match items with
  | [] => .error endOfItemsErr
  | i :: rest =>
    if i.type ≠ ItemType.calendarBegin then .error unexpectedTypeErr
    else
      match parseCalendarBodyA cfg (rest.length + 1) rest [] [] [] with
      | .error e => .error e
      | .ok (props, events, alarms, _) =>
        .ok (deriveCalendarFields props
          ⟨props, [], [], chars "GREGORIAN", [], events, alarms⟩)

/-- C9: a well-formed document with a BEGIN:VALARM block directly inside the
calendar parses successfully, and the alarm — its raw properties together
with the ACTION and TRIGGER fields derived from them — is attached to the
returned calendar's alarm sequence. -/
theorem C9_theorem (strict : Bool) (va vt : List Char)
    (hva : va.all isValueChar = true) (hvt : vt.all isValueChar = true)
    (hnea : va ≠ []) (hnet : vt ≠ []) :
    parseCalendarA ⟨none, utcLoc, false⟩
      (lexDocument strict
        (chars "BEGIN:VCALENDAR\r\nBEGIN:VALARM\r\nACTION:" ++ va ++
         chars "\r\nTRIGGER:" ++ vt ++
         chars "\r\nEND:VALARM\r\nEND:VCALENDAR")) =
      .ok ⟨[], [], [], chars "GREGORIAN", [], [],
        [⟨[⟨chars "ACTION", [], va⟩, ⟨chars "TRIGGER", [], vt⟩],
          va, vt⟩]⟩ := by
  have hva' : ∀ c ∈ va, ¬(c = '\r' ∨ c = '\n') :=
    fun c hc => valueChar_not_break c (List.all_eq_true.mp hva c hc)
  have hvt' : ∀ c ∈ vt, ¬(c = '\r' ∨ c = '\n') :=
    fun c hc => valueChar_not_break c (List.all_eq_true.mp hvt c hc)
  have hdoc : chars "BEGIN:VCALENDAR\r\nBEGIN:VALARM\r\nACTION:" ++ va ++
      chars "\r\nTRIGGER:" ++ vt ++ chars "\r\nEND:VALARM\r\nEND:VCALENDAR"
      = beginVCalendarChars ++ '\r' :: '\n' ::
        (beginVAlarmChars ++ '\r' :: '\n' ::
          (chars "ACTION" ++ ':' ::
            (va ++ '\r' :: '\n' ::
              (chars "TRIGGER" ++ ':' ::
                (vt ++ '\r' :: '\n' ::
                  (endVAlarmChars ++ '\r' :: '\n' ::
                    (endVCalendarChars ++ []))))))) := by
    simp only [List.append_assoc]
    rfl
  rw [hdoc]
  have hu : unfold (beginVCalendarChars ++ '\r' :: '\n' ::
      (beginVAlarmChars ++ '\r' :: '\n' ::
        (chars "ACTION" ++ ':' ::
          (va ++ '\r' :: '\n' ::
            (chars "TRIGGER" ++ ':' ::
              (vt ++ '\r' :: '\n' ::
                (endVAlarmChars ++ '\r' :: '\n' ::
                  (endVCalendarChars ++ []))))))))
      = beginVCalendarChars ++ '\r' :: '\n' ::
        (beginVAlarmChars ++ '\r' :: '\n' ::
          (chars "ACTION" ++ ':' ::
            (va ++ '\r' :: '\n' ::
              (chars "TRIGGER" ++ ':' ::
                (vt ++ '\r' :: '\n' ::
                  (endVAlarmChars ++ '\r' :: '\n' ::
                    (endVCalendarChars ++ []))))))) := by
    rw [expose_head beginVAlarmChars 'B' "EGIN:VALARM" _ rfl,
      unfold_line beginVCalendarChars 'B' _ (by decide) (by decide),
      ← expose_head beginVAlarmChars 'B' "EGIN:VALARM" _ rfl,
      expose_head (chars "ACTION") 'A' "CTION" _ rfl,
      unfold_line beginVAlarmChars 'A' _ (by decide) (by decide),
      ← expose_head (chars "ACTION") 'A' "CTION" _ rfl,
      unfold_all_plain (chars "ACTION") _ (by decide),
      unfold_cons_plain ':' _ (by decide),
      expose_head (chars "TRIGGER") 'T' "RIGGER" _ rfl,
      unfold_line va 'T' _ hva' (by decide),
      ← expose_head (chars "TRIGGER") 'T' "RIGGER" _ rfl,
      unfold_all_plain (chars "TRIGGER") _ (by decide),
      unfold_cons_plain ':' _ (by decide),
      expose_head endVAlarmChars 'E' "ND:VALARM" _ rfl,
      unfold_line vt 'E' _ hvt' (by decide),
      ← expose_head endVAlarmChars 'E' "ND:VALARM" _ rfl,
      expose_head endVCalendarChars 'E' "ND:VCALENDAR" _ rfl,
      unfold_line endVAlarmChars 'E' _ (by decide) (by decide),
      ← expose_head endVCalendarChars 'E' "ND:VCALENDAR" _ rfl,
      List.append_nil, unfold_plain_nil endVCalendarChars (by decide)]
  have hlex : lexRun strict .contentLine (beginVCalendarChars ++
      '\r' :: '\n' ::
      (beginVAlarmChars ++ '\r' :: '\n' ::
        (chars "ACTION" ++ ':' ::
          (va ++ '\r' :: '\n' ::
            (chars "TRIGGER" ++ ':' ::
              (vt ++ '\r' :: '\n' ::
                (endVAlarmChars ++ '\r' :: '\n' ::
                  (endVCalendarChars ++ [])))))))) 0 =
      [⟨ItemType.calendarBegin, beginVCalendarChars⟩,
       ⟨ItemType.alarmBegin, beginVAlarmChars⟩,
       ⟨ItemType.name, chars "ACTION"⟩,
       ⟨ItemType.value, va⟩,
       ⟨ItemType.name, chars "TRIGGER"⟩,
       ⟨ItemType.value, vt⟩,
       ⟨ItemType.alarmEnd, endVAlarmChars⟩,
       ⟨ItemType.calendarEnd, endVCalendarChars⟩,
       ⟨ItemType.eof, []⟩] := by
    rw [lexRun_marker_beginCal,
      expose_head beginVAlarmChars 'B' "EGIN:VALARM" _ rfl,
      lexRun_newLine_crlf,
      ← expose_head beginVAlarmChars 'B' "EGIN:VALARM" _ rfl,
      lexRun_marker_beginAlarm,
      expose_head (chars "ACTION") 'A' "CTION" _ rfl,
      lexRun_newLine_crlf,
      ← expose_head (chars "ACTION") 'A' "CTION" _ rfl,
      lexRun_contentLine_name2 strict (chars "ACTION") ':' _ _ (by decide)
        (by decide) (by decide) (by decide),
      lexRun_name_colon strict (chars "ACTION") _ _ (by decide),
      show emitAdvanced ItemType.name (chars "ACTION")
        = [⟨ItemType.name, chars "ACTION"⟩] from by decide,
      lexRun_value_run strict va '\r' _ _ hva (by decide) hnea,
      expose_head (chars "TRIGGER") 'T' "RIGGER" _ rfl,
      lexRun_newLine_crlf,
      ← expose_head (chars "TRIGGER") 'T' "RIGGER" _ rfl,
      lexRun_contentLine_name2 strict (chars "TRIGGER") ':' _ _ (by decide)
        (by decide) (by decide) (by decide),
      lexRun_name_colon strict (chars "TRIGGER") _ _ (by decide),
      show emitAdvanced ItemType.name (chars "TRIGGER")
        = [⟨ItemType.name, chars "TRIGGER"⟩] from by decide,
      lexRun_value_run strict vt '\r' _ _ hvt (by decide) hnet,
      expose_head endVAlarmChars 'E' "ND:VALARM" _ rfl,
      lexRun_newLine_crlf,
      ← expose_head endVAlarmChars 'E' "ND:VALARM" _ rfl,
      lexRun_marker_endAlarm,
      expose_head endVCalendarChars 'E' "ND:VCALENDAR" _ rfl,
      lexRun_newLine_crlf,
      ← expose_head endVCalendarChars 'E' "ND:VCALENDAR" _ rfl,
      lexRun_marker_endCal, lexRun_newLine_nil]
    rfl
  rw [lexDocument_eq_lexRun, hu, hlex]
  rfl

/-- C9, witness: the TestParse_alarm document, ACTION foo and TRIGGER bar. -/
theorem C9_witness :
    ((chars "foo").all isValueChar = true ∧
      (chars "bar").all isValueChar = true ∧
      (chars "foo" : List Char) ≠ [] ∧ (chars "bar" : List Char) ≠ []) ∧
    parseCalendarA ⟨none, utcLoc, false⟩
      (lexDocument false
        (chars "BEGIN:VCALENDAR\r\nBEGIN:VALARM\r\nACTION:" ++ chars "foo" ++
         chars "\r\nTRIGGER:" ++ chars "bar" ++
         chars "\r\nEND:VALARM\r\nEND:VCALENDAR")) =
      .ok ⟨[], [], [], chars "GREGORIAN", [], [],
        [⟨[⟨chars "ACTION", [], chars "foo"⟩,
           ⟨chars "TRIGGER", [], chars "bar"⟩],
          chars "foo", chars "bar"⟩]⟩ :=
  ⟨⟨by decide, by decide, by decide, by decide⟩,
    C9_theorem false (chars "foo") (chars "bar") (by decide) (by decide)
      (by decide) (by decide)⟩

/-! ## Position irrelevance for error-free runs

Only error items embed the lexer position; a run that produces no error
item yields the same token stream from any starting position. -/

theorem lexStep_pos_irrel (strict : Bool) :
    ∀ fuel (st : LexState) (rem : List Char) (pos pos' : Nat),
      (∀ i ∈ lexStep strict fuel st rem pos, i.type ≠ ItemType.error) →
      lexStep strict fuel st rem pos = lexStep strict fuel st rem pos' := by
  intro fuel
  induction fuel with
  | zero => intro st rem pos pos' _; rfl
  | succ fuel ih =>
    intro st rem pos pos' h
    cases st with
    | contentLine =>
      simp only [lexStep] at h ⊢
      split_ifs at h ⊢ with h1 h2 h3 h4 h5 h6
      · exact congrArg _ (ih .newLine _ _ _
          (fun i hi => h i (List.mem_cons_of_mem _ hi)))
      · exact congrArg _ (ih .newLine _ _ _
          (fun i hi => h i (List.mem_cons_of_mem _ hi)))
      · exact congrArg _ (ih .newLine _ _ _
          (fun i hi => h i (List.mem_cons_of_mem _ hi)))
      · exact congrArg _ (ih .newLine _ _ _
          (fun i hi => h i (List.mem_cons_of_mem _ hi)))
      · exact congrArg _ (ih .newLine _ _ _
          (fun i hi => h i (List.mem_cons_of_mem _ hi)))
      · exact congrArg _ (ih .newLine _ _ _
          (fun i hi => h i (List.mem_cons_of_mem _ hi)))
      · exact ih .name _ _ _ h
    | newLine =>
      simp only [lexStep] at h ⊢
      cases rem with
      | nil => rfl
      | cons c rest =>
        simp only [] at h ⊢
        by_cases hc : c = '\r'
        · simp only [if_pos hc] at h ⊢
          cases rest with
          | nil => exact absurd rfl (h _ (List.mem_singleton_self _))
          | cons c2 rest2 =>
            simp only [] at h ⊢
            by_cases h2 : c2 = '\n'
            · simp only [if_pos h2] at h ⊢
              cases rest2 with
              | nil => rfl
              | cons c3 rest3 =>
                simp only [] at h ⊢
                exact ih .contentLine _ _ _ h
            · simp only [if_neg h2] at h ⊢
              exact absurd rfl (h _ (List.mem_singleton_self _))
        · simp only [if_neg hc] at h ⊢
          by_cases hcond : (decide (c = '\n') && strict) = true
          · simp only [if_pos hcond] at h ⊢
            exact absurd rfl (h _ (List.mem_singleton_self _))
          · simp only [if_neg hcond] at h ⊢
            by_cases hlf : c = '\n'
            · simp only [if_pos hlf] at h ⊢
              cases rest with
              | nil => rfl
              | cons c2 rest2 =>
                simp only [] at h ⊢
                exact ih .contentLine _ _ _ h
            · simp only [if_neg hlf] at h ⊢
              exact absurd rfl (h _ (List.mem_singleton_self _))
    | name =>
      simp only [lexStep] at h ⊢
      cases hdw : rem.dropWhile isNameChar with
      | nil =>
        rw [hdw] at h
        simp only [] at h
        exact absurd rfl (h _ (List.mem_singleton_self _))
      | cons c rest =>
        rw [hdw] at h
        simp only [] at h ⊢
        by_cases hcol : c = ':'
        · simp only [if_pos hcol] at h ⊢
          exact congrArg _ (ih .value _ _ _
            (fun i hi => h i (List.mem_append_right _ hi)))
        · simp only [if_neg hcol] at h ⊢
          by_cases hsem : c = ';'
          · simp only [if_pos hsem] at h ⊢
            exact congrArg _ (ih .paramName _ _ _
              (fun i hi => h i (List.mem_append_right _ hi)))
          · simp only [if_neg hsem] at h ⊢
            exact absurd rfl (h _
              (List.mem_append_right _ (List.mem_singleton_self _)))
    | value =>
      simp only [lexStep] at h ⊢
      by_cases hpre : (['\r', '\n']).isPrefixOf rem = true ∨
          (['\n']).isPrefixOf rem = true
      · simp only [if_pos hpre] at h ⊢
        exact congrArg _ (ih .newLine _ _ _
          (fun i hi => h i (List.mem_cons_of_mem _ hi)))
      · simp only [if_neg hpre] at h ⊢
        cases hdw : rem.dropWhile isValueChar with
        | nil => rfl
        | cons c rest =>
          rw [hdw] at h
          simp only [] at h ⊢
          exact congrArg _ (ih .newLine _ _ _
            (fun i hi => h i (List.mem_append_right _ hi)))
    | paramName =>
      simp only [lexStep] at h ⊢
      cases hdw : rem.dropWhile isNameChar with
      | nil =>
        rw [hdw] at h
        simp only [] at h
        exact absurd rfl (h _ (List.mem_singleton_self _))
      | cons c rest =>
        rw [hdw] at h
        simp only [] at h ⊢
        by_cases heq : c = '='
        · simp only [if_pos heq] at h ⊢
          exact congrArg _ (ih .paramValue _ _ _
            (fun i hi => h i (List.mem_append_right _ hi)))
        · simp only [if_neg heq] at h ⊢
          by_cases hcol : c = ':'
          · simp only [if_pos hcol] at h ⊢
            exact congrArg _ (ih .value _ _ _
              (fun i hi => h i (List.mem_append_right _ hi)))
          · simp only [if_neg hcol] at h ⊢
            exact absurd rfl (h _
              (List.mem_append_right _ (List.mem_singleton_self _)))
    | paramValue =>
      simp only [lexStep] at h ⊢
      cases hdw : rem.dropWhile isSafeChar with
      | nil =>
        rw [hdw] at h
        simp only [] at h
        exact absurd rfl (h _
          (List.mem_append_right _ (List.mem_singleton_self _)))
      | cons c rest =>
        rw [hdw] at h
        simp only [] at h ⊢
        by_cases hcol : c = ':'
        · simp only [if_pos hcol] at h ⊢
          exact congrArg _ (ih .value _ _ _
            (fun i hi => h i (List.mem_append_right _ hi)))
        · simp only [if_neg hcol] at h ⊢
          by_cases hsem : c = ';'
          · simp only [if_pos hsem] at h ⊢
            exact congrArg _ (ih .paramName _ _ _
              (fun i hi => h i (List.mem_append_right _ hi)))
          · simp only [if_neg hsem] at h ⊢
            by_cases hcom : c = ','
            · simp only [if_pos hcom] at h ⊢
              exact congrArg _ (ih .paramValue _ _ _
                (fun i hi => h i (List.mem_append_right _ hi)))
            · simp only [if_neg hcom] at h ⊢
              exact absurd rfl (h _
                (List.mem_append_right _ (List.mem_singleton_self _)))

theorem lexRun_pos_irrel (strict : Bool) (st : LexState) (rem : List Char)
    (pos pos' : Nat)
    (h : ∀ i ∈ lexRun strict st rem pos, i.type ≠ ItemType.error) :
    lexRun strict st rem pos = lexRun strict st rem pos' :=
  lexStep_pos_irrel strict _ st rem pos pos' h

/-! ## C6: bare LF handling -/

/-- C6, counterexample: "X:a\n b" contains a bare LF, yet strict lexing
yields no Error item — readRune folds the LF + space pair away before the
strict check; and with the flag disabled, "X:\n@" and its CRLF-terminated
equivalent "X:\r\n@" lex to different token sequences, because error
messages embed absolute byte positions which the extra CR shifts. -/
theorem C6_counterexample :
    (∀ i ∈ lexDocument true (chars "X:a\n b"), i.type ≠ ItemType.error) ∧
    lexDocument false (chars "X:\n@") ≠
      lexDocument false (chars "X:\r\n@") := by
  constructor
  · decide
  · decide

/-- C6 (corrected): for a content line NAME:VALUE ended by a bare LF whose
following rune is not white space (else readRune folds the break away),
strict mode emits an Error token naming the exact offset where the CR is
missing, and lexing stops there; with the flag disabled the token sequence
equals that of the CRLF-terminated equivalent whenever the CRLF-terminated
document lexes without any error item. -/
theorem C6_theorem (nm v : List Char) (c : Char) (rest : List Char)
    (hnm : nm.all isNameChar = true) (hnme : nm ≠ [])
    (hb : nm ≠ chars "BEGIN") (he : nm ≠ chars "END")
    (hv : v.all isValueChar = true) (hvne : v ≠ [])
    (hc : goIsSpace c = false) :
    lexDocument true (nm ++ ':' :: (v ++ '\n' :: c :: rest)) =
      [⟨ItemType.name, nm⟩, ⟨ItemType.value, v⟩,
       ⟨ItemType.error,
         chars "missing carriage return (CR) at pos " ++
           natChars (byteLen nm + 1 + byteLen v + 1)⟩] ∧
    ((∀ i ∈ lexDocument false (nm ++ ':' :: (v ++ '\r' :: '\n' :: c :: rest)),
        i.type ≠ ItemType.error) →
      lexDocument false (nm ++ ':' :: (v ++ '\n' :: c :: rest)) =
        lexDocument false (nm ++ ':' :: (v ++ '\r' :: '\n' :: c :: rest))) := by
  have hnmp : ∀ x ∈ nm, ¬(x = '\r' ∨ x = '\n') :=
    fun x hx => nameChar_not_break x (List.all_eq_true.mp hnm x hx)
  have hvp : ∀ x ∈ v, ¬(x = '\r' ∨ x = '\n') :=
    fun x hx => valueChar_not_break x (List.all_eq_true.mp hv x hx)
  have hu1 : unfold (nm ++ ':' :: (v ++ '\n' :: c :: rest)) =
      nm ++ ':' :: (v ++ '\n' :: c :: unfold rest) := by
    rw [unfold_all_plain nm _ hnmp, unfold_cons_plain ':' _ (by decide),
      unfold_all_plain v _ hvp, unfold_lf_of_nonspace c _ hc]
  have hu2 : unfold (nm ++ ':' :: (v ++ '\r' :: '\n' :: c :: rest)) =
      nm ++ ':' :: (v ++ '\r' :: '\n' :: c :: unfold rest) := by
    rw [unfold_all_plain nm _ hnmp, unfold_cons_plain ':' _ (by decide),
      unfold_all_plain v _ hvp, unfold_crlf_nonspace c _ hc]
  have hemit : emitAdvanced ItemType.name nm = [⟨ItemType.name, nm⟩] := by
    simp [emitAdvanced, hnme]
  constructor
  · rw [lexDocument_eq_lexRun, hu1,
      lexRun_contentLine_name2 true nm ':' _ _ hnm (by decide) hb he,
      lexRun_name_colon true nm _ _ hnm, hemit,
      lexRun_value_run true v '\n' _ _ hv (by decide) hvne,
      lexRun_newLine_lf_strict]
    simp only [Nat.zero_add]
    rfl
  · intro hno
    have hB : lexDocument false (nm ++ ':' :: (v ++ '\r' :: '\n' :: c :: rest))
        = [⟨ItemType.name, nm⟩] ++ ⟨ItemType.value, v⟩ ::
            lexRun false .contentLine (c :: unfold rest)
              (0 + byteLen nm + 1 + byteLen v + 2) := by
      rw [lexDocument_eq_lexRun, hu2,
        lexRun_contentLine_name2 false nm ':' _ _ hnm (by decide) hb he,
        lexRun_name_colon false nm _ _ hnm, hemit,
        lexRun_value_run false v '\r' _ _ hv (by decide) hvne,
        lexRun_newLine_crlf]
    have hA : lexDocument false (nm ++ ':' :: (v ++ '\n' :: c :: rest))
        = [⟨ItemType.name, nm⟩] ++ ⟨ItemType.value, v⟩ ::
            lexRun false .contentLine (c :: unfold rest)
              (0 + byteLen nm + 1 + byteLen v + 1) := by
      rw [lexDocument_eq_lexRun, hu1,
        lexRun_contentLine_name2 false nm ':' _ _ hnm (by decide) hb he,
        lexRun_name_colon false nm _ _ hnm, hemit,
        lexRun_value_run false v '\n' _ _ hv (by decide) hvne,
        lexRun_newLine_lf]
    rw [hB] at hno
    have hno' : ∀ i ∈ lexRun false .contentLine (c :: unfold rest)
        (0 + byteLen nm + 1 + byteLen v + 2), i.type ≠ ItemType.error :=
      fun i hi => hno i
        (List.mem_append_right _ (List.mem_cons_of_mem _ hi))
    rw [hA, hB]
    exact congrArg _ (congrArg _
      (lexRun_pos_irrel false .contentLine (c :: unfold rest) _ _ hno').symm)

/-- C6, witness: the line X:a with a bare LF before END:VCALENDAR; the
CRLF remainder lexes without error, so both clauses apply. -/
theorem C6_witness :
    ((chars "X").all isNameChar = true ∧ (chars "X" : List Char) ≠ [] ∧
      (chars "X" : List Char) ≠ chars "BEGIN" ∧
      (chars "X" : List Char) ≠ chars "END" ∧
      (chars "a").all isValueChar = true ∧ (chars "a" : List Char) ≠ [] ∧
      goIsSpace 'E' = false) ∧
    (lexDocument true (chars "X" ++ ':' :: (chars "a" ++ '\n' :: 'E' ::
        chars "ND:VCALENDAR")) =
      [⟨ItemType.name, chars "X"⟩, ⟨ItemType.value, chars "a"⟩,
       ⟨ItemType.error,
         chars "missing carriage return (CR) at pos " ++
           natChars (byteLen (chars "X") + 1 + byteLen (chars "a") + 1)⟩] ∧
      ((∀ i ∈ lexDocument false (chars "X" ++ ':' :: (chars "a" ++
            '\r' :: '\n' :: 'E' :: chars "ND:VCALENDAR")),
          i.type ≠ ItemType.error) →
        lexDocument false (chars "X" ++ ':' :: (chars "a" ++ '\n' :: 'E' ::
            chars "ND:VCALENDAR")) =
          lexDocument false (chars "X" ++ ':' :: (chars "a" ++
            '\r' :: '\n' :: 'E' :: chars "ND:VCALENDAR")))) ∧
    lexDocument false (chars "X" ++ ':' :: (chars "a" ++ '\n' :: 'E' ::
        chars "ND:VCALENDAR")) =
      lexDocument false (chars "X" ++ ':' :: (chars "a" ++
        '\r' :: '\n' :: 'E' :: chars "ND:VCALENDAR")) :=
  ⟨⟨by decide, by decide, by decide, by decide, by decide, by decide,
      by decide⟩,
    C6_theorem (chars "X") (chars "a") 'E' (chars "ND:VCALENDAR")
      (by decide) (by decide) (by decide) (by decide) (by decide) (by decide)
      (by decide),
    (C6_theorem (chars "X") (chars "a") 'E' (chars "ND:VCALENDAR")
      (by decide) (by decide) (by decide) (by decide) (by decide) (by decide)
      (by decide)).2 (by decide)⟩

/-! ## C5: line folding

The Go folding loop works on the UTF-8 bytes of the line with a rune-start
back-off; utf8EncodeChar/foldBytes model that byte level, and C5_theorem
proves it computes exactly the rune-level chunks of foldChunks. -/

/-- encoding/utf8 EncodeRune: the UTF-8 bytes of a rune, as numbers. -/
def utf8EncodeChar (c : Char) : List Nat :=
  let n := c.toNat
  if n < 0x80 then [n]
  else if n < 0x800 then [0xc0 + n / 64, 0x80 + n % 64]
  else if n < 0x10000 then
    [0xe0 + n / 4096, 0x80 + n / 64 % 64, 0x80 + n % 64]
  else
    [0xf0 + n / 262144, 0x80 + n / 4096 % 64, 0x80 + n / 64 % 64,
     0x80 + n % 64]

def utf8Encode (cs : List Char) : List Nat :=
  cs.flatMap utf8EncodeChar

/-- utf8.RuneStart: every byte except the 10xxxxxx continuation pattern. -/
def runeStart (b : Nat) : Bool :=
  b / 64 != 2

/-- The r-- back-off loop of Encoder.property: from byte index r, step back
to the nearest rune start. -/
def backOffIdx (bs : List Nat) : Nat → Nat
  | 0 => 0
  | r + 1 => if runeStart (bs.getD (r + 1) 0) then r + 1 else backOffIdx bs r

/-- The byte-index folding loop of Encoder.property: l,r = 0,75; while r <
len, back r off to a rune start, cut, and advance by 75. -/
def foldBytes (fuel : Nat) (bs : List Nat) : List (List Nat) :=
  match fuel with
  | 0 => [bs]
  | fuel + 1 =>
    if bs.length ≤ 75 then [bs]
    else
      (bs.take (backOffIdx bs 75)) ::
        foldBytes fuel (bs.drop (backOffIdx bs 75))

theorem char_toNat_lt (c : Char) : c.toNat < 1114112 := by
  rcases c.valid with h | h
  · have h2 : c.val.toNat < 55296 := by
      simpa [UInt32.lt_def, BitVec.lt_def] using h
    simp only [Char.toNat]
    omega
  · have h2 : c.val.toNat < 1114112 := by
      simpa [UInt32.lt_def, BitVec.lt_def] using h.2
    simpa only [Char.toNat] using h2

theorem utf8EncodeChar_length (c : Char) :
    (utf8EncodeChar c).length = utf8Len c := by
  simp only [utf8EncodeChar, utf8Len]
  split_ifs <;> rfl

theorem utf8Encode_cons (c : Char) (cs : List Char) :
    utf8Encode (c :: cs) = utf8EncodeChar c ++ utf8Encode cs := by
  simp [utf8Encode]

theorem utf8Encode_append (xs ys : List Char) :
    utf8Encode (xs ++ ys) = utf8Encode xs ++ utf8Encode ys := by
  simp [utf8Encode]

theorem utf8Encode_length (cs : List Char) :
    (utf8Encode cs).length = byteLen cs := by
  induction cs with
  | nil => rfl
  | cons c cs ih =>
    rw [utf8Encode_cons, List.length_append, utf8EncodeChar_length, ih,
      byteLen_cons]

/-- Within one encoded rune, only the first byte is a rune start. -/
theorem runeStart_encodeChar (c : Char) (k : Nat) (hk : k < utf8Len c) :
    runeStart ((utf8EncodeChar c).getD k 0) = decide (k = 0) := by
  have hn := char_toNat_lt c
  simp only [utf8EncodeChar, utf8Len] at hk ⊢
  split_ifs at hk ⊢ with h1 h2 h3
  · interval_cases k <;> (simp [runeStart]; omega)
  · interval_cases k <;> (simp [runeStart]; omega)
  · interval_cases k <;> (simp [runeStart]; omega)
  · interval_cases k <;> (simp [runeStart]; omega)

/-- k is the byte length of a rune-aligned prefix of cs. -/
def isBoundaryB : List Char → Nat → Bool
  | _, 0 => true
  | [], _ + 1 => false
  | c :: cs, k + 1 =>
    if utf8Len c ≤ k + 1 then isBoundaryB cs (k + 1 - utf8Len c) else false

theorem runeStart_utf8 (cs : List Char) (k : Nat) (hk : k < byteLen cs) :
    runeStart ((utf8Encode cs).getD k 0) = isBoundaryB cs k := by
  induction cs generalizing k with
  | nil => simp [byteLen] at hk
  | cons c cs ih =>
    rw [utf8Encode_cons]
    by_cases h : k < utf8Len c
    · rw [List.getD_append _ _ _ _ (by rw [utf8EncodeChar_length]; exact h),
        runeStart_encodeChar c k h]
      cases k with
      | zero => rw [isBoundaryB]; simp
      | succ j =>
        rw [isBoundaryB.eq_def]
        simp only []
        rw [if_neg (by omega)]
        simp
    · have h2 : utf8Len c ≤ k := by omega
      rw [List.getD_append_right _ _ _ _ (by rw [utf8EncodeChar_length]; omega),
        utf8EncodeChar_length]
      have hpos := utf8Len_pos c
      obtain ⟨j, rfl⟩ : ∃ j, k = j + 1 := ⟨k - 1, by omega⟩
      rw [isBoundaryB.eq_def]
      simp only []
      rw [if_pos (by omega)]
      rw [byteLen_cons] at hk
      exact ih (j + 1 - utf8Len c) (by omega)

theorem takeChunk_append (b : Nat) :
    ∀ cs : List Char, (takeChunk b cs).1 ++ (takeChunk b cs).2 = cs := by
  intro cs
  induction cs generalizing b with
  | nil => rfl
  | cons c cs ih =>
    rw [takeChunk]
    by_cases h : utf8Len c ≤ b
    · rw [if_pos h]
      simp only []
      rw [List.cons_append, ih (b - utf8Len c)]
    · rw [if_neg h]
      rfl

theorem takeChunk_byteLen_le (b : Nat) :
    ∀ cs : List Char, byteLen (takeChunk b cs).1 ≤ b := by
  intro cs
  induction cs generalizing b with
  | nil => simp [takeChunk, byteLen]
  | cons c cs ih =>
    rw [takeChunk]
    by_cases h : utf8Len c ≤ b
    · rw [if_pos h]
      simp only [byteLen_cons]
      have := ih (b - utf8Len c)
      omega
    · rw [if_neg h]
      simp [byteLen]

theorem isBoundaryB_append (p q : List Char) :
    isBoundaryB (p ++ q) (byteLen p) = true := by
  induction p with
  | nil =>
    rw [byteLen_nil, isBoundaryB]
  | cons c p ih =>
    rw [byteLen_cons, List.cons_append]
    have hpos := utf8Len_pos c
    obtain ⟨j, hj⟩ : ∃ j, utf8Len c + byteLen p = j + 1 :=
      ⟨utf8Len c + byteLen p - 1, by omega⟩
    rw [hj, isBoundaryB.eq_def]
    simp only []
    rw [if_pos (by omega), show j + 1 - utf8Len c = byteLen p from by omega]
    exact ih

theorem takeChunk_boundary (b : Nat) (cs : List Char) :
    isBoundaryB cs (byteLen (takeChunk b cs).1) = true := by
  conv in isBoundaryB cs => rw [← takeChunk_append b cs]
  exact isBoundaryB_append _ _

theorem takeChunk_no_boundary (b : Nat) :
    ∀ (cs : List Char) (k : Nat), byteLen (takeChunk b cs).1 < k → k ≤ b →
      isBoundaryB cs k = false := by
  intro cs
  induction cs generalizing b with
  | nil =>
    intro k h1 h2
    simp only [takeChunk, byteLen] at h1
    obtain ⟨j, rfl⟩ : ∃ j, k = j + 1 := ⟨k - 1, by omega⟩
    rfl
  | cons c cs ih =>
    intro k h1 h2
    rw [takeChunk] at h1
    by_cases h : utf8Len c ≤ b
    · rw [if_pos h] at h1
      simp only [byteLen_cons] at h1
      have hk : utf8Len c < k := by
        have := utf8Len_pos c
        omega
      obtain ⟨j, rfl⟩ : ∃ j, k = j + 1 := ⟨k - 1, by omega⟩
      rw [isBoundaryB.eq_def]
      simp only []
      rw [if_pos (by omega)]
      exact ih (b - utf8Len c) (j + 1 - utf8Len c) (by omega) (by omega)
    · rw [if_neg h] at h1
      simp only [byteLen] at h1
      obtain ⟨j, rfl⟩ : ∃ j, k = j + 1 := ⟨k - 1, by omega⟩
      rw [isBoundaryB.eq_def]
      simp only []
      rw [if_neg (by omega)]

theorem backOffIdx_eq (cs : List Char) :
    ∀ (r M : Nat), r < byteLen cs → M ≤ r → isBoundaryB cs M = true →
      (∀ k, M < k → k ≤ r → isBoundaryB cs k = false) →
      backOffIdx (utf8Encode cs) r = M := by
  intro r
  induction r with
  | zero =>
    intro M _ hM _ _
    interval_cases M
    rfl
  | succ r ih =>
    intro M hr hM hb hno
    rw [backOffIdx, runeStart_utf8 cs (r + 1) hr]
    by_cases h : isBoundaryB cs (r + 1) = true
    · have hMr : M = r + 1 := by
        by_contra hne
        exact absurd h (by rw [hno (r + 1) (by omega) (le_refl _)]; simp)
      rw [if_pos (by simp [h]), hMr]
    · rw [if_neg (by simpa using h)]
      have hMr : M ≤ r := by
        rcases Nat.lt_or_ge M (r + 1) with h2 | h2
        · omega
        · exfalso
          have : M = r + 1 := by omega
          rw [this] at hb
          exact h hb
      exact ih M (by omega) hMr hb (fun k hk1 hk2 => hno k hk1 (by omega))

theorem takeChunk_ne_nil (cs : List Char) (h : 75 < byteLen cs) :
    (takeChunk 75 cs).1 ≠ [] := by
  cases cs with
  | nil => simp [byteLen] at h
  | cons c cs =>
    rw [takeChunk]
    have h4 := utf8Len_le_four c
    rw [if_pos (by omega)]
    simp only []
    exact List.cons_ne_nil _ _

theorem takeChunk_rm_length (cs : List Char) (h : 75 < byteLen cs) :
    (takeChunk 75 cs).2.length < cs.length := by
  have hsp := takeChunk_append 75 cs
  have hne := takeChunk_ne_nil cs h
  have hlen : (takeChunk 75 cs).1.length + (takeChunk 75 cs).2.length
      = cs.length := by
    rw [← List.length_append, hsp]
  have : 0 < (takeChunk 75 cs).1.length := List.length_pos.mpr hne
  omega

theorem foldBytes_eq_foldChunks :
    ∀ (n : Nat) (cs : List Char), cs.length ≤ n →
      foldBytes n (utf8Encode cs) = (foldChunks n cs).map utf8Encode := by
  intro n
  induction n with
  | zero => intro cs _; rfl
  | succ n ih =>
    intro cs hlen
    rw [foldBytes, foldChunks, utf8Encode_length]
    by_cases h75 : byteLen cs ≤ 75
    · rw [if_pos h75, if_pos h75]
      rfl
    · rw [if_neg h75, if_neg h75]
      have hB := backOffIdx_eq cs 75 (byteLen (takeChunk 75 cs).1)
        (by omega) (takeChunk_byteLen_le 75 cs) (takeChunk_boundary 75 cs)
        (takeChunk_no_boundary 75 cs)
      have hsplit : utf8Encode cs =
          utf8Encode (takeChunk 75 cs).1 ++ utf8Encode (takeChunk 75 cs).2 := by
        rw [← utf8Encode_append, takeChunk_append]
      have htake : (utf8Encode cs).take (byteLen (takeChunk 75 cs).1) =
          utf8Encode (takeChunk 75 cs).1 := by
        rw [hsplit, ← utf8Encode_length, List.take_left]
      have hdrop : (utf8Encode cs).drop (byteLen (takeChunk 75 cs).1) =
          utf8Encode (takeChunk 75 cs).2 := by
        rw [hsplit, ← utf8Encode_length, List.drop_left]
      have hrm : (takeChunk 75 cs).2.length ≤ n := by
        have := takeChunk_rm_length cs (by omega)
        omega
      rw [hB, htake, hdrop, ih (takeChunk 75 cs).2 hrm]
      rcases hTC : takeChunk 75 cs with ⟨c1, rm⟩
      rfl

theorem foldChunks_byteLen :
    ∀ (n : Nat) (cs : List Char), cs.length ≤ n →
      ∀ ch ∈ foldChunks n cs, byteLen ch ≤ 75 := by
  intro n
  induction n with
  | zero =>
    intro cs hlen ch hch
    have h0 : cs = [] := List.length_eq_zero.mp (by omega)
    subst h0
    simp only [foldChunks, List.mem_singleton] at hch
    subst hch
    simp [byteLen]
  | succ n ih =>
    intro cs hlen ch hch
    rw [foldChunks] at hch
    by_cases h75 : byteLen cs ≤ 75
    · rw [if_pos h75] at hch
      simp only [List.mem_singleton] at hch
      subst hch
      exact h75
    · rw [if_neg h75] at hch
      have hrm : (takeChunk 75 cs).2.length ≤ n := by
        have := takeChunk_rm_length cs (by omega)
        omega
      have hbd := takeChunk_byteLen_le 75 cs
      rcases hTC : takeChunk 75 cs with ⟨c1, rm⟩
      rw [hTC] at hch hrm hbd
      simp only [] at hch
      rcases List.mem_cons.mp hch with rfl | hm
      · exact hbd
      · exact ih rm hrm ch hm

theorem foldChunks_join :
    ∀ (n : Nat) (cs : List Char), (foldChunks n cs).flatten = cs := by
  intro n
  induction n with
  | zero => intro cs; simp [foldChunks]
  | succ n ih =>
    intro cs
    rw [foldChunks]
    by_cases h75 : byteLen cs ≤ 75
    · rw [if_pos h75]
      simp
    · rw [if_neg h75]
      have hsp := takeChunk_append 75 cs
      rcases hTC : takeChunk 75 cs with ⟨c1, rm⟩
      rw [hTC] at hsp
      show (c1 :: foldChunks n rm).flatten = cs
      rw [List.flatten_cons, ih rm]
      exact hsp

theorem unfold_joinCRLFSpace :
    ∀ (chs : List (List Char)),
      (∀ ch ∈ chs, ∀ x ∈ ch, ¬(x = '\r' ∨ x = '\n')) →
      unfold (joinCRLFSpace chs) = chs.flatten
  | [], _ => rfl
  | [c1], h => by
    show unfold c1 = [c1].flatten
    rw [unfold_plain_nil c1 (h c1 (by simp))]
    simp
  | c1 :: c2 :: rest, h => by
    show unfold (c1 ++ '\r' :: '\n' :: ' ' :: joinCRLFSpace (c2 :: rest)) =
      (c1 :: c2 :: rest).flatten
    rw [unfold_all_plain c1 _ (h c1 (by simp)),
      unfold_crlf_space ' ' _ (by decide),
      unfold_joinCRLFSpace (c2 :: rest) (fun ch hch => h ch (by simp [hch]))]
    rfl

/-- C5: the encoder's byte-index folding loop with its rune-start back-off
computes exactly the rune-aligned 75-octet chunks of the logical line: no
split point falls inside a multi-byte UTF-8 sequence; every chunk fits 75
octets; the chunks concatenate back to the original line; and the chunks
joined with CRLF plus one space re-read, through readRune's unfolding, to
the identical original value. -/
theorem C5_theorem (line : List Char) (hline : line.all isValueChar = true) :
    foldBytes line.length (utf8Encode line) =
      (foldChunks line.length line).map utf8Encode ∧
    (∀ ch ∈ foldChunks line.length line, byteLen ch ≤ 75) ∧
    (foldChunks line.length line).flatten = line ∧
    unfold (joinCRLFSpace (foldChunks line.length line)) = line := by
  have hplain : ∀ ch ∈ foldChunks line.length line, ∀ x ∈ ch,
      ¬(x = '\r' ∨ x = '\n') := by
    intro ch hch x hx
    have hxline : x ∈ line := by
      rw [← foldChunks_join line.length line]
      exact List.mem_flatten.mpr ⟨ch, hch, hx⟩
    exact valueChar_not_break x (List.all_eq_true.mp hline x hxline)
  refine ⟨foldBytes_eq_foldChunks line.length line (le_refl _),
    foldChunks_byteLen line.length line (le_refl _),
    foldChunks_join line.length line, ?_⟩
  rw [unfold_joinCRLFSpace _ hplain, foldChunks_join]

/-- The C5 witness line: 78 octets, with the 75-octet boundary falling
inside the two-byte rune é, forcing the rune-start back-off. -/
def c5line : List Char :=
  chars "DESCRIPTION:aaaaaaaaaaaaaaaaaaaaaaaaaaaaaaaaaaaaaaaaaaaaaaaaaaaaaaaaaaaaaaéxyz"

/-- C5, witness: folding the c5line description line. -/
theorem C5_witness :
    c5line.all isValueChar = true ∧
    (foldBytes c5line.length (utf8Encode c5line) =
      (foldChunks c5line.length c5line).map utf8Encode ∧
    (∀ ch ∈ foldChunks c5line.length c5line, byteLen ch ≤ 75) ∧
    (foldChunks c5line.length c5line).flatten = c5line ∧
    unfold (joinCRLFSpace (foldChunks c5line.length c5line)) = c5line) :=
  ⟨by decide, C5_theorem c5line (by decide)⟩

/-! ## C1: the encode/parse round trip

A property line BEGIN;:VCALENDAR parses (the empty parameter name emits no
item), but its re-serialization BEGIN:VCALENDAR lexes as a component marker,
so the round trip of the claim fails; C1_counterexample exhibits this.  The
amended round trip holds for calendars whose raw properties satisfy PropOk
below, with parameters re-ordered by name but content-preserved.  The
machinery: parameter-sorting preserves lookups (this section), the encoder
output unfolds and re-lexes to the expected token stream, and the parser
rebuilds the calendar from those tokens. -/

theorem insertParam_perm (p : List Char × List (List Char)) :
    ∀ ps : Params, List.Perm (insertParam p ps) (p :: ps)
  | [] => List.Perm.refl _
  | q :: rest => by
    rw [insertParam]
    by_cases h : lexLtChars p.1 q.1
    · rw [if_pos h]
    · rw [if_neg h]
      exact List.Perm.trans (List.Perm.cons q (insertParam_perm p rest))
        (List.Perm.swap p q rest)

theorem sortParams_perm : ∀ ps : Params, List.Perm (sortParams ps) ps
  | [] => List.Perm.refl _
  | q :: rest => by
    have h1 : sortParams (q :: rest) = insertParam q (sortParams rest) := rfl
    rw [h1]
    exact List.Perm.trans (insertParam_perm q (sortParams rest))
      (List.Perm.cons q (sortParams_perm rest))

theorem sortParams_keys_nodup (ps : Params)
    (h : (ps.map Prod.fst).Nodup) : ((sortParams ps).map Prod.fst).Nodup :=
  (List.Perm.nodup_iff (List.Perm.map Prod.fst (sortParams_perm ps))).mpr h

theorem lookup_eq_some_of_mem :
    ∀ (ps : Params) (k : List Char) (vs : List (List Char)),
      (ps.map Prod.fst).Nodup → (k, vs) ∈ ps →
      Params.lookup ps k = some vs := by
  intro ps
  induction ps with
  | nil => intro k vs _ h; simp at h
  | cons q rest ih =>
    intro k vs hnd hm
    simp only [List.map_cons, List.nodup_cons] at hnd
    rcases List.mem_cons.mp hm with rfl | hm2
    · simp [Params.lookup, List.find?]
    · have hk : q.1 ≠ k := by
        intro hq
        exact hnd.1 (hq ▸ List.mem_map_of_mem Prod.fst hm2)
      simp only [Params.lookup, List.find?]
      rw [show (q.1 == k) = false from by simpa using hk]
      exact ih k vs hnd.2 hm2

theorem mem_of_lookup_eq_some :
    ∀ (ps : Params) (k : List Char) (vs : List (List Char)),
      Params.lookup ps k = some vs → (k, vs) ∈ ps := by
  intro ps
  induction ps with
  | nil => intro k vs h; simp [Params.lookup] at h
  | cons q rest ih =>
    intro k vs h
    simp only [Params.lookup, List.find?] at h
    by_cases hk : (q.1 == k) = true
    · rw [hk] at h
      simp only [Option.map_some] at h
      have hq : q = (k, vs) := by
        have h1 : q.1 = k := by simpa using hk
        have h2 : q.2 = vs := by simpa using h
        exact Prod.ext h1 h2
      exact hq ▸ List.mem_cons_self q rest
    · rw [show (q.1 == k) = false from by simpa using hk] at h
      exact List.mem_cons_of_mem q (ih k vs h)

theorem lookup_eq_none_iff (ps : Params) (k : List Char) :
    Params.lookup ps k = none ↔ k ∉ ps.map Prod.fst := by
  simp only [Params.lookup, Option.map_eq_none', List.find?_eq_none,
    List.mem_map]
  constructor
  · rintro h ⟨q, hq, rfl⟩
    have hq2 := h q hq
    simp at hq2
  · intro h q hq hbeq
    exact h ⟨q, hq, by simpa using hbeq⟩

theorem lookup_perm_eq (ps qs : Params)
    (hperm : List.Perm ps qs) (hnd : (ps.map Prod.fst).Nodup)
    (k : List Char) : Params.lookup ps k = Params.lookup qs k := by
  cases h1 : Params.lookup ps k with
  | none =>
    have h2 : k ∉ ps.map Prod.fst := (lookup_eq_none_iff ps k).mp h1
    have h3 : k ∉ qs.map Prod.fst := by
      intro h4
      exact h2 ((List.Perm.mem_iff (List.Perm.map Prod.fst hperm)).mpr h4)
    exact ((lookup_eq_none_iff qs k).mpr h3).symm
  | some vs =>
    have h2 : (k, vs) ∈ ps := mem_of_lookup_eq_some ps k vs h1
    have h3 : (k, vs) ∈ qs := (List.Perm.mem_iff hperm).mp h2
    have hnd2 : (qs.map Prod.fst).Nodup :=
      (List.Perm.nodup_iff (List.Perm.map Prod.fst hperm)).mp hnd
    exact (lookup_eq_some_of_mem qs k vs hnd2 h3).symm

theorem sortParams_lookup (ps : Params) (hnd : (ps.map Prod.fst).Nodup)
    (k : List Char) : Params.lookup (sortParams ps) k = Params.lookup ps k :=
  (lookup_perm_eq ps (sortParams ps) (sortParams_perm ps).symm hnd k).symm

theorem containsVal_perm_eq (ps qs : Params) (hperm : List.Perm ps qs)
    (k v : List Char) : Params.containsVal ps k v = Params.containsVal qs k v := by
  simp only [Params.containsVal]
  cases h1 : List.any ps (fun p => p.1 == k && List.any p.2 (fun w => w == v)) with
  | true =>
    rw [List.any_eq_true] at h1
    obtain ⟨q, hq, hp⟩ := h1
    exact (List.any_eq_true.mpr ⟨q, (List.Perm.mem_iff hperm).mp hq, hp⟩).symm
  | false =>
    rw [List.any_eq_false] at h1
    refine (List.any_eq_false.mpr ?_).symm
    intro q hq
    exact h1 q ((List.Perm.mem_iff hperm).mpr hq)

theorem sortParams_containsVal (ps : Params) (k v : List Char) :
    Params.containsVal (sortParams ps) k v = Params.containsVal ps k v :=
  containsVal_perm_eq (sortParams ps) ps (sortParams_perm ps) k v

/-- The re-parsed form of a property: parameters sorted by name. -/
def sortPropParams (p : Property) : Property :=
  ⟨p.name, sortParams p.params, p.value⟩

theorem parseLayout_sort (p : Property)
    (hnd : (p.params.map Prod.fst).Nodup) :
    parseLayout (sortPropParams p) = parseLayout p := by
  simp only [parseLayout]
  rw [show (sortPropParams p).params = sortParams p.params from rfl,
    show (sortPropParams p).value = p.value from rfl,
    sortParams_lookup p.params hnd]

theorem parseTime_sort (ploc : Option Location) (localLoc : Location)
    (p : Property) (hnd : (p.params.map Prod.fst).Nodup) :
    parseTime ploc localLoc (sortPropParams p) = parseTime ploc localLoc p := by
  have hlook := sortParams_lookup p.params hnd
  have hlay : parseLayout ⟨p.name, sortParams p.params,
      normalizeDateTimeValue p.value⟩ =
      parseLayout ⟨p.name, p.params, normalizeDateTimeValue p.value⟩ := by
    simp only [parseLayout]
    rw [hlook]
  show parseTime ploc localLoc ⟨p.name, sortParams p.params, p.value⟩ = _
  simp only [parseTime]
  rw [hlook, hlay]

theorem parseDTEND_sort (ploc : Option Location) (localLoc : Location)
    (inclusiveEnds : Bool) (p : Property)
    (hnd : (p.params.map Prod.fst).Nodup) :
    parseDTEND ploc localLoc inclusiveEnds (sortPropParams p) =
      parseDTEND ploc localLoc inclusiveEnds p := by
  simp only [parseDTEND, sortPropParams]
  have ht := parseTime_sort ploc localLoc p hnd
  simp only [sortPropParams] at ht
  rw [ht]

theorem set_fresh :
    ∀ (ps : Params) (k : List Char) (vs : List (List Char)),
      k ∉ ps.map Prod.fst → Params.set ps k vs = ps ++ [(k, vs)] := by
  intro ps
  induction ps with
  | nil =>
    intro k vs _
    rfl
  | cons q rest ih =>
    intro k vs h
    simp only [List.map_cons, List.mem_cons] at h
    rw [Params.set.eq_def]
    simp only []
    rw [if_neg (by
      simp only [beq_iff_eq]
      intro hq
      exact h (Or.inl hq.symm))]
    rw [ih k vs (fun hm => h (Or.inr hm))]
    rfl


/-! ### C1: well-formed raw properties and their token streams

A property line BEGIN;:VCALENDAR parses (the empty parameter name emits no
item), but its re-serialization BEGIN:VCALENDAR lexes as a component
marker, so the universally quantified round trip fails; the amended claim
restricts to properties whose runes lie in the lexer's classes and whose
serialization cannot collide with a marker. -/

/-- A parameter that the encoder serializes and the lexer re-tokenizes as
itself: nonempty key of name runes, nonempty value list of nonempty safe
runes. -/
def ParamOk (q : List Char × List (List Char)) : Prop :=
  q.1 ≠ [] ∧ q.1.all isNameChar = true ∧ q.2 ≠ [] ∧
  ∀ v ∈ q.2, v ≠ [] ∧ v.all isSafeChar = true

/-- A property whose encoded content line re-lexes as one name, parameter
and value token group: the rune classes demanded by the lexer states,
unique parameter keys, and, for a parameter-free property, no collision
with the six BEGIN/END component markers. -/
def PropOk (p : Property) : Prop :=
  p.name ≠ [] ∧ p.name.all isNameChar = true ∧
  p.value.all isValueChar = true ∧
  (∀ q ∈ p.params, ParamOk q) ∧ (p.params.map Prod.fst).Nodup ∧
  (p.params = [] →
    p.value.head? ≠ some 'V' ∨
      (p.name ≠ chars "BEGIN" ∧ p.name ≠ chars "END"))

instance (q : List Char × List (List Char)) : Decidable (ParamOk q) := by
  unfold ParamOk
  infer_instance

instance (p : Property) : Decidable (PropOk p) := by
  unfold PropOk
  infer_instance

/-- The token group of one parameter: its ParamName item and one ParamValue
item per value. -/
def paramTokens (q : List Char × List (List Char)) : List Item :=
  ⟨ItemType.paramName, q.1⟩ ::
    q.2.map (fun v => ⟨ItemType.paramValue, v⟩)

/-- The token group of one re-lexed property line: the parameters appear
sorted by name, the order the encoder wrote them in. -/
def propTokens (p : Property) : List Item :=
  ⟨ItemType.name, p.name⟩ ::
    ((sortParams p.params).flatMap paramTokens ++
      [⟨ItemType.value, p.value⟩])

/-- The serialized parameter block, each parameter preceded by ';'. -/
def serParams (qs : Params) : List Char :=
  qs.flatMap (fun q => ';' :: (q.1 ++ '=' :: joinComma q.2))

theorem serializeProperty_eq (p : Property) :
    serializeProperty p =
      p.name ++ (serParams (sortParams p.params) ++ ':' :: p.value) := by
  simp only [serializeProperty, serParams, List.append_assoc]

def plainChars (l : List Char) : Prop := ∀ c ∈ l, ¬(c = '\r' ∨ c = '\n')

theorem nameChars_plain (l : List Char) (h : l.all isNameChar = true) :
    plainChars l :=
  fun c hc => nameChar_not_break c (List.all_eq_true.mp h c hc)

theorem safeChars_plain (l : List Char) (h : l.all isSafeChar = true) :
    plainChars l :=
  fun c hc => safeChar_not_break c (List.all_eq_true.mp h c hc)

theorem valueChars_plain (l : List Char) (h : l.all isValueChar = true) :
    plainChars l :=
  fun c hc => valueChar_not_break c (List.all_eq_true.mp h c hc)

theorem joinComma_mem :
    ∀ (vs : List (List Char)) (x : Char), x ∈ joinComma vs →
      x = ',' ∨ ∃ v ∈ vs, x ∈ v
  | [], x, h => by simp [joinComma] at h
  | [v], x, h => by
    right
    exact ⟨v, by simp, by simpa [joinComma] using h⟩
  | v :: v2 :: vs, x, h => by
    have he : joinComma (v :: v2 :: vs) = v ++ ',' :: joinComma (v2 :: vs) :=
      rfl
    rw [he] at h
    rcases List.mem_append.mp h with h1 | h2
    · right
      exact ⟨v, by simp, h1⟩
    · rcases List.mem_cons.mp h2 with rfl | h3
      · left
        rfl
      · rcases joinComma_mem (v2 :: vs) x h3 with h4 | ⟨w, hw, hx⟩
        · left
          exact h4
        · right
          exact ⟨w, by simp [hw], hx⟩

theorem serParams_plain (qs : Params) (h : ∀ q ∈ qs, ParamOk q) :
    plainChars (serParams qs) := by
  intro c hc
  simp only [serParams, List.mem_flatMap] at hc
  obtain ⟨q, hq, hcq⟩ := hc
  obtain ⟨_, hkey, _, hvals⟩ := h q hq
  rcases List.mem_cons.mp hcq with rfl | hc2
  · decide
  rcases List.mem_append.mp hc2 with hc3 | hc4
  · exact nameChars_plain q.1 hkey c hc3
  rcases List.mem_cons.mp hc4 with rfl | hc5
  · decide
  rcases joinComma_mem q.2 c hc5 with rfl | ⟨v, hv, hcv⟩
  · decide
  · exact safeChars_plain v (hvals v hv).2 c hcv

theorem serializeProperty_plain (p : Property) (h : PropOk p) :
    plainChars (serializeProperty p) := by
  obtain ⟨hn0, hn, hv, hq, hnd, hm⟩ := h
  have hqs : ∀ q ∈ sortParams p.params, ParamOk q := by
    intro q hmem
    exact hq q ((sortParams_perm p.params).mem_iff.mp hmem)
  intro c hc
  rw [serializeProperty_eq] at hc
  rcases List.mem_append.mp hc with hc1 | hc2
  · exact nameChars_plain p.name hn c hc1
  rcases List.mem_append.mp hc2 with hc3 | hc4
  · exact serParams_plain _ hqs c hc3
  rcases List.mem_cons.mp hc4 with rfl | hc5
  · decide
  · exact valueChars_plain p.value hv c hc5

theorem sortParams_ne_nil (ps : Params) (h : ps ≠ []) :
    sortParams ps ≠ [] := by
  intro h0
  have hlen := (sortParams_perm ps).length_eq
  rw [h0] at hlen
  exact h (List.length_eq_zero.mp hlen.symm)

/-! ### C1: the encoded document unfolds to its raw content lines -/

theorem unfold_joinCRLFSpace_append :
    ∀ (chs : List (List Char)) (tail : List Char),
      (∀ ch ∈ chs, plainChars ch) →
      unfold (joinCRLFSpace chs ++ tail) = chs.flatten ++ unfold tail
  | [], tail, _ => by simp [joinCRLFSpace]
  | [c1], tail, h => by
    show unfold (c1 ++ tail) = ([c1] : List (List Char)).flatten ++ unfold tail
    rw [unfold_all_plain c1 tail (h c1 (by simp))]
    simp
  | c1 :: c2 :: rest, tail, h => by
    show unfold ((c1 ++ '\r' :: '\n' :: ' ' :: joinCRLFSpace (c2 :: rest)) ++
        tail) = (c1 :: c2 :: rest).flatten ++ unfold tail
    rw [List.append_assoc]
    rw [show ('\r' :: '\n' :: ' ' :: joinCRLFSpace (c2 :: rest)) ++ tail =
      '\r' :: '\n' :: ' ' :: (joinCRLFSpace (c2 :: rest) ++ tail) from rfl]
    rw [unfold_all_plain c1 _ (h c1 (by simp)),
      unfold_crlf_space ' ' _ (by decide),
      unfold_joinCRLFSpace_append (c2 :: rest) tail
        (fun ch hch => h ch (by simp [hch]))]
    simp [List.append_assoc]

theorem takeChunk_cons_head (b : Nat) (c : Char) (cs : List Char)
    (h : utf8Len c ≤ b) :
    ∃ t, (takeChunk b (c :: cs)).1 = c :: t := by
  rw [takeChunk, if_pos h]
  rcases hTC : takeChunk (b - utf8Len c) cs with ⟨ch, rm⟩
  exact ⟨ch, rfl⟩

theorem joinCRLFSpace_head (c : Char) (ch : List Char) :
    ∀ chs : List (List Char),
      ∃ t, joinCRLFSpace ((c :: ch) :: chs) = c :: t
  | [] => ⟨ch, rfl⟩
  | c2 :: rest =>
    ⟨ch ++ '\r' :: '\n' :: ' ' :: joinCRLFSpace (c2 :: rest), rfl⟩

theorem foldChunks_cons_head (f : Nat) (c : Char) (cs : List Char) :
    ∃ t, joinCRLFSpace (foldChunks f (c :: cs)) = c :: t := by
  cases f with
  | zero => exact ⟨cs, rfl⟩
  | succ f =>
    rw [foldChunks]
    by_cases h75 : byteLen (c :: cs) ≤ 75
    · rw [if_pos h75]
      exact ⟨cs, rfl⟩
    · rw [if_neg h75]
      have hle : utf8Len c ≤ 75 :=
        le_trans (utf8Len_le_four c) (by omega)
      obtain ⟨t1, ht1⟩ := takeChunk_cons_head 75 c cs hle
      rcases hTC : takeChunk 75 (c :: cs) with ⟨ch, rm⟩
      rw [hTC] at ht1
      simp only [] at ht1
      show ∃ t, joinCRLFSpace (ch :: foldChunks f rm) = c :: t
      rw [ht1]
      exact joinCRLFSpace_head c t1 (foldChunks f rm)

/-- One encoded property — CRLF, then the folded line — reads back as CRLF
plus the unfolded logical line, whatever follows. -/
theorem unfold_encodeProperty (p : Property) (tail : List Char)
    (h : PropOk p) :
    unfold (encodeProperty p ++ tail) =
      '\r' :: '\n' :: (serializeProperty p ++ unfold tail) := by
  have hplain := serializeProperty_plain p h
  obtain ⟨n0, nm, hn⟩ : ∃ n0 nm, p.name = n0 :: nm := by
    cases hcase : p.name with
    | nil => exact absurd hcase h.1
    | cons a b => exact ⟨a, b, rfl⟩
  have hn0 : isNameChar n0 = true := by
    have h2 := h.2.1
    rw [hn] at h2
    simp only [List.all_cons, Bool.and_eq_true] at h2
    exact h2.1
  have hlt : serializeProperty p =
      n0 :: (nm ++ (serParams (sortParams p.params) ++ ':' :: p.value)) := by
    rw [serializeProperty_eq, hn]
    rfl
  have hshape : encodeProperty p ++ tail = '\r' :: '\n' ::
      (joinCRLFSpace (foldChunks (serializeProperty p).length
        (serializeProperty p)) ++ tail) := by
    simp only [encodeProperty]
    rfl
  have hchunks : ∀ ch ∈ foldChunks (serializeProperty p).length
      (serializeProperty p), plainChars ch := by
    intro ch hch x hx
    apply hplain
    rw [← foldChunks_join (serializeProperty p).length (serializeProperty p)]
    exact List.mem_flatten.mpr ⟨ch, hch, hx⟩
  rw [hshape]
  obtain ⟨ft, hft⟩ := foldChunks_cons_head
    ((serializeProperty p).length) n0
    (nm ++ (serParams (sortParams p.params) ++ ':' :: p.value))
  rw [← hlt] at hft
  rw [hft]
  show unfold ('\r' :: '\n' :: n0 :: (ft ++ tail)) = _
  rw [unfold_crlf_nonspace n0 (ft ++ tail)
    (goIsSpace_false_of_nameChar n0 hn0)]
  have hn0p : ¬(n0 = '\r' ∨ n0 = '\n') := nameChar_not_break n0 hn0
  rw [← unfold_cons_plain n0 (ft ++ tail) hn0p]
  rw [show n0 :: (ft ++ tail) =
    joinCRLFSpace (foldChunks (serializeProperty p).length
      (serializeProperty p)) ++ tail from by
    rw [hft]
    rfl]
  rw [unfold_joinCRLFSpace_append _ tail hchunks, foldChunks_join]

/-- The raw (fold-free) content-line block of a property list. -/
def rawProps (ps : List Property) : List Char :=
  ps.flatMap (fun p => '\r' :: '\n' :: serializeProperty p)

theorem unfold_encProps :
    ∀ (ps : List Property) (tail : List Char), (∀ p ∈ ps, PropOk p) →
      unfold (ps.flatMap encodeProperty ++ tail) = rawProps ps ++ unfold tail
  | [], tail, _ => by simp [rawProps]
  | p :: ps, tail, h => by
    rw [show (p :: ps).flatMap encodeProperty ++ tail =
      encodeProperty p ++ (ps.flatMap encodeProperty ++ tail) from by
        rw [List.flatMap_cons, List.append_assoc]]
    rw [unfold_encodeProperty p _ (h p (by simp)),
      unfold_encProps ps tail (fun q hq => h q (by simp [hq]))]
    simp [rawProps, List.flatMap_cons, List.append_assoc]

/-- The raw content of an alarm block between its markers. -/
def rawAlarm (a : Alarm) : List Char :=
  '\r' :: '\n' :: 'B' :: (chars "EGIN:VALARM" ++
    (rawProps a.properties ++ ('\r' :: '\n' :: 'E' :: chars "ND:VALARM")))

def rawAlarms (as : List Alarm) : List Char := as.flatMap rawAlarm

theorem unfold_encAlarms :
    ∀ (as : List Alarm) (tail : List Char),
      (∀ a ∈ as, ∀ p ∈ a.properties, PropOk p) →
      unfold (as.flatMap encodeAlarm ++ tail) = rawAlarms as ++ unfold tail
  | [], tail, _ => by simp [rawAlarms]
  | a :: as, tail, h => by
    have hstep : (a :: as).flatMap encodeAlarm ++ tail =
        '\r' :: '\n' :: 'B' :: (chars "EGIN:VALARM" ++
          (a.properties.flatMap encodeProperty ++
            ('\r' :: '\n' :: 'E' :: (chars "ND:VALARM" ++
              (as.flatMap encodeAlarm ++ tail))))) := by
      simp only [List.flatMap_cons, encodeAlarm, List.append_assoc]
      rfl
    rw [hstep]
    rw [unfold_crlf_nonspace 'B' _ (by decide),
      unfold_all_plain (chars "EGIN:VALARM") _ (by decide),
      unfold_encProps a.properties _ (h a (by simp)),
      unfold_crlf_nonspace 'E' _ (by decide),
      unfold_all_plain (chars "ND:VALARM") _ (by decide),
      unfold_encAlarms as tail (fun x hx => h x (by simp [hx]))]
    simp [rawAlarms, rawAlarm, List.flatMap_cons, List.append_assoc]

/-- The raw content of an event block between its markers. -/
def rawEvent (e : Event) : List Char :=
  '\r' :: '\n' :: 'B' :: (chars "EGIN:VEVENT" ++
    (rawProps e.properties ++ (rawAlarms e.alarms ++
      ('\r' :: '\n' :: 'E' :: chars "ND:VEVENT"))))

def rawEvents (es : List Event) : List Char := es.flatMap rawEvent

theorem unfold_encEvents :
    ∀ (es : List Event) (tail : List Char),
      (∀ e ∈ es, (∀ p ∈ e.properties, PropOk p) ∧
        (∀ a ∈ e.alarms, ∀ p ∈ a.properties, PropOk p)) →
      unfold (es.flatMap encodeEvent ++ tail) = rawEvents es ++ unfold tail
  | [], tail, _ => by simp [rawEvents]
  | e :: es, tail, h => by
    have hstep : (e :: es).flatMap encodeEvent ++ tail =
        '\r' :: '\n' :: 'B' :: (chars "EGIN:VEVENT" ++
          (e.properties.flatMap encodeProperty ++
            (e.alarms.flatMap encodeAlarm ++
              ('\r' :: '\n' :: 'E' :: (chars "ND:VEVENT" ++
                (es.flatMap encodeEvent ++ tail)))))) := by
      simp only [List.flatMap_cons, encodeEvent, List.append_assoc]
      rfl
    rw [hstep]
    rw [unfold_crlf_nonspace 'B' _ (by decide),
      unfold_all_plain (chars "EGIN:VEVENT") _ (by decide),
      unfold_encProps e.properties _ (h e (by simp)).1,
      unfold_encAlarms e.alarms _ (h e (by simp)).2,
      unfold_crlf_nonspace 'E' _ (by decide),
      unfold_all_plain (chars "ND:VEVENT") _ (by decide),
      unfold_encEvents es tail (fun x hx => h x (by simp [hx]))]
    simp [rawEvents, rawEvent, List.flatMap_cons, List.append_assoc]

/-- The raw unfolded document of an encoded calendar. -/
def rawDoc (c : Calendar) : List Char :=
  beginVCalendarChars ++ (rawProps c.properties ++ (rawEvents c.events ++
    ('\r' :: '\n' :: 'E' :: chars "ND:VCALENDAR")))

theorem unfold_encodeCalendar (c : Calendar)
    (hp : ∀ p ∈ c.properties, PropOk p)
    (he : ∀ e ∈ c.events, (∀ p ∈ e.properties, PropOk p) ∧
      (∀ a ∈ e.alarms, ∀ p ∈ a.properties, PropOk p)) :
    unfold (encodeCalendar c) = rawDoc c := by
  have hstep : encodeCalendar c =
      chars "BEGIN:VCALENDAR" ++
        (c.properties.flatMap encodeProperty ++
          (c.events.flatMap encodeEvent ++
            ('\r' :: '\n' :: 'E' :: chars "ND:VCALENDAR"))) := by
    simp only [encodeCalendar, List.append_assoc]
    rfl
  rw [hstep]
  rw [unfold_all_plain (chars "BEGIN:VCALENDAR") _ (by decide),
    unfold_encProps c.properties _ hp,
    unfold_encEvents c.events _ he,
    unfold_crlf_nonspace 'E' _ (by decide),
    unfold_plain_nil (chars "ND:VCALENDAR") (by decide)]
  simp [rawDoc, beginVCalendarChars, List.append_assoc]


/-! ### C1: the raw document re-lexes to the expected token stream -/

/-- The token group of an alarm block. -/
def alarmTokens (a : Alarm) : List Item :=
  ⟨ItemType.alarmBegin, beginVAlarmChars⟩ ::
    (a.properties.flatMap propTokens ++ [⟨ItemType.alarmEnd, endVAlarmChars⟩])

/-- The token group of an event block. -/
def eventTokens (e : Event) : List Item :=
  ⟨ItemType.eventBegin, beginVEventChars⟩ ::
    (e.properties.flatMap propTokens ++ (e.alarms.flatMap alarmTokens ++
      [⟨ItemType.eventEnd, endVEventChars⟩]))

/-- The token stream of a re-lexed encoded calendar. -/
def calTokens (c : Calendar) : List Item :=
  ⟨ItemType.calendarBegin, beginVCalendarChars⟩ ::
    (c.properties.flatMap propTokens ++ (c.events.flatMap eventTokens ++
      [⟨ItemType.calendarEnd, endVCalendarChars⟩, ⟨ItemType.eof, []⟩]))

theorem lexRun_valueLine (strict : Bool) (v tail : List Char) (pos : Nat)
    (hv : v.all isValueChar = true) :
    lexRun strict .value (v ++ '\r' :: '\n' :: tail) pos =
      ⟨ItemType.value, v⟩ ::
        lexRun strict .newLine ('\r' :: '\n' :: tail) (pos + byteLen v) := by
  cases v with
  | nil =>
    show lexRun strict .value ('\r' :: '\n' :: tail) pos =
      ⟨ItemType.value, []⟩ ::
        lexRun strict .newLine ('\r' :: '\n' :: tail) (pos + byteLen [])
    rw [lexRun_value_crlf strict _ pos (Or.inl (by simp [List.isPrefixOf]))]
    rw [show byteLen ([] : List Char) = 0 from rfl, Nat.add_zero]
  | cons a l =>
    exact lexRun_value_run strict (a :: l) '\r' ('\n' :: tail) pos hv
      (by decide) (by simp)

theorem lexRun_paramValues_colon (strict : Bool) :
    ∀ (vs : List (List Char)) (rest : List Char) (pos : Nat), vs ≠ [] →
      (∀ v ∈ vs, v ≠ [] ∧ v.all isSafeChar = true) →
      ∃ pos2, lexRun strict .paramValue (joinComma vs ++ ':' :: rest) pos =
        vs.map (fun v => (⟨ItemType.paramValue, v⟩ : Item)) ++
          lexRun strict .value rest pos2
  | [], _, _, hne, _ => absurd rfl hne
  | [v], rest, pos, _, h => by
    have hv := h v (by simp)
    refine ⟨pos + byteLen v + 1, ?_⟩
    show lexRun strict .paramValue (v ++ ':' :: rest) pos = _
    rw [lexRun_paramValue_colon strict v rest pos hv.2]
    rw [show emitAdvanced ItemType.paramValue v = [⟨ItemType.paramValue, v⟩]
      from by simp [emitAdvanced, hv.1]]
    rfl
  | v :: v2 :: vs, rest, pos, _, h => by
    have hv := h v (by simp)
    obtain ⟨pos2, ih⟩ := lexRun_paramValues_colon strict (v2 :: vs) rest
      (pos + byteLen v + 1) (by simp) (fun w hw => h w (by simp [hw]))
    refine ⟨pos2, ?_⟩
    show lexRun strict .paramValue
      ((v ++ ',' :: joinComma (v2 :: vs)) ++ ':' :: rest) pos = _
    rw [List.append_assoc]
    rw [show (',' :: joinComma (v2 :: vs)) ++ ':' :: rest =
      ',' :: (joinComma (v2 :: vs) ++ ':' :: rest) from rfl]
    rw [lexRun_paramValue_comma strict v _ pos hv.2]
    rw [ih]
    rw [show emitAdvanced ItemType.paramValue v = [⟨ItemType.paramValue, v⟩]
      from by simp [emitAdvanced, hv.1]]
    rfl

theorem lexRun_paramValues_semi (strict : Bool) :
    ∀ (vs : List (List Char)) (rest : List Char) (pos : Nat), vs ≠ [] →
      (∀ v ∈ vs, v ≠ [] ∧ v.all isSafeChar = true) →
      ∃ pos2, lexRun strict .paramValue (joinComma vs ++ ';' :: rest) pos =
        vs.map (fun v => (⟨ItemType.paramValue, v⟩ : Item)) ++
          lexRun strict .paramName rest pos2
  | [], _, _, hne, _ => absurd rfl hne
  | [v], rest, pos, _, h => by
    have hv := h v (by simp)
    refine ⟨pos + byteLen v + 1, ?_⟩
    show lexRun strict .paramValue (v ++ ';' :: rest) pos = _
    rw [lexRun_paramValue_semi strict v rest pos hv.2]
    rw [show emitAdvanced ItemType.paramValue v = [⟨ItemType.paramValue, v⟩]
      from by simp [emitAdvanced, hv.1]]
    rfl
  | v :: v2 :: vs, rest, pos, _, h => by
    have hv := h v (by simp)
    obtain ⟨pos2, ih⟩ := lexRun_paramValues_semi strict (v2 :: vs) rest
      (pos + byteLen v + 1) (by simp) (fun w hw => h w (by simp [hw]))
    refine ⟨pos2, ?_⟩
    show lexRun strict .paramValue
      ((v ++ ',' :: joinComma (v2 :: vs)) ++ ';' :: rest) pos = _
    rw [List.append_assoc]
    rw [show (',' :: joinComma (v2 :: vs)) ++ ';' :: rest =
      ',' :: (joinComma (v2 :: vs) ++ ';' :: rest) from rfl]
    rw [lexRun_paramValue_comma strict v _ pos hv.2]
    rw [ih]
    rw [show emitAdvanced ItemType.paramValue v = [⟨ItemType.paramValue, v⟩]
      from by simp [emitAdvanced, hv.1]]
    rfl

theorem lexRun_paramChain (strict : Bool) :
    ∀ (qs : Params) (q : List Char × List (List Char)) (rest : List Char)
      (pos : Nat), ParamOk q → (∀ r ∈ qs, ParamOk r) →
      ∃ pos2, lexRun strict .paramName
          ((q.1 ++ '=' :: joinComma q.2) ++ (serParams qs ++ ':' :: rest))
          pos =
        paramTokens q ++ (qs.flatMap paramTokens ++
          lexRun strict .value rest pos2)
  | [], q, rest, pos, hq, _ => by
    obtain ⟨hk0, hk, hv0, hvs⟩ := hq
    obtain ⟨pos2, hvals⟩ := lexRun_paramValues_colon strict q.2 rest
      (pos + byteLen q.1 + 1) hv0 hvs
    refine ⟨pos2, ?_⟩
    rw [show (q.1 ++ '=' :: joinComma q.2) ++ (serParams [] ++ ':' :: rest) =
      q.1 ++ '=' :: (joinComma q.2 ++ ':' :: rest) from by
        simp [serParams, List.append_assoc]]
    rw [lexRun_paramName_eq strict q.1 _ pos hk]
    rw [hvals]
    rw [show emitAdvanced ItemType.paramName q.1 = [⟨ItemType.paramName, q.1⟩]
      from by simp [emitAdvanced, hk0]]
    simp [paramTokens]
  | q2 :: qs, q, rest, pos, hq, hqs => by
    obtain ⟨hk0, hk, hv0, hvs⟩ := hq
    obtain ⟨posA, hvals⟩ := lexRun_paramValues_semi strict q.2
      ((q2.1 ++ '=' :: joinComma q2.2) ++ (serParams qs ++ ':' :: rest))
      (pos + byteLen q.1 + 1) hv0 hvs
    obtain ⟨pos2, ih⟩ := lexRun_paramChain strict qs q2 rest posA
      (hqs q2 (by simp)) (fun r hr => hqs r (by simp [hr]))
    refine ⟨pos2, ?_⟩
    rw [show (q.1 ++ '=' :: joinComma q.2) ++
        (serParams (q2 :: qs) ++ ':' :: rest) =
      q.1 ++ '=' :: (joinComma q.2 ++ ';' ::
        ((q2.1 ++ '=' :: joinComma q2.2) ++ (serParams qs ++ ':' :: rest)))
      from by
        simp [serParams, List.flatMap_cons, List.append_assoc]]
    rw [lexRun_paramName_eq strict q.1 _ pos hk]
    rw [hvals]
    rw [ih]
    rw [show emitAdvanced ItemType.paramName q.1 = [⟨ItemType.paramName, q.1⟩]
      from by simp [emitAdvanced, hk0]]
    simp [paramTokens, List.flatMap_cons, List.append_assoc]

/-- One raw property line, followed by a line break, lexes to its name,
parameter and value tokens and returns to the newLine state. -/
theorem lexRun_propertyLine (strict : Bool) (p : Property) (tail : List Char)
    (pos : Nat) (h : PropOk p) :
    ∃ pos2, lexRun strict .contentLine
        (serializeProperty p ++ '\r' :: '\n' :: tail) pos =
      propTokens p ++ lexRun strict .newLine ('\r' :: '\n' :: tail) pos2 := by
  obtain ⟨hn0, hn, hv, hq, hnd, hm⟩ := h
  have hname : emitAdvanced ItemType.name p.name = [⟨ItemType.name, p.name⟩] :=
    by simp [emitAdvanced, hn0]
  cases hps : sortParams p.params with
  | nil =>
    have hpnil : p.params = [] := by
      have hlen := (sortParams_perm p.params).length_eq
      rw [hps] at hlen
      exact List.length_eq_zero.mp hlen.symm
    have hshape : serializeProperty p ++ '\r' :: '\n' :: tail =
        p.name ++ ':' :: (p.value ++ '\r' :: '\n' :: tail) := by
      rw [serializeProperty_eq, hps]
      simp [serParams, List.append_assoc]
    have hdispatch : lexRun strict .contentLine
        (p.name ++ ':' :: (p.value ++ '\r' :: '\n' :: tail)) pos =
        lexRun strict .name
          (p.name ++ ':' :: (p.value ++ '\r' :: '\n' :: tail)) pos := by
      rcases hm hpnil with hV | ⟨hB, hE⟩
      · refine lexRun_contentLine_name strict p.name ':' _ pos hn (by decide)
          (fun _ => ?_)
        cases hval : p.value with
        | nil => simp
        | cons a l =>
          have : a ≠ 'V' := by
            intro hA
            apply hV
            rw [hval, hA]
            rfl
          simp [this]
      · exact lexRun_contentLine_name2 strict p.name ':' _ pos hn (by decide)
          hB hE
    refine ⟨pos + byteLen p.name + 1 + byteLen p.value, ?_⟩
    rw [hshape, hdispatch,
      lexRun_name_colon strict p.name _ pos hn, hname,
      lexRun_valueLine strict p.value tail _ hv]
    simp [propTokens, hps]
  | cons q2 qs2 =>
    have hmem : ∀ r ∈ q2 :: qs2, ParamOk r := by
      intro r hr
      apply hq
      apply (sortParams_perm p.params).mem_iff.mp
      rw [hps]
      exact hr
    have hshape : serializeProperty p ++ '\r' :: '\n' :: tail =
        p.name ++ ';' ::
          ((q2.1 ++ '=' :: joinComma q2.2) ++
            (serParams qs2 ++ ':' :: (p.value ++ '\r' :: '\n' :: tail))) := by
      rw [serializeProperty_eq, hps]
      simp [serParams, List.flatMap_cons, List.append_assoc]
    obtain ⟨posA, hchain⟩ := lexRun_paramChain strict qs2 q2
      (p.value ++ '\r' :: '\n' :: tail) (pos + byteLen p.name + 1)
      (hmem q2 (by simp)) (fun r hr => hmem r (by simp [hr]))
    refine ⟨posA + byteLen p.value, ?_⟩
    rw [hshape,
      lexRun_contentLine_name strict p.name ';' _ pos hn (by decide)
        (fun hc => absurd hc (by decide)),
      lexRun_name_semi strict p.name _ pos hn, hname,
      hchain,
      lexRun_valueLine strict p.value tail posA hv]
    simp [propTokens, hps, List.flatMap_cons, List.append_assoc]

theorem rawProps_shape (ps : List Property) (Z : List Char)
    (h : ∃ X, Z = '\r' :: '\n' :: X) :
    ∃ Y, rawProps ps ++ Z = '\r' :: '\n' :: Y := by
  cases ps with
  | nil =>
    obtain ⟨X, hX⟩ := h
    exact ⟨X, by simp [rawProps, hX]⟩
  | cons p ps =>
    exact ⟨serializeProperty p ++ (rawProps ps ++ Z),
      by simp [rawProps, List.flatMap_cons, List.append_assoc]⟩

theorem rawAlarms_shape (as : List Alarm) (Z : List Char)
    (h : ∃ X, Z = '\r' :: '\n' :: X) :
    ∃ Y, rawAlarms as ++ Z = '\r' :: '\n' :: Y := by
  cases as with
  | nil =>
    obtain ⟨X, hX⟩ := h
    exact ⟨X, by simp [rawAlarms, hX]⟩
  | cons a as =>
    refine ⟨'B' :: (chars "EGIN:VALARM" ++
      (rawProps a.properties ++ ('\r' :: '\n' :: 'E' :: chars "ND:VALARM"))) ++
        (rawAlarms as ++ Z), ?_⟩
    simp [rawAlarms, rawAlarm, List.flatMap_cons, List.append_assoc]

theorem rawEvents_shape (es : List Event) (Z : List Char)
    (h : ∃ X, Z = '\r' :: '\n' :: X) :
    ∃ Y, rawEvents es ++ Z = '\r' :: '\n' :: Y := by
  cases es with
  | nil =>
    obtain ⟨X, hX⟩ := h
    exact ⟨X, by simp [rawEvents, hX]⟩
  | cons e es =>
    refine ⟨'B' :: (chars "EGIN:VEVENT" ++
      (rawProps e.properties ++ (rawAlarms e.alarms ++
        ('\r' :: '\n' :: 'E' :: chars "ND:VEVENT")))) ++
        (rawEvents es ++ Z), ?_⟩
    simp [rawEvents, rawEvent, List.flatMap_cons, List.append_assoc]

theorem lexRawProps (strict : Bool) :
    ∀ (ps : List Property) (tail : List Char) (pos : Nat),
      (∀ p ∈ ps, PropOk p) → (∃ X, tail = '\r' :: '\n' :: X) →
      ∃ pos2, lexRun strict .newLine (rawProps ps ++ tail) pos =
        ps.flatMap propTokens ++ lexRun strict .newLine tail pos2
  | [], tail, pos, _, _ => ⟨pos, by simp [rawProps]⟩
  | p :: ps, tail, pos, h, htail => by
    obtain ⟨n0, nm, hn⟩ : ∃ n0 nm, p.name = n0 :: nm := by
      cases hcase : p.name with
      | nil => exact absurd hcase (h p (by simp)).1
      | cons a b => exact ⟨a, b, rfl⟩
    have hlhead := serializeProperty_eq p
    rw [hn] at hlhead
    obtain ⟨Y, hY⟩ := rawProps_shape ps tail htail
    obtain ⟨pos2, hline⟩ := lexRun_propertyLine strict p Y (pos + 2)
      (h p (by simp))
    obtain ⟨pos3, ih⟩ := lexRawProps strict ps tail pos2
      (fun x hx => h x (by simp [hx])) htail
    refine ⟨pos3, ?_⟩
    rw [show rawProps (p :: ps) ++ tail =
      '\r' :: '\n' :: (serializeProperty p ++ (rawProps ps ++ tail)) from by
        simp [rawProps, List.flatMap_cons, List.append_assoc]]
    rw [show serializeProperty p ++ (rawProps ps ++ tail) =
      n0 :: ((nm ++ (serParams (sortParams p.params) ++ ':' :: p.value)) ++
        (rawProps ps ++ tail)) from by
        rw [hlhead]
        simp [List.append_assoc]]
    rw [lexRun_newLine_crlf strict n0 _ pos]
    rw [show n0 :: ((nm ++ (serParams (sortParams p.params) ++
        ':' :: p.value)) ++ (rawProps ps ++ tail)) =
      serializeProperty p ++ (rawProps ps ++ tail) from by
        rw [hlhead]
        simp [List.append_assoc]]
    rw [hY, hline, ← hY, ih]
    simp [List.flatMap_cons, List.append_assoc]

theorem lexRawAlarms (strict : Bool) :
    ∀ (as : List Alarm) (tail : List Char) (pos : Nat),
      (∀ a ∈ as, ∀ p ∈ a.properties, PropOk p) →
      (∃ X, tail = '\r' :: '\n' :: X) →
      ∃ pos2, lexRun strict .newLine (rawAlarms as ++ tail) pos =
        as.flatMap alarmTokens ++ lexRun strict .newLine tail pos2
  | [], tail, pos, _, _ => ⟨pos, by simp [rawAlarms]⟩
  | a :: as, tail, pos, h, htail => by
    obtain ⟨posA, hprops⟩ := lexRawProps strict a.properties
      ('\r' :: '\n' :: 'E' :: (chars "ND:VALARM" ++ (rawAlarms as ++ tail)))
      (pos + 2 + 12) (h a (by simp)) ⟨_, rfl⟩
    obtain ⟨pos3, ih⟩ := lexRawAlarms strict as tail (posA + 2 + 10)
      (fun x hx => h x (by simp [hx])) htail
    refine ⟨pos3, ?_⟩
    rw [show rawAlarms (a :: as) ++ tail =
      '\r' :: '\n' :: 'B' :: (chars "EGIN:VALARM" ++
        (rawProps a.properties ++ ('\r' :: '\n' :: 'E' ::
          (chars "ND:VALARM" ++ (rawAlarms as ++ tail))))) from by
        simp [rawAlarms, rawAlarm, List.flatMap_cons, List.append_assoc]]
    rw [lexRun_newLine_crlf strict 'B' _ pos]
    rw [show 'B' :: (chars "EGIN:VALARM" ++
        (rawProps a.properties ++ ('\r' :: '\n' :: 'E' ::
          (chars "ND:VALARM" ++ (rawAlarms as ++ tail))))) =
      beginVAlarmChars ++
        (rawProps a.properties ++ ('\r' :: '\n' :: 'E' ::
          (chars "ND:VALARM" ++ (rawAlarms as ++ tail)))) from rfl]
    rw [lexRun_marker_beginAlarm strict _ (pos + 2)]
    rw [hprops]
    rw [lexRun_newLine_crlf strict 'E' _ posA]
    rw [show 'E' :: (chars "ND:VALARM" ++ (rawAlarms as ++ tail)) =
      endVAlarmChars ++ (rawAlarms as ++ tail) from rfl]
    rw [lexRun_marker_endAlarm strict _ (posA + 2)]
    rw [ih]
    simp [alarmTokens, List.flatMap_cons, List.append_assoc]

theorem lexRawEvents (strict : Bool) :
    ∀ (es : List Event) (tail : List Char) (pos : Nat),
      (∀ e ∈ es, (∀ p ∈ e.properties, PropOk p) ∧
        (∀ a ∈ e.alarms, ∀ p ∈ a.properties, PropOk p)) →
      (∃ X, tail = '\r' :: '\n' :: X) →
      ∃ pos2, lexRun strict .newLine (rawEvents es ++ tail) pos =
        es.flatMap eventTokens ++ lexRun strict .newLine tail pos2
  | [], tail, pos, _, _ => ⟨pos, by simp [rawEvents]⟩
  | e :: es, tail, pos, h, htail => by
    obtain ⟨YA, hYA⟩ := rawAlarms_shape e.alarms
      ('\r' :: '\n' :: 'E' :: (chars "ND:VEVENT" ++ (rawEvents es ++ tail)))
      ⟨_, rfl⟩
    obtain ⟨posA, hprops⟩ := lexRawProps strict e.properties
      (rawAlarms e.alarms ++ ('\r' :: '\n' :: 'E' ::
        (chars "ND:VEVENT" ++ (rawEvents es ++ tail))))
      (pos + 2 + 12) (h e (by simp)).1 ⟨YA, hYA⟩
    obtain ⟨posB, halarms⟩ := lexRawAlarms strict e.alarms
      ('\r' :: '\n' :: 'E' :: (chars "ND:VEVENT" ++ (rawEvents es ++ tail)))
      posA (h e (by simp)).2 ⟨_, rfl⟩
    obtain ⟨pos3, ih⟩ := lexRawEvents strict es tail (posB + 2 + 10)
      (fun x hx => h x (by simp [hx])) htail
    refine ⟨pos3, ?_⟩
    rw [show rawEvents (e :: es) ++ tail =
      '\r' :: '\n' :: 'B' :: (chars "EGIN:VEVENT" ++
        (rawProps e.properties ++ (rawAlarms e.alarms ++
          ('\r' :: '\n' :: 'E' ::
            (chars "ND:VEVENT" ++ (rawEvents es ++ tail)))))) from by
        simp [rawEvents, rawEvent, List.flatMap_cons, List.append_assoc]]
    rw [lexRun_newLine_crlf strict 'B' _ pos]
    rw [show 'B' :: (chars "EGIN:VEVENT" ++
        (rawProps e.properties ++ (rawAlarms e.alarms ++
          ('\r' :: '\n' :: 'E' ::
            (chars "ND:VEVENT" ++ (rawEvents es ++ tail)))))) =
      beginVEventChars ++
        (rawProps e.properties ++ (rawAlarms e.alarms ++
          ('\r' :: '\n' :: 'E' ::
            (chars "ND:VEVENT" ++ (rawEvents es ++ tail))))) from rfl]
    rw [lexRun_marker_beginEvent strict _ (pos + 2)]
    rw [hprops]
    rw [halarms]
    rw [lexRun_newLine_crlf strict 'E' _ posB]
    rw [show 'E' :: (chars "ND:VEVENT" ++ (rawEvents es ++ tail)) =
      endVEventChars ++ (rawEvents es ++ tail) from rfl]
    rw [lexRun_marker_endEvent strict _ (posB + 2)]
    rw [ih]
    simp [eventTokens, List.flatMap_cons, List.append_assoc]

/-- The encoded calendar lexes (in either line-break mode) to the expected
token stream. -/
theorem lex_encodeCalendar (strict : Bool) (c : Calendar)
    (hp : ∀ p ∈ c.properties, PropOk p)
    (he : ∀ e ∈ c.events, (∀ p ∈ e.properties, PropOk p) ∧
      (∀ a ∈ e.alarms, ∀ p ∈ a.properties, PropOk p)) :
    lexDocument strict (encodeCalendar c) = calTokens c := by
  rw [lexDocument_eq_lexRun, unfold_encodeCalendar c hp he]
  obtain ⟨YE, hYE⟩ := rawEvents_shape c.events
    ('\r' :: '\n' :: 'E' :: chars "ND:VCALENDAR") ⟨_, rfl⟩
  obtain ⟨posA, hprops⟩ := lexRawProps strict c.properties
    (rawEvents c.events ++ ('\r' :: '\n' :: 'E' :: chars "ND:VCALENDAR"))
    15 hp ⟨YE, hYE⟩
  obtain ⟨posB, hevents⟩ := lexRawEvents strict c.events
    ('\r' :: '\n' :: 'E' :: chars "ND:VCALENDAR") posA he ⟨_, rfl⟩
  rw [show rawDoc c = beginVCalendarChars ++
    (rawProps c.properties ++ (rawEvents c.events ++
      ('\r' :: '\n' :: 'E' :: chars "ND:VCALENDAR"))) from rfl]
  rw [lexRun_marker_beginCal strict _ 0]
  rw [hprops, hevents]
  rw [lexRun_newLine_crlf strict 'E' _ posB]
  rw [show 'E' :: chars "ND:VCALENDAR" = endVCalendarChars ++ [] from by decide]
  rw [lexRun_marker_endCal strict [] (posB + 2)]
  rw [lexRun_newLine_nil]
  simp [calTokens, List.append_assoc]


/-! ### C1: the parser rebuilds each property from its token group -/

theorem takeParamValues_tokens :
    ∀ (vs : List (List Char)) (i : Item) (rest : List Item),
      i.type ≠ ItemType.paramValue →
      takeParamValues (vs.map (fun v => (⟨ItemType.paramValue, v⟩ : Item)) ++
        i :: rest) = .ok (vs, i :: rest)
  | [], i, rest, h => by
    show takeParamValues (i :: rest) = .ok ([], i :: rest)
    rw [takeParamValues, if_neg h]
  | v :: vs, i, rest, h => by
    have ih := takeParamValues_tokens vs i rest h
    show takeParamValues ((⟨ItemType.paramValue, v⟩ : Item) ::
      (vs.map (fun v => (⟨ItemType.paramValue, v⟩ : Item)) ++ i :: rest)) = _
    rw [takeParamValues, if_pos rfl, ih]

theorem foldl_set_fresh :
    ∀ (qs acc : Params), (qs.map Prod.fst).Nodup →
      (∀ k ∈ qs.map Prod.fst, k ∉ acc.map Prod.fst) →
      qs.foldl (fun (a : Params) q => a.set q.1 q.2) acc = acc ++ qs
  | [], acc, _, _ => by simp
  | q :: qs, acc, hnd, hdisj => by
    simp only [List.map_cons, List.nodup_cons] at hnd
    rw [List.foldl_cons]
    rw [show Params.set acc q.1 q.2 = acc ++ [(q.1, q.2)] from
      set_fresh acc q.1 q.2 (hdisj q.1 (by simp))]
    have hdisj2 : ∀ k ∈ qs.map Prod.fst,
        k ∉ (acc ++ [(q.1, q.2)]).map Prod.fst := by
      intro k hk
      simp only [List.map_append, List.mem_append, List.map_cons,
        List.map_nil, List.mem_singleton]
      rintro (hka | hkq)
      · exact hdisj k (by simp [hk]) hka
      · simp only [hkq] at hk
        exact hnd.1 hk
    rw [foldl_set_fresh qs (acc ++ [(q.1, q.2)]) hnd.2 hdisj2]
    simp

theorem parseParams_tokens :
    ∀ (qs : Params) (fuel : Nat) (acc : Params) (v : List Char)
      (rest : List Item), qs.length < fuel →
      parseParams fuel (qs.flatMap paramTokens ++
        ⟨ItemType.value, v⟩ :: rest) acc =
      .ok (qs.foldl (fun (a : Params) q => a.set q.1 q.2) acc,
        ⟨ItemType.value, v⟩ :: rest)
  | [], fuel, acc, v, rest, hf => by
    obtain ⟨f, rfl⟩ : ∃ f, fuel = f + 1 := ⟨fuel - 1, by omega⟩
    show parseParams (f + 1) (⟨ItemType.value, v⟩ :: rest) acc = _
    rw [parseParams, if_pos (by simp)]
    rfl
  | q :: qs, fuel, acc, v, rest, hf => by
    obtain ⟨f, rfl⟩ : ∃ f, fuel = f + 1 := ⟨fuel - 1, by omega⟩
    have hfollow : ∃ j rest2,
        qs.flatMap paramTokens ++ ⟨ItemType.value, v⟩ :: rest = j :: rest2 ∧
        j.type ≠ ItemType.paramValue := by
      cases qs with
      | nil => exact ⟨⟨ItemType.value, v⟩, rest, by simp, by simp⟩
      | cons q2 qs2 =>
        refine ⟨⟨ItemType.paramName, q2.1⟩,
          q2.2.map (fun w => (⟨ItemType.paramValue, w⟩ : Item)) ++
            (qs2.flatMap paramTokens ++ ⟨ItemType.value, v⟩ :: rest), ?_,
          by simp⟩
        simp [paramTokens, List.flatMap_cons, List.append_assoc]
    obtain ⟨j, rest2, hjr, hjt⟩ := hfollow
    have ih := parseParams_tokens qs f (Params.set acc q.1 q.2) v rest
      (by simp at hf; omega)
    rw [show (q :: qs).flatMap paramTokens ++ ⟨ItemType.value, v⟩ :: rest =
      ⟨ItemType.paramName, q.1⟩ ::
        (q.2.map (fun w => (⟨ItemType.paramValue, w⟩ : Item)) ++
          (qs.flatMap paramTokens ++ ⟨ItemType.value, v⟩ :: rest)) from by
        simp [paramTokens, List.flatMap_cons, List.append_assoc]]
    rw [parseParams, if_neg (by simp)]
    rw [hjr, takeParamValues_tokens q.2 j rest2 hjt]
    show parseParams f (j :: rest2) (Params.set acc q.1 q.2) = _
    rw [← hjr, ih, List.foldl_cons]

theorem flatMap_length_ge {α β : Type} (f : α → List β) :
    ∀ l : List α, (∀ x ∈ l, 1 ≤ (f x).length) →
      l.length ≤ (l.flatMap f).length
  | [], _ => by simp
  | x :: l, h => by
    rw [List.flatMap_cons, List.length_append, List.length_cons]
    have h1 := h x (by simp)
    have h2 := flatMap_length_ge f l (fun y hy => h y (by simp [hy]))
    omega

theorem paramTokens_length_ge (q : List Char × List (List Char)) :
    1 ≤ (paramTokens q).length := by
  simp [paramTokens]

theorem propTokens_length_ge (p : Property) : 1 ≤ (propTokens p).length := by
  simp [propTokens]

theorem parseProperty_tokens (p : Property) (rest : List Item)
    (hnd : (p.params.map Prod.fst).Nodup) :
    parseProperty (propTokens p ++ rest) = .ok (sortPropParams p, rest) := by
  have hsnd : ((sortParams p.params).map Prod.fst).Nodup :=
    sortParams_keys_nodup p.params hnd
  have hpt : propTokens p ++ rest = ⟨ItemType.name, p.name⟩ ::
      ((sortParams p.params).flatMap paramTokens ++
        ⟨ItemType.value, p.value⟩ :: rest) := by
    simp [propTokens, List.append_assoc]
  cases hps : sortParams p.params with
  | nil =>
    rw [hpt, hps]
    show parseProperty (⟨ItemType.name, p.name⟩ ::
      ⟨ItemType.value, p.value⟩ :: rest) = _
    rw [parseProperty, if_neg (by simp)]
    rw [show sortPropParams p =
      ⟨p.name, sortParams p.params, p.value⟩ from rfl, hps]
    rfl
  | cons q2 qs2 =>
    rw [hps] at hsnd
    rw [hpt, hps]
    have hflen : (q2 :: qs2).length ≤
        ((q2 :: qs2).flatMap paramTokens).length :=
      flatMap_length_ge paramTokens (q2 :: qs2)
        (fun q _ => paramTokens_length_ge q)
    have htok : (q2 :: qs2).flatMap paramTokens ++
        ⟨ItemType.value, p.value⟩ :: rest =
      ⟨ItemType.paramName, q2.1⟩ ::
        (q2.2.map (fun w => (⟨ItemType.paramValue, w⟩ : Item)) ++
          (qs2.flatMap paramTokens ++ ⟨ItemType.value, p.value⟩ :: rest)) := by
      simp [paramTokens, List.flatMap_cons, List.append_assoc]
    rw [htok]
    rw [parseProperty, if_neg (by simp)]
    rw [if_pos rfl]
    rw [show (⟨ItemType.paramName, q2.1⟩ : Item) ::
        (q2.2.map (fun w => (⟨ItemType.paramValue, w⟩ : Item)) ++
          (qs2.flatMap paramTokens ++ ⟨ItemType.value, p.value⟩ :: rest)) =
      (q2 :: qs2).flatMap paramTokens ++
        ⟨ItemType.value, p.value⟩ :: rest from (htok).symm]
    rw [parseParams_tokens (q2 :: qs2) _ [] p.value rest
      (by
        have h1 := hflen
        rw [List.length_append]
        simp only [List.length_cons] at h1 ⊢
        omega)]
    rw [foldl_set_fresh (q2 :: qs2) [] hsnd (by simp)]
    rw [show sortPropParams p =
      ⟨p.name, sortParams p.params, p.value⟩ from rfl, hps]
    rfl


/-! ### C1: alarms and events rebuilt from their token groups -/

/-- The alarm the parser rebuilds from an alarm block whose properties were
re-read with sorted parameters: trigger and action recomputed by the fold of
parser.parseAlarm. -/
def reAlarm (a : Alarm) : Alarm :=
  let props := a.properties.map sortPropParams
  props.foldl
    (fun (al : Alarm) p =>
      if p.name = chars "TRIGGER" then { al with trigger := p.value }
      else if p.name = chars "ACTION" then { al with action := p.value }
      else al)
    ⟨props, [], []⟩

theorem alarmFold_properties :
    ∀ (ps : List Property) (init : Alarm),
      (ps.foldl (fun (al : Alarm) p =>
        if p.name = chars "TRIGGER" then { al with trigger := p.value }
        else if p.name = chars "ACTION" then { al with action := p.value }
        else al) init).properties = init.properties
  | [], init => rfl
  | p :: ps, init => by
    rw [List.foldl_cons]
    rw [alarmFold_properties ps _]
    split_ifs <;> rfl

theorem reAlarm_properties (a : Alarm) :
    (reAlarm a).properties = a.properties.map sortPropParams := by
  rw [show reAlarm a = (a.properties.map sortPropParams).foldl
    (fun (al : Alarm) p =>
      if p.name = chars "TRIGGER" then { al with trigger := p.value }
      else if p.name = chars "ACTION" then { al with action := p.value }
      else al)
    ⟨a.properties.map sortPropParams, [], []⟩ from rfl]
  rw [alarmFold_properties]

theorem parseAlarmProps_tokens :
    ∀ (ps : List Property) (fuel : Nat) (acc : List Property)
      (rest : List Item), ps.length < fuel →
      (∀ p ∈ ps, (p.params.map Prod.fst).Nodup) →
      parseAlarmProps fuel (ps.flatMap propTokens ++
        ⟨ItemType.alarmEnd, endVAlarmChars⟩ :: rest) acc =
      .ok (acc ++ ps.map sortPropParams, rest)
  | [], fuel, acc, rest, hf, _ => by
    obtain ⟨f, rfl⟩ : ∃ f, fuel = f + 1 := ⟨fuel - 1, by omega⟩
    show parseAlarmProps (f + 1)
      (⟨ItemType.alarmEnd, endVAlarmChars⟩ :: rest) acc = _
    rw [parseAlarmProps, if_pos rfl]
    simp
  | p :: ps, fuel, acc, rest, hf, hnd => by
    obtain ⟨f, rfl⟩ : ∃ f, fuel = f + 1 := ⟨fuel - 1, by omega⟩
    rw [show (p :: ps).flatMap propTokens ++
        ⟨ItemType.alarmEnd, endVAlarmChars⟩ :: rest =
      ⟨ItemType.name, p.name⟩ ::
        (((sortParams p.params).flatMap paramTokens ++
          ⟨ItemType.value, p.value⟩ :: []) ++
          (ps.flatMap propTokens ++
            ⟨ItemType.alarmEnd, endVAlarmChars⟩ :: rest)) from by
      simp [propTokens, List.flatMap_cons, List.append_assoc]]
    rw [parseAlarmProps, if_neg (by simp), if_neg (by simp)]
    rw [show (⟨ItemType.name, p.name⟩ : Item) ::
        (((sortParams p.params).flatMap paramTokens ++
          ⟨ItemType.value, p.value⟩ :: []) ++
          (ps.flatMap propTokens ++
            ⟨ItemType.alarmEnd, endVAlarmChars⟩ :: rest)) =
      propTokens p ++ (ps.flatMap propTokens ++
        ⟨ItemType.alarmEnd, endVAlarmChars⟩ :: rest) from by
      simp [propTokens, List.append_assoc]]
    rw [parseProperty_tokens p _ (hnd p (by simp))]
    show parseAlarmProps f (ps.flatMap propTokens ++
      ⟨ItemType.alarmEnd, endVAlarmChars⟩ :: rest) (acc ++ [sortPropParams p]) = _
    rw [parseAlarmProps_tokens ps f (acc ++ [sortPropParams p]) rest
      (by simp at hf; omega) (fun x hx => hnd x (by simp [hx]))]
    simp

theorem parseAlarm_tokens (a : Alarm) (rest : List Item)
    (hnd : ∀ p ∈ a.properties, (p.params.map Prod.fst).Nodup) :
    parseAlarm (alarmTokens a ++ rest) = .ok (reAlarm a, rest) := by
  have hflen : a.properties.length ≤
      (a.properties.flatMap propTokens).length :=
    flatMap_length_ge propTokens a.properties
      (fun p _ => propTokens_length_ge p)
  rw [show alarmTokens a ++ rest =
    ⟨ItemType.alarmBegin, beginVAlarmChars⟩ ::
      (a.properties.flatMap propTokens ++
        ⟨ItemType.alarmEnd, endVAlarmChars⟩ :: rest) from by
    simp [alarmTokens, List.append_assoc]]
  rw [parseAlarm, if_neg (by simp)]
  rw [parseAlarmProps_tokens a.properties _ [] rest
    (by
      rw [List.length_append]
      simp only [List.length_cons]
      omega)
    hnd]
  rfl

/-- The initial event the parser derives fields into, for a re-read event
block: re-read properties and re-read alarms. -/
def reEventInit (e : Event) : Event :=
  { emptyEvent with
    properties := e.properties.map sortPropParams
    alarms := e.alarms.map reAlarm }

theorem parseEventBody_alarms :
    ∀ (as : List Alarm) (fuel : Nat) (props : List Property)
      (alarms : List Alarm) (rest : List Item), as.length < fuel →
      (∀ a ∈ as, ∀ p ∈ a.properties, (p.params.map Prod.fst).Nodup) →
      parseEventBody fuel (as.flatMap alarmTokens ++
        ⟨ItemType.eventEnd, endVEventChars⟩ :: rest) props alarms =
      .ok (props, alarms ++ as.map reAlarm, rest)
  | [], fuel, props, alarms, rest, hf, _ => by
    obtain ⟨f, rfl⟩ : ∃ f, fuel = f + 1 := ⟨fuel - 1, by omega⟩
    show parseEventBody (f + 1)
      (⟨ItemType.eventEnd, endVEventChars⟩ :: rest) props alarms = _
    rw [parseEventBody, if_pos rfl]
    simp
  | a :: as, fuel, props, alarms, rest, hf, hnd => by
    obtain ⟨f, rfl⟩ : ∃ f, fuel = f + 1 := ⟨fuel - 1, by omega⟩
    rw [show (a :: as).flatMap alarmTokens ++
        ⟨ItemType.eventEnd, endVEventChars⟩ :: rest =
      ⟨ItemType.alarmBegin, beginVAlarmChars⟩ ::
        ((a.properties.flatMap propTokens ++
          ⟨ItemType.alarmEnd, endVAlarmChars⟩ :: []) ++
          (as.flatMap alarmTokens ++
            ⟨ItemType.eventEnd, endVEventChars⟩ :: rest)) from by
      simp [alarmTokens, List.flatMap_cons, List.append_assoc]]
    rw [parseEventBody, if_neg (by simp), if_pos rfl]
    rw [show (⟨ItemType.alarmBegin, beginVAlarmChars⟩ : Item) ::
        ((a.properties.flatMap propTokens ++
          ⟨ItemType.alarmEnd, endVAlarmChars⟩ :: []) ++
          (as.flatMap alarmTokens ++
            ⟨ItemType.eventEnd, endVEventChars⟩ :: rest)) =
      alarmTokens a ++ (as.flatMap alarmTokens ++
        ⟨ItemType.eventEnd, endVEventChars⟩ :: rest) from by
      simp [alarmTokens, List.append_assoc]]
    rw [parseAlarm_tokens a _ (hnd a (by simp))]
    show parseEventBody f (as.flatMap alarmTokens ++
      ⟨ItemType.eventEnd, endVEventChars⟩ :: rest) props
      (alarms ++ [reAlarm a]) = _
    rw [parseEventBody_alarms as f props (alarms ++ [reAlarm a]) rest
      (by simp at hf; omega) (fun x hx => hnd x (by simp [hx]))]
    simp

theorem parseEventBody_tokens :
    ∀ (ps : List Property) (as : List Alarm) (fuel : Nat)
      (props : List Property) (alarms : List Alarm) (rest : List Item),
      ps.length + as.length < fuel →
      (∀ p ∈ ps, (p.params.map Prod.fst).Nodup) →
      (∀ a ∈ as, ∀ p ∈ a.properties, (p.params.map Prod.fst).Nodup) →
      parseEventBody fuel (ps.flatMap propTokens ++
        (as.flatMap alarmTokens ++
          ⟨ItemType.eventEnd, endVEventChars⟩ :: rest)) props alarms =
      .ok (props ++ ps.map sortPropParams, alarms ++ as.map reAlarm, rest)
  | [], as, fuel, props, alarms, rest, hf, _, hnd2 => by
    rw [show ([] : List Property).flatMap propTokens ++
      (as.flatMap alarmTokens ++
        ⟨ItemType.eventEnd, endVEventChars⟩ :: rest) =
      as.flatMap alarmTokens ++
        ⟨ItemType.eventEnd, endVEventChars⟩ :: rest from by simp]
    rw [parseEventBody_alarms as fuel props alarms rest (by simpa using hf)
      hnd2]
    simp
  | p :: ps, as, fuel, props, alarms, rest, hf, hnd, hnd2 => by
    obtain ⟨f, rfl⟩ : ∃ f, fuel = f + 1 := ⟨fuel - 1, by omega⟩
    rw [show (p :: ps).flatMap propTokens ++
        (as.flatMap alarmTokens ++
          ⟨ItemType.eventEnd, endVEventChars⟩ :: rest) =
      ⟨ItemType.name, p.name⟩ ::
        (((sortParams p.params).flatMap paramTokens ++
          ⟨ItemType.value, p.value⟩ :: []) ++
          (ps.flatMap propTokens ++
            (as.flatMap alarmTokens ++
              ⟨ItemType.eventEnd, endVEventChars⟩ :: rest))) from by
      simp [propTokens, List.flatMap_cons, List.append_assoc]]
    rw [parseEventBody, if_neg (by simp), if_neg (by simp), if_neg (by simp)]
    rw [show (⟨ItemType.name, p.name⟩ : Item) ::
        (((sortParams p.params).flatMap paramTokens ++
          ⟨ItemType.value, p.value⟩ :: []) ++
          (ps.flatMap propTokens ++
            (as.flatMap alarmTokens ++
              ⟨ItemType.eventEnd, endVEventChars⟩ :: rest))) =
      propTokens p ++ (ps.flatMap propTokens ++
        (as.flatMap alarmTokens ++
          ⟨ItemType.eventEnd, endVEventChars⟩ :: rest)) from by
      simp [propTokens, List.append_assoc]]
    rw [parseProperty_tokens p _ (hnd p (by simp))]
    show parseEventBody f (ps.flatMap propTokens ++
      (as.flatMap alarmTokens ++
        ⟨ItemType.eventEnd, endVEventChars⟩ :: rest))
      (props ++ [sortPropParams p]) alarms = _
    rw [parseEventBody_tokens ps as f (props ++ [sortPropParams p]) alarms
      rest (by simp at hf; omega) (fun x hx => hnd x (by simp [hx])) hnd2]
    simp


/-! ### C1: field derivation and finalization keep the raw lists -/

theorem deriveEventFields_fields :
    ∀ (cfg : ParserConfig) (ps : List Property) (evt evt2 : Event),
      deriveEventFields cfg ps evt = .ok evt2 →
      evt2.properties = evt.properties ∧ evt2.alarms = evt.alarms
  | cfg, [], evt, evt2, h => by
    simp only [deriveEventFields, Except.ok.injEq] at h
    subst h
    exact ⟨rfl, rfl⟩
  | cfg, p :: ps, evt, evt2, h => by
    rw [deriveEventFields] at h
    split at h
    · exact absurd h (by simp)
    · next evt3 heq =>
      have hrec := deriveEventFields_fields cfg ps evt3 evt2 h
      have hfields : evt3.properties = evt.properties ∧
          evt3.alarms = evt.alarms := by
        clear hrec h
        repeat' split at heq
        all_goals
          first
            | (simp only [Except.ok.injEq] at heq
               subst heq
               exact ⟨rfl, rfl⟩)
            | simp at heq
      exact ⟨hrec.1.trans hfields.1, hrec.2.trans hfields.2⟩

theorem applyDuration_fields (evt evt2 : Event)
    (h : evt.applyDuration = .ok evt2) :
    evt2.properties = evt.properties ∧ evt2.alarms = evt.alarms := by
  rw [Event.applyDuration] at h
  repeat' split at h
  all_goals
    first
      | (simp only [Except.ok.injEq] at h
         subst h
         exact ⟨rfl, rfl⟩)
      | simp at h

theorem applyImplicitOneDay_fields (evt : Event) :
    (evt.applyImplicitOneDayDuration).properties = evt.properties ∧
      (evt.applyImplicitOneDayDuration).alarms = evt.alarms := by
  rw [Event.applyImplicitOneDayDuration]
  split
  · exact ⟨rfl, rfl⟩
  · split_ifs <;> exact ⟨rfl, rfl⟩

theorem applyImplicitEndOfDay_fields (evt : Event) :
    (evt.applyImplicitEndOfDayDuration).properties = evt.properties ∧
      (evt.applyImplicitEndOfDayDuration).alarms = evt.alarms := by
  rw [Event.applyImplicitEndOfDayDuration]
  split
  · exact ⟨rfl, rfl⟩
  · split_ifs <;> exact ⟨rfl, rfl⟩

theorem finalize_fields (evt evt2 : Event)
    (h : Event.finalize evt = .ok evt2) :
    evt2.properties = evt.properties ∧ evt2.alarms = evt.alarms := by
  rw [Event.finalize] at h
  cases hAD : evt.applyDuration with
  | error e =>
    rw [hAD] at h
    exact absurd h (by simp)
  | ok evt3 =>
    rw [hAD] at h
    simp only [Except.ok.injEq] at h
    subst h
    have h1 := applyDuration_fields evt evt3 hAD
    have h2 := applyImplicitOneDay_fields evt3
    have h3 := applyImplicitEndOfDay_fields evt3.applyImplicitOneDayDuration
    exact ⟨h3.1.trans (h2.1.trans h1.1), h3.2.trans (h2.2.trans h1.2)⟩

/-! ### C1: events and the calendar rebuilt from the token stream -/

theorem parseEvent_tokens (cfg : ParserConfig) (e : Event) (rest : List Item)
    (hnd : ∀ p ∈ e.properties, (p.params.map Prod.fst).Nodup)
    (hand : ∀ a ∈ e.alarms, ∀ p ∈ a.properties, (p.params.map Prod.fst).Nodup)
    (hsucc : ∃ e1 e2,
      deriveEventFields cfg (e.properties.map sortPropParams)
        (reEventInit e) = .ok e1 ∧ Event.finalize e1 = .ok e2) :
    ∃ e2, parseEvent cfg (eventTokens e ++ rest) = .ok (e2, rest) ∧
      e2.properties = e.properties.map sortPropParams ∧
      e2.alarms = e.alarms.map reAlarm := by
  obtain ⟨e1, e2, hd, hf⟩ := hsucc
  have hplen : e.properties.length ≤
      (e.properties.flatMap propTokens).length :=
    flatMap_length_ge propTokens e.properties
      (fun p _ => propTokens_length_ge p)
  have halen : e.alarms.length ≤ (e.alarms.flatMap alarmTokens).length :=
    flatMap_length_ge alarmTokens e.alarms
      (fun a _ => by simp [alarmTokens])
  refine ⟨e2, ?_, ?_, ?_⟩
  · rw [show eventTokens e ++ rest =
      ⟨ItemType.eventBegin, beginVEventChars⟩ ::
        (e.properties.flatMap propTokens ++
          (e.alarms.flatMap alarmTokens ++
            ⟨ItemType.eventEnd, endVEventChars⟩ :: rest)) from by
      simp [eventTokens, List.append_assoc]]
    rw [parseEvent, if_neg (by simp)]
    rw [parseEventBody_tokens e.properties e.alarms _ [] [] rest
      (by
        rw [List.length_append, List.length_append]
        simp only [List.length_cons]
        omega)
      hnd hand]
    show (match deriveEventFields cfg ([] ++ e.properties.map sortPropParams)
        { emptyEvent with
          properties := [] ++ e.properties.map sortPropParams
          alarms := [] ++ e.alarms.map reAlarm } with
      | Except.error err => Except.error err
      | Except.ok evt =>
        match Event.finalize evt with
        | Except.error err =>
          (Except.error err : Except (List Char) (Event × List Item))
        | Except.ok evt => Except.ok (evt, rest)) = Except.ok (e2, rest)
    rw [show ([] : List Property) ++ e.properties.map sortPropParams =
      e.properties.map sortPropParams from rfl]
    rw [show ([] : List Alarm) ++ e.alarms.map reAlarm =
      e.alarms.map reAlarm from rfl]
    rw [show ({ emptyEvent with
        properties := e.properties.map sortPropParams
        alarms := e.alarms.map reAlarm } : Event) = reEventInit e from rfl]
    rw [hd]
    show (match Event.finalize e1 with
      | Except.error err =>
        (Except.error err : Except (List Char) (Event × List Item))
      | Except.ok evt => Except.ok (evt, rest)) = Except.ok (e2, rest)
    rw [hf]
  · have h1 := deriveEventFields_fields cfg
      (e.properties.map sortPropParams) (reEventInit e) e1 hd
    have h2 := finalize_fields e1 e2 hf
    rw [h2.1, h1.1]
    rfl
  · have h1 := deriveEventFields_fields cfg
      (e.properties.map sortPropParams) (reEventInit e) e1 hd
    have h2 := finalize_fields e1 e2 hf
    rw [h2.2, h1.2]
    rfl

theorem parseCalendarBody_events :
    ∀ (es : List Event) (cfg : ParserConfig) (fuel : Nat)
      (props : List Property) (events : List Event) (rest : List Item),
      es.length < fuel →
      (∀ e ∈ es, (∀ p ∈ e.properties, (p.params.map Prod.fst).Nodup) ∧
        (∀ a ∈ e.alarms, ∀ p ∈ a.properties, (p.params.map Prod.fst).Nodup)) →
      (∀ e ∈ es, ∃ e1 e2,
        deriveEventFields cfg (e.properties.map sortPropParams)
          (reEventInit e) = .ok e1 ∧ Event.finalize e1 = .ok e2) →
      ∃ evs, parseCalendarBody cfg fuel (es.flatMap eventTokens ++
          ⟨ItemType.calendarEnd, endVCalendarChars⟩ :: rest) props events =
        .ok (props, events ++ evs, rest) ∧
        List.Forall₂ (fun e e2 =>
          e2.properties = e.properties.map sortPropParams ∧
          e2.alarms = e.alarms.map reAlarm) es evs
  | [], cfg, fuel, props, events, rest, hf, _, _ => by
    obtain ⟨f, rfl⟩ : ∃ f, fuel = f + 1 := ⟨fuel - 1, by omega⟩
    refine ⟨[], ?_, List.Forall₂.nil⟩
    show parseCalendarBody cfg (f + 1)
      (⟨ItemType.calendarEnd, endVCalendarChars⟩ :: rest) props events = _
    rw [parseCalendarBody, if_pos rfl]
    simp
  | e :: es, cfg, fuel, props, events, rest, hf, hnd, hsucc => by
    obtain ⟨f, rfl⟩ : ∃ f, fuel = f + 1 := ⟨fuel - 1, by omega⟩
    obtain ⟨e2, hpe, hp1, hp2⟩ := parseEvent_tokens cfg e
      (es.flatMap eventTokens ++
        ⟨ItemType.calendarEnd, endVCalendarChars⟩ :: rest)
      (hnd e (by simp)).1 (hnd e (by simp)).2 (hsucc e (by simp))
    obtain ⟨evs, hrec, hfa⟩ := parseCalendarBody_events es cfg f props
      (events ++ [e2]) rest (by simp at hf; omega)
      (fun x hx => hnd x (by simp [hx])) (fun x hx => hsucc x (by simp [hx]))
    refine ⟨e2 :: evs, ?_, List.Forall₂.cons ⟨hp1, hp2⟩ hfa⟩
    rw [show (e :: es).flatMap eventTokens ++
        ⟨ItemType.calendarEnd, endVCalendarChars⟩ :: rest =
      ⟨ItemType.eventBegin, beginVEventChars⟩ ::
        ((e.properties.flatMap propTokens ++
          (e.alarms.flatMap alarmTokens ++
            ⟨ItemType.eventEnd, endVEventChars⟩ :: [])) ++
          (es.flatMap eventTokens ++
            ⟨ItemType.calendarEnd, endVCalendarChars⟩ :: rest)) from by
      simp [eventTokens, List.flatMap_cons, List.append_assoc]]
    rw [parseCalendarBody, if_neg (by simp), if_pos rfl]
    rw [show (⟨ItemType.eventBegin, beginVEventChars⟩ : Item) ::
        ((e.properties.flatMap propTokens ++
          (e.alarms.flatMap alarmTokens ++
            ⟨ItemType.eventEnd, endVEventChars⟩ :: [])) ++
          (es.flatMap eventTokens ++
            ⟨ItemType.calendarEnd, endVCalendarChars⟩ :: rest)) =
      eventTokens e ++ (es.flatMap eventTokens ++
        ⟨ItemType.calendarEnd, endVCalendarChars⟩ :: rest) from by
      simp [eventTokens, List.append_assoc]]
    rw [hpe]
    show parseCalendarBody cfg f (es.flatMap eventTokens ++
      ⟨ItemType.calendarEnd, endVCalendarChars⟩ :: rest) props
      (events ++ [e2]) = _
    rw [hrec]
    simp

theorem parseCalendarBody_tokens :
    ∀ (ps : List Property) (es : List Event) (cfg : ParserConfig)
      (fuel : Nat) (props : List Property) (events : List Event)
      (rest : List Item), ps.length + es.length < fuel →
      (∀ p ∈ ps, (p.params.map Prod.fst).Nodup) →
      (∀ e ∈ es, (∀ p ∈ e.properties, (p.params.map Prod.fst).Nodup) ∧
        (∀ a ∈ e.alarms, ∀ p ∈ a.properties, (p.params.map Prod.fst).Nodup)) →
      (∀ e ∈ es, ∃ e1 e2,
        deriveEventFields cfg (e.properties.map sortPropParams)
          (reEventInit e) = .ok e1 ∧ Event.finalize e1 = .ok e2) →
      ∃ evs, parseCalendarBody cfg fuel (ps.flatMap propTokens ++
          (es.flatMap eventTokens ++
            ⟨ItemType.calendarEnd, endVCalendarChars⟩ :: rest)) props events =
        .ok (props ++ ps.map sortPropParams, events ++ evs, rest) ∧
        List.Forall₂ (fun e e2 =>
          e2.properties = e.properties.map sortPropParams ∧
          e2.alarms = e.alarms.map reAlarm) es evs
  | [], es, cfg, fuel, props, events, rest, hf, _, hnd2, hsucc => by
    obtain ⟨evs, hbody, hfa⟩ := parseCalendarBody_events es cfg fuel props
      events rest (by simpa using hf) hnd2 hsucc
    refine ⟨evs, ?_, hfa⟩
    rw [show ([] : List Property).flatMap propTokens ++
      (es.flatMap eventTokens ++
        ⟨ItemType.calendarEnd, endVCalendarChars⟩ :: rest) =
      es.flatMap eventTokens ++
        ⟨ItemType.calendarEnd, endVCalendarChars⟩ :: rest from by simp]
    rw [hbody]
    simp
  | p :: ps, es, cfg, fuel, props, events, rest, hf, hnd, hnd2, hsucc => by
    obtain ⟨f, rfl⟩ : ∃ f, fuel = f + 1 := ⟨fuel - 1, by omega⟩
    obtain ⟨evs, hrec, hfa⟩ := parseCalendarBody_tokens ps es cfg f
      (props ++ [sortPropParams p]) events rest (by simp at hf; omega)
      (fun x hx => hnd x (by simp [hx])) hnd2 hsucc
    refine ⟨evs, ?_, hfa⟩
    rw [show (p :: ps).flatMap propTokens ++
        (es.flatMap eventTokens ++
          ⟨ItemType.calendarEnd, endVCalendarChars⟩ :: rest) =
      ⟨ItemType.name, p.name⟩ ::
        (((sortParams p.params).flatMap paramTokens ++
          ⟨ItemType.value, p.value⟩ :: []) ++
          (ps.flatMap propTokens ++
            (es.flatMap eventTokens ++
              ⟨ItemType.calendarEnd, endVCalendarChars⟩ :: rest))) from by
      simp [propTokens, List.flatMap_cons, List.append_assoc]]
    rw [parseCalendarBody, if_neg (by simp), if_neg (by simp),
      if_pos rfl]
    rw [show (⟨ItemType.name, p.name⟩ : Item) ::
        (((sortParams p.params).flatMap paramTokens ++
          ⟨ItemType.value, p.value⟩ :: []) ++
          (ps.flatMap propTokens ++
            (es.flatMap eventTokens ++
              ⟨ItemType.calendarEnd, endVCalendarChars⟩ :: rest))) =
      propTokens p ++ (ps.flatMap propTokens ++
        (es.flatMap eventTokens ++
          ⟨ItemType.calendarEnd, endVCalendarChars⟩ :: rest)) from by
      simp [propTokens, List.append_assoc]]
    rw [parseProperty_tokens p _ (hnd p (by simp))]
    show parseCalendarBody cfg f (ps.flatMap propTokens ++
      (es.flatMap eventTokens ++
        ⟨ItemType.calendarEnd, endVCalendarChars⟩ :: rest))
      (props ++ [sortPropParams p]) events = _
    rw [hrec]
    simp

theorem deriveCalendarFields_fields :
    ∀ (ps : List Property) (cal : Calendar),
      (deriveCalendarFields ps cal).properties = cal.properties ∧
      (deriveCalendarFields ps cal).events = cal.events ∧
      (deriveCalendarFields ps cal).alarms = cal.alarms
  | [], cal => ⟨rfl, rfl, rfl⟩
  | p :: ps, cal => by
    have hstep : deriveCalendarFields (p :: ps) cal =
        deriveCalendarFields ps
          (if p.name = chars "VERSION" then { cal with version := p.value }
           else if p.name = chars "METHOD" then { cal with method := p.value }
           else if p.name = chars "PRODID" then
             { cal with productID := p.value }
           else cal) := by
      rw [deriveCalendarFields, deriveCalendarFields, List.foldl_cons]
    rw [hstep]
    have hrec := deriveCalendarFields_fields ps
      (if p.name = chars "VERSION" then { cal with version := p.value }
       else if p.name = chars "METHOD" then { cal with method := p.value }
       else if p.name = chars "PRODID" then { cal with productID := p.value }
       else cal)
    have hstep2 :
        (if p.name = chars "VERSION" then { cal with version := p.value }
         else if p.name = chars "METHOD" then { cal with method := p.value }
         else if p.name = chars "PRODID" then { cal with productID := p.value }
         else cal).properties = cal.properties ∧
        (if p.name = chars "VERSION" then { cal with version := p.value }
         else if p.name = chars "METHOD" then { cal with method := p.value }
         else if p.name = chars "PRODID" then { cal with productID := p.value }
         else cal).events = cal.events ∧
        (if p.name = chars "VERSION" then { cal with version := p.value }
         else if p.name = chars "METHOD" then { cal with method := p.value }
         else if p.name = chars "PRODID" then { cal with productID := p.value }
         else cal).alarms = cal.alarms := by
      split_ifs <;> exact ⟨rfl, rfl, rfl⟩
    exact ⟨hrec.1.trans hstep2.1, hrec.2.1.trans hstep2.2.1,
      hrec.2.2.trans hstep2.2.2⟩

/-- parse.Items on the token stream of an encoded calendar: the calendar
properties come back with parameters sorted, and each event comes back with
its properties and its alarms' properties sorted the same way. -/
theorem parseItems_calTokens (cfg : ParserConfig) (c : Calendar)
    (hnd : ∀ p ∈ c.properties, (p.params.map Prod.fst).Nodup)
    (hnd2 : ∀ e ∈ c.events,
      (∀ p ∈ e.properties, (p.params.map Prod.fst).Nodup) ∧
      (∀ a ∈ e.alarms, ∀ p ∈ a.properties, (p.params.map Prod.fst).Nodup))
    (hsucc : ∀ e ∈ c.events, ∃ e1 e2,
      deriveEventFields cfg (e.properties.map sortPropParams)
        (reEventInit e) = .ok e1 ∧ Event.finalize e1 = .ok e2) :
    ∃ cal2, parseItems cfg (calTokens c) = .ok cal2 ∧
      cal2.properties = c.properties.map sortPropParams ∧
      List.Forall₂ (fun e e2 =>
        e2.properties = e.properties.map sortPropParams ∧
        e2.alarms = e.alarms.map reAlarm) c.events cal2.events := by
  have hplen : c.properties.length ≤
      (c.properties.flatMap propTokens).length :=
    flatMap_length_ge propTokens c.properties
      (fun p _ => propTokens_length_ge p)
  have helen : c.events.length ≤ (c.events.flatMap eventTokens).length :=
    flatMap_length_ge eventTokens c.events
      (fun e _ => by simp [eventTokens])
  obtain ⟨evs, hbody, hfa⟩ := parseCalendarBody_tokens c.properties c.events
    cfg ((c.properties.flatMap propTokens ++ (c.events.flatMap eventTokens ++
      ⟨ItemType.calendarEnd, endVCalendarChars⟩ ::
        [(⟨ItemType.eof, []⟩ : Item)])).length + 1)
    [] [] [(⟨ItemType.eof, []⟩ : Item)]
    (by
      rw [List.length_append, List.length_append]
      simp only [List.length_cons, List.length_nil]
      omega)
    hnd hnd2 hsucc
  refine ⟨deriveCalendarFields (c.properties.map sortPropParams)
    ⟨c.properties.map sortPropParams, [], [], chars "GREGORIAN", [], evs, []⟩,
    ?_, ?_, ?_⟩
  · show parseCalendar cfg (calTokens c) = _
    rw [show calTokens c =
      ⟨ItemType.calendarBegin, beginVCalendarChars⟩ ::
        (c.properties.flatMap propTokens ++ (c.events.flatMap eventTokens ++
          ⟨ItemType.calendarEnd, endVCalendarChars⟩ ::
            [(⟨ItemType.eof, []⟩ : Item)])) from rfl]
    rw [parseCalendar, if_neg (by simp)]
    rw [hbody]
    try simp only [List.nil_append]
    try rfl
  · have hd := deriveCalendarFields_fields (c.properties.map sortPropParams)
      ⟨c.properties.map sortPropParams, [], [], chars "GREGORIAN", [], evs, []⟩
    exact hd.1
  · have hd := deriveCalendarFields_fields (c.properties.map sortPropParams)
      ⟨c.properties.map sortPropParams, [], [], chars "GREGORIAN", [], evs, []⟩
    rw [hd.2.1]
    exact hfa


/-! ### Claim C1: the encode/parse round trip -/

/-- C1, counterexample: the valid document with property line
BEGIN;:VCALENDAR parses (the empty parameter name emits no token, so the
property is BEGIN with value VCALENDAR and no parameters), but encoding
that calendar serializes the property as the line BEGIN:VCALENDAR, which
re-lexes as a CalendarBegin marker, and the second parse fails with the
unexpected-item-type error instead of returning the same raw property
list. -/
theorem C1_counterexample :
    parseDocument utcLoc
        (chars "BEGIN:VCALENDAR\r\nBEGIN;:VCALENDAR\r\nEND:VCALENDAR") =
      .ok ⟨[⟨chars "BEGIN", [], chars "VCALENDAR"⟩], [], [],
        chars "GREGORIAN", [], [], []⟩ ∧
    encodeCalendar ⟨[⟨chars "BEGIN", [], chars "VCALENDAR"⟩], [], [],
        chars "GREGORIAN", [], [], []⟩ =
      chars "BEGIN:VCALENDAR\r\nBEGIN:VCALENDAR\r\nEND:VCALENDAR" ∧
    parseDocument utcLoc
        (encodeCalendar ⟨[⟨chars "BEGIN", [], chars "VCALENDAR"⟩], [], [],
          chars "GREGORIAN", [], [], []⟩) =
      .error unexpectedTypeErr :=
  ⟨by decide, by decide, by decide⟩

/-- C1 (corrected): for a calendar whose raw properties all satisfy PropOk
(runes in the lexer's classes, unique parameter keys, no marker collision)
and whose events derive and finalize successfully on the re-read
properties, encoding and re-parsing succeeds and returns the same raw
property lists for the calendar, its events and their alarms, except that
each property's parameters come back reordered by name — a permutation
that preserves every parameter's name and value contents and leaves the
property's name and value untouched.  The round trip is not the identity
of the original claim, and it fails entirely for properties (such as
BEGIN;:VCALENDAR) whose serialization collides with a component marker. -/
theorem C1_theorem (strict : Bool) (cfg : ParserConfig) (cal : Calendar)
    (hp : ∀ p ∈ cal.properties, PropOk p)
    (he : ∀ e ∈ cal.events, (∀ p ∈ e.properties, PropOk p) ∧
      (∀ a ∈ e.alarms, ∀ p ∈ a.properties, PropOk p))
    (hsucc : ∀ e ∈ cal.events, ∃ e1 e2,
      deriveEventFields cfg (e.properties.map sortPropParams)
        (reEventInit e) = .ok e1 ∧ Event.finalize e1 = .ok e2) :
    lexDocument strict (encodeCalendar cal) = calTokens cal ∧
    (∃ cal2, parseItems cfg (lexDocument strict (encodeCalendar cal)) =
        .ok cal2 ∧
      cal2.properties = cal.properties.map sortPropParams ∧
      List.Forall₂ (fun e e2 =>
        e2.properties = e.properties.map sortPropParams ∧
        e2.alarms.map (fun al => al.properties) =
          e.alarms.map (fun a => a.properties.map sortPropParams))
        cal.events cal2.events) ∧
    (∀ p : Property, List.Perm (sortPropParams p).params p.params ∧
      (sortPropParams p).name = p.name ∧
      (sortPropParams p).value = p.value) := by
  have hlex := lex_encodeCalendar strict cal hp he
  have hnd : ∀ p ∈ cal.properties, (p.params.map Prod.fst).Nodup :=
    fun p hp2 => ((hp p hp2).2.2.2.2).1
  have hnd2 : ∀ e ∈ cal.events,
      (∀ p ∈ e.properties, (p.params.map Prod.fst).Nodup) ∧
      (∀ a ∈ e.alarms, ∀ p ∈ a.properties, (p.params.map Prod.fst).Nodup) :=
    fun e he2 =>
      ⟨fun p hp2 => (((he e he2).1 p hp2).2.2.2.2).1,
       fun a ha p hp2 => (((he e he2).2 a ha p hp2).2.2.2.2).1⟩
  obtain ⟨cal2, hparse, hprops, hfa⟩ :=
    parseItems_calTokens cfg cal hnd hnd2 hsucc
  refine ⟨hlex, ⟨cal2, ?_, hprops, ?_⟩, ?_⟩
  · rw [hlex]
    exact hparse
  · refine List.Forall₂.imp ?_ hfa
    intro e e2 hrel
    refine ⟨hrel.1, ?_⟩
    rw [hrel.2, List.map_map]
    refine List.map_congr_left (fun a _ => ?_)
    simp only [Function.comp_apply]
    exact reAlarm_properties a
  · exact fun p => ⟨sortParams_perm p.params, rfl, rfl⟩

/-- The C1 witness calendar: one property whose two parameters are written
out of name order, and no events. -/
def c1cal : Calendar :=
  ⟨[⟨chars "X-A", [(chars "K2", [chars "v2"]),
      (chars "K1", [chars "va", chars "vb"])], chars "w"⟩],
    [], [], chars "GREGORIAN", [], [], []⟩

/-- C1, witness: the amended round trip on c1cal. -/
theorem C1_witness :
    ((∀ p ∈ c1cal.properties, PropOk p) ∧
     (∀ e ∈ c1cal.events, (∀ p ∈ e.properties, PropOk p) ∧
       (∀ a ∈ e.alarms, ∀ p ∈ a.properties, PropOk p)) ∧
     (∀ e ∈ c1cal.events, ∃ e1 e2,
       deriveEventFields ⟨none, utcLoc, false⟩
         (e.properties.map sortPropParams) (reEventInit e) = .ok e1 ∧
       Event.finalize e1 = .ok e2)) ∧
    (lexDocument false (encodeCalendar c1cal) = calTokens c1cal ∧
     (∃ cal2, parseItems ⟨none, utcLoc, false⟩
         (lexDocument false (encodeCalendar c1cal)) = .ok cal2 ∧
       cal2.properties = c1cal.properties.map sortPropParams ∧
       List.Forall₂ (fun e e2 =>
         e2.properties = e.properties.map sortPropParams ∧
         e2.alarms.map (fun al => al.properties) =
           e.alarms.map (fun a => a.properties.map sortPropParams))
         c1cal.events cal2.events) ∧
     (∀ p : Property, List.Perm (sortPropParams p).params p.params ∧
       (sortPropParams p).name = p.name ∧
       (sortPropParams p).value = p.value)) := by
  have h1 : ∀ p ∈ c1cal.properties, PropOk p := by decide
  have h2 : ∀ e ∈ c1cal.events, (∀ p ∈ e.properties, PropOk p) ∧
      (∀ a ∈ e.alarms, ∀ p ∈ a.properties, PropOk p) := by simp [c1cal]
  have h3 : ∀ e ∈ c1cal.events, ∃ e1 e2,
      deriveEventFields ⟨none, utcLoc, false⟩
        (e.properties.map sortPropParams) (reEventInit e) = .ok e1 ∧
      Event.finalize e1 = .ok e2 := by simp [c1cal]
  exact ⟨⟨h1, h2, h3⟩,
    C1_theorem false ⟨none, utcLoc, false⟩ c1cal h1 h2 h3⟩

end Ical
